import Mathlib

/-!
# bares: recursive-descent parser for arithmetic expressions

Shallow embedding of `src/parser/src/parser.cpp` and proofs about it.

Modelling decisions:

* The input `std::string` is a `List Char`, one `Char` per C++ `char`; the
  iterator `it_curr_symb` is the index `std::distance(expr.begin(), it_curr_symb)`.
* Every member function that changes the instance returns its C++ return value
  together with the state of the instance it leaves behind.
* `*it_curr_symb` at the end of the string reads the terminating null
  character (`deref`); `integer()` does so without testing `end_input()`.
* `std::stoll` may throw. Nothing in `parser.cpp` catches, so an exception ends
  every enclosing call: the outcome `thrown`, with the state at the throw.
* The loops of `skip_ws` and of `natural_number` are bounded by the number of
  unread characters; `skip_ws_exit` and `digit_loop_exit` show that they end on
  the loop condition of the source and not on the bound.
* The mutually recursive `expression` / `term` carry a recursion budget that
  every call lowers by one; a call without budget ends in `no_fuel`. `parse`
  supplies `2 * length + 2`.
* The header `parser.h` is not part of the sources: the bounds of
  `required_int_type` are the parameter `IntLimits`, and `input_int_type` is
  taken to be `long long`, the result type of `std::stoll`.
* Output to `std::cout` in `parse` is left out.
-/

namespace Bares

/-! ## Data model -/

/-- Terminal symbols, `Parser::terminal_symbol_t`. -/
inductive terminal_symbol_t
  | TS_PLUS
  | TS_MINUS
  | TS_EXPO
  | TS_MULT
  | TS_DIV
  | TS_OPENING_SCOPE
  | TS_CLOSING_SCOPE
  | TS_WS
  | TS_TAB
  | TS_ZERO
  | TS_NON_ZERO_DIGIT
  | TS_EOS
  | TS_INVALID
  deriving DecidableEq, Repr

/-- Token kinds, `Token::token_t`. -/
inductive token_t
  | OPERAND
  | OPERATOR
  | OPENING_SCOPE
  | CLOSING_SCOPE
  deriving DecidableEq, Repr

/-- A token: the lexeme and its kind, as built by `Token( value, type )`. -/
structure Token where
  value : List Char
  type : token_t
  deriving DecidableEq, Repr

/-- Result codes, `Parser::ParserResult::code_t`. -/
inductive code_t
  | PARSER_OK
  | MISSING_TERM
  | MISSING_CLOSING_PARENTHESIS
  | INTEGER_OUT_OF_RANGE
  | ILL_FORMED_INTEGER
  | UNEXPECTED_END_OF_EXPRESSION
  | EXTRANEOUS_SYMBOL
  deriving DecidableEq, Repr

/-- The value `Parser::ParserResult`: a code and a column. -/
structure ParserResult where
  type : code_t
  at_col : Nat
  deriving DecidableEq, Repr

/-- Modelled from the spec: the header `parser.h` with the constructor of
`ParserResult` is missing. The one-argument calls `ParserResult( PARSER_OK )`
leave the column to its default; the spec calls the column of a success
unused, and it is taken as 0 here. -/
def ParserResult.of_code (t : code_t) : ParserResult := ⟨t, 0⟩

/-- Bounds of `Parser::required_int_type`, that is
`std::numeric_limits< Parser::required_int_type >::min()` and `::max()`.
The type is declared in the missing header, so its bounds are a parameter. -/
structure IntLimits where
  min : Int
  max : Int
  deriving DecidableEq, Repr

/-- The mutable members of a `Parser` instance. -/
structure Parser where
  expr : List Char
  it_curr_symb : Nat
  token_list : List Token
  deriving DecidableEq, Repr

/-- C++ exceptions that `std::stoll` throws. -/
inductive Exception
  | invalid_argument
  | out_of_range
  deriving DecidableEq, Repr

deriving instance DecidableEq for Except

/-- How a call of a production ends: it returns a `ParserResult`, an exception
escapes from it, or the recursion budget of the model ran out. -/
inductive Outcome
  | done (r : ParserResult)
  | thrown (e : Exception)
  | no_fuel
  deriving DecidableEq, Repr

/-! ## Symbol classifier -/

/-- `Parser::lexer`. -/
def lexer (c_ : Char) : terminal_symbol_t :=
  if c_ = '+' then .TS_PLUS
  else if c_ = '-' then .TS_MINUS
  else if c_ = '^' then .TS_EXPO
  else if c_ = '*' then .TS_MULT
  else if c_ = '/' then .TS_DIV
  else if c_ = '(' then .TS_OPENING_SCOPE
  else if c_ = ')' then .TS_CLOSING_SCOPE
  else if c_ = ' ' then .TS_WS
  else if c_ = '\t' then .TS_TAB
  else if c_ = '0' then .TS_ZERO
  else if c_ = '1' ∨ c_ = '2' ∨ c_ = '3' ∨ c_ = '4' ∨ c_ = '5' ∨ c_ = '6' ∨ c_ = '7'
      ∨ c_ = '8' ∨ c_ = '9' then .TS_NON_ZERO_DIGIT
  else if c_ = '\x00' then .TS_EOS
  else .TS_INVALID

/-! ## Cursor primitives -/

/-- `Parser::end_input`. -/
def end_input (s : Parser) : Bool :=
  s.it_curr_symb == s.expr.length

/-- The read `*it_curr_symb`. At the end of a `std::string` the read yields the
terminating null character. -/
def deref (s : Parser) : Char :=
  s.expr.getD s.it_curr_symb '\x00'

/-- `Parser::next_symbol`. -/
def next_symbol (s : Parser) : Parser :=
  { s with it_curr_symb := s.it_curr_symb + 1 }

/-- `Parser::peek`. -/
def peek (c_ : terminal_symbol_t) (s : Parser) : Bool :=
  !end_input s && (lexer (deref s) == c_)

/-- `Parser::accept`: the returned flag and the state left behind. -/
def accept (c_ : terminal_symbol_t) (s : Parser) : Bool × Parser :=
  if peek c_ s then (true, next_symbol s) else (false, s)

/-- The loop of `Parser::skip_ws`, with a bound on the number of iterations. -/
def skip_ws_loop : Nat → Parser → Parser
  | 0, s => s
  | n + 1, s =>
    if !end_input s &&
        (lexer (deref s) == .TS_WS || lexer (deref s) == .TS_TAB) then
      skip_ws_loop n (next_symbol s)
    else s

/-- `Parser::skip_ws`. The loop runs at most once per remaining character. -/
def skip_ws (s : Parser) : Parser :=
  skip_ws_loop (s.expr.length - s.it_curr_symb) s

/-- `Parser::expect`. -/
def expect (c_ : terminal_symbol_t) (s : Parser) : Bool × Parser :=
  accept c_ (skip_ws s)

/-- The statement `token_list.push_back( Token( value, type ) )`. -/
def push_back (s : Parser) (value : List Char) (type : token_t) : Parser :=
  { s with token_list := s.token_list ++ [⟨value, type⟩] }

/-! ## Numeric conversion -/

/-- The C function `isspace` in the default locale. -/
def isspace (c : Char) : Bool :=
  c == ' ' || (9 ≤ c.toNat && c.toNat ≤ 13)

/-- Decimal digits. -/
def isdigit (c : Char) : Bool :=
  48 ≤ c.toNat && c.toNat ≤ 57

/-- Value of a run of decimal digits. -/
def decimal_value (ds : List Char) : Nat :=
  ds.foldl (fun acc c => 10 * acc + (c.toNat - 48)) 0

/-- Smallest `long long`. -/
def LLONG_MIN : Int := -9223372036854775808

/-- Largest `long long`. -/
def LLONG_MAX : Int := 9223372036854775807

/-- `std::stoll( str )` in base 10: leading white space is skipped, a sign is
optional, then the longest run of digits is converted. It throws
`std::invalid_argument` when there is no digit and `std::out_of_range` when
the value does not fit a `long long`. -/
def stoll (str : List Char) : Except Exception Int :=
  let s1 := str.dropWhile isspace
  let negative := s1.head? == some '-'
  let s2 := if s1.head? == some '-' || s1.head? == some '+' then s1.tail else s1
  let ds := s2.takeWhile isdigit
  if ds.isEmpty then .error .invalid_argument
  else
    let value : Int := if negative then -(decimal_value ds : Int) else (decimal_value ds : Int)
    if LLONG_MIN ≤ value ∧ value ≤ LLONG_MAX then .ok value else .error .out_of_range

/-! ## Grammar engine -/

/-- `Parser::digit_excl_zero`. -/
def digit_excl_zero (s : Parser) : Bool × Parser :=
  accept .TS_NON_ZERO_DIGIT s

/-- `Parser::digit`. -/
def digit (s : Parser) : Bool × Parser :=
  if (accept .TS_ZERO s).1 then (true, (accept .TS_ZERO s).2)
  else accept .TS_NON_ZERO_DIGIT (accept .TS_ZERO s).2

/-- The loop `while( digit() ) ;`, with a bound on the number of iterations. -/
def digit_loop : Nat → Parser → Parser
  | 0, s => (digit s).2
  | n + 1, s => if (digit s).1 then digit_loop n (digit s).2 else (digit s).2

/-- `Parser::natural_number`. -/
def natural_number (s : Parser) : ParserResult × Parser :=
  if (digit_excl_zero s).1 then
    (ParserResult.of_code .PARSER_OK,
      digit_loop ((digit_excl_zero s).2.expr.length - (digit_excl_zero s).2.it_curr_symb)
        (digit_excl_zero s).2)
  else
    (⟨.ILL_FORMED_INTEGER, (digit_excl_zero s).2.it_curr_symb⟩, (digit_excl_zero s).2)

/-- `Parser::integer`. -/
def integer (s : Parser) : ParserResult × Parser :=
  if lexer (deref s) = .TS_ZERO then (ParserResult.of_code .PARSER_OK, s)
  else natural_number (accept .TS_MINUS s).2

/-- The characters in `[begin_token, it_curr_symb)`, as copied by
`num.insert( num.begin(), begin_token, it_curr_symb )`. -/
def substring (s : Parser) (begin_token : Nat) : List Char :=
  (s.expr.drop begin_token).take (s.it_curr_symb - begin_token)

/-- The chain of `expect` calls at the head of the loop of
`Parser::expression`: the first operator that matches is recorded as a token.
The flag tells whether one matched. -/
def expect_operator (s : Parser) : Bool × Parser :=
  if (expect .TS_PLUS s).1 then
    (true, push_back (expect .TS_PLUS s).2 ['+'] .OPERATOR)
  else if (expect .TS_MINUS (expect .TS_PLUS s).2).1 then
    (true, push_back (expect .TS_MINUS (expect .TS_PLUS s).2).2 ['-'] .OPERATOR)
  else if (expect .TS_EXPO (expect .TS_MINUS (expect .TS_PLUS s).2).2).1 then
    (true, push_back (expect .TS_EXPO (expect .TS_MINUS (expect .TS_PLUS s).2).2).2
      ['^'] .OPERATOR)
  else if (expect .TS_MULT (expect .TS_EXPO (expect .TS_MINUS
      (expect .TS_PLUS s).2).2).2).1 then
    (true, push_back (expect .TS_MULT (expect .TS_EXPO (expect .TS_MINUS
      (expect .TS_PLUS s).2).2).2).2 ['*'] .OPERATOR)
  else if (expect .TS_DIV (expect .TS_MULT (expect .TS_EXPO (expect .TS_MINUS
      (expect .TS_PLUS s).2).2).2).2).1 then
    (true, push_back (expect .TS_DIV (expect .TS_MULT (expect .TS_EXPO (expect .TS_MINUS
      (expect .TS_PLUS s).2).2).2).2).2 ['/'] .OPERATOR)
  else
    (false, (expect .TS_DIV (expect .TS_MULT (expect .TS_EXPO (expect .TS_MINUS
      (expect .TS_PLUS s).2).2).2).2).2)

/-- The integer branch of `Parser::term` (the `else` of the parenthesis test):
`begin_token` is the position recorded at entry. -/
def term_integer (lim : IntLimits) (begin_token : Nat) (s : Parser) : Outcome × Parser :=
  if (integer s).1.type = .PARSER_OK then
    match stoll (substring (integer s).2 begin_token) with
    | .error e => (.thrown e, (integer s).2)
    | .ok value =>
      if value ≤ lim.max ∧ value ≥ lim.min then
        (.done (integer s).1,
          push_back (integer s).2 (substring (integer s).2 begin_token) .OPERAND)
      else
        (.done ⟨.INTEGER_OUT_OF_RANGE, begin_token⟩, (integer s).2)
  else (.done (integer s).1, (integer s).2)

mutual

/-- `Parser::expression`: the first term, then the loop. -/
def expression (lim : IntLimits) : Nat → Parser → Outcome × Parser
  | 0, s => (.no_fuel, s)
  | n + 1, s =>
    match term lim n (skip_ws s) with
    | (.done result, s1) => expression_loop lim n result s1
    | other => other

/-- The `while` loop of `Parser::expression`, entered with the result of the
last term. -/
def expression_loop (lim : IntLimits) : Nat → ParserResult → Parser → Outcome × Parser
  | 0, _, s => (.no_fuel, s)
  | n + 1, result, s =>
    if result.type = .PARSER_OK ∧ end_input s = false then
      if (expect_operator s).1 then
        match term lim n (expect_operator s).2 with
        | (.done result1, s1) =>
          if result1.type ≠ .PARSER_OK then
            (.done ⟨.MISSING_TERM, result1.at_col⟩, s1)
          else expression_loop lim n result1 s1
        | other => other
      else (.done result, (expect_operator s).2)
    else (.done result, s)

/-- `Parser::term`. The initial value `MISSING_TERM` of `result` is overwritten
on both branches before it is read (by `expression()` or by `integer()`), and
the first of the two copies into `num` is never read; both are left out. -/
def term (lim : IntLimits) : Nat → Parser → Outcome × Parser
  | 0, s => (.no_fuel, s)
  | n + 1, s =>
    if (expect .TS_OPENING_SCOPE (skip_ws s)).1 then
      match expression lim n
          (push_back (expect .TS_OPENING_SCOPE (skip_ws s)).2 ['('] .OPENING_SCOPE) with
      | (.done result, s1) =>
        if result.type = .PARSER_OK then
          if (expect .TS_CLOSING_SCOPE s1).1 = false then
            (.done ⟨.MISSING_CLOSING_PARENTHESIS,
              (expect .TS_CLOSING_SCOPE s1).2.it_curr_symb⟩, (expect .TS_CLOSING_SCOPE s1).2)
          else
            (.done result, push_back (expect .TS_CLOSING_SCOPE s1).2 [')'] .CLOSING_SCOPE)
        else (.done result, s1)
      | other => other
    else
      term_integer lim (skip_ws s).it_curr_symb (expect .TS_OPENING_SCOPE (skip_ws s)).2

end

/-! ## Entry point -/

/-- The first three statements of `Parser::parse`: `expr = e_`,
`it_curr_symb = expr.begin()` and `token_list.clear()`. -/
def Parser.reset (self : Parser) (e_ : List Char) : Parser :=
  { self with expr := e_, it_curr_symb := 0, token_list := [] }

/-- `Parser::parse`: `self` is the instance before the call, `e_` the input. -/
def parse (lim : IntLimits) (self : Parser) (e_ : List Char) : Outcome × Parser :=
  let s0 : Parser := self.reset e_
  if end_input (skip_ws s0) then
    (.done ⟨.UNEXPECTED_END_OF_EXPRESSION, (skip_ws s0).it_curr_symb⟩, skip_ws s0)
  else
    match expression lim (2 * e_.length + 2) (skip_ws s0) with
    | (.done result, s1) =>
      if result.type = .PARSER_OK then
        if end_input (skip_ws s1) = false then
          (.done ⟨.EXTRANEOUS_SYMBOL, (skip_ws s1).it_curr_symb⟩, skip_ws s1)
        else (.done result, skip_ws s1)
      else (.done result, s1)
    | other => other

/-- `Parser::get_tokens`. -/
def get_tokens (s : Parser) : List Token :=
  s.token_list

/-! ## Specification vocabulary -/

/-- Space or tab, the two characters that `skip_ws` skips. -/
def is_blank (c : Char) : Bool :=
  c == ' ' || c == '\t'

/-- The input with all space and tab characters removed. -/
def strip_blanks (l : List Char) : List Char :=
  l.filter (fun c => !is_blank c)

/-- The unread part of the input. -/
def rest (s : Parser) : List Char :=
  s.expr.drop s.it_curr_symb

/-- Concatenation of the lexemes of a token list, in list order. -/
def lexemes (toks : List Token) : List Char :=
  (toks.map Token.value).flatten

/-- The kinds of a token list, in list order. -/
def kinds (toks : List Token) : List token_t :=
  toks.map Token.type

/-- A nonzero decimal digit. -/
def is_nonzero_digit (c : Char) : Bool :=
  decide (c = '1' ∨ c = '2' ∨ c = '3' ∨ c = '4' ∨ c = '5' ∨ c = '6' ∨ c = '7'
    ∨ c = '8' ∨ c = '9')

/-- A decimal digit: `"0" | nonzero_digit`. -/
def is_digit (c : Char) : Bool :=
  c == '0' || is_nonzero_digit c

/-- One of the five operator glyphs. -/
def is_operator (c : Char) : Bool :=
  c == '+' || c == '-' || c == '^' || c == '*' || c == '/'

/-- Nonterminals of the grammar of the spec. -/
inductive nonterminal
  | expression
  | term
  | integer
  | natural_number
  deriving DecidableEq, Repr

/-- Derivability in the grammar of the spec, written from its EBNF:
`expression := term , { op , term }`, `term := "(" , expression , ")" | integer`,
`integer := "0" | ["-"] , natural_number`,
`natural_number := nonzero_digit , { digit }`. -/
inductive Derives : nonterminal → List Char → Prop
  | natural_number (d : Char) (ds : List Char) :
      is_nonzero_digit d = true → (∀ c ∈ ds, is_digit c = true) →
      Derives .natural_number (d :: ds)
  | integer_zero : Derives .integer ['0']
  | integer_natural (w : List Char) : Derives .natural_number w → Derives .integer w
  | integer_minus (w : List Char) : Derives .natural_number w → Derives .integer ('-' :: w)
  | term_integer (w : List Char) : Derives .integer w → Derives .term w
  | term_scope (w : List Char) : Derives .expression w → Derives .term ('(' :: w ++ [')'])
  | expression_term (w : List Char) : Derives .term w → Derives .expression w
  | expression_more (w : List Char) (c : Char) (v : List Char) :
      Derives .expression w → is_operator c = true → Derives .term v →
      Derives .expression (w ++ c :: v)

/-- Nonterminals of the token-level grammar. -/
inductive token_nonterminal
  | E
  | T
  deriving DecidableEq, Repr

/-- Derivability in the token-level grammar `E := T { OPERATOR T }`,
`T := OPERAND | OPENING_SCOPE E CLOSING_SCOPE`. -/
inductive TokenDerives : token_nonterminal → List token_t → Prop
  | T_operand : TokenDerives .T [.OPERAND]
  | T_scope (w : List token_t) :
      TokenDerives .E w → TokenDerives .T (.OPENING_SCOPE :: w ++ [.CLOSING_SCOPE])
  | E_term (w : List token_t) : TokenDerives .T w → TokenDerives .E w
  | E_more (w v : List token_t) :
      TokenDerives .E w → TokenDerives .T v → TokenDerives .E (w ++ .OPERATOR :: v)

/-- Nesting depth after reading a run of token kinds, starting from depth `d`;
`none` when a closing parenthesis has no partner. -/
def scope_depth : Nat → List token_t → Option Nat
  | d, [] => some d
  | d, k :: ks =>
    match k with
    | .OPENING_SCOPE => scope_depth (d + 1) ks
    | .CLOSING_SCOPE => if d = 0 then none else scope_depth (d - 1) ks
    | _ => scope_depth d ks

/-- Balanced parentheses: every closing one has a partner and none stays open. -/
def balanced (ks : List token_t) : Bool :=
  scope_depth 0 ks == some 0

/-- A kind that can end a term. -/
def ends_term (k : token_t) : Bool :=
  k == .OPERAND || k == .CLOSING_SCOPE

/-- A kind that can begin a term. -/
def begins_term (k : token_t) : Bool :=
  k == .OPERAND || k == .OPENING_SCOPE

/-- Two neighbouring kinds `a b` are compatible with operators standing between
terms: after an `OPERATOR` a term begins, before an `OPERATOR` a term ends. -/
def between (a b : token_t) : Bool :=
  (a != .OPERATOR || begins_term b) && (b != .OPERATOR || ends_term a)

/-- Every `OPERATOR` stands strictly between two terms: the list starts with the
start of a term, ends with the end of a term, and all neighbours are compatible. -/
def operators_between (ks : List token_t) : Prop :=
  (∀ x ∈ ks.head?, begins_term x = true) ∧ (∀ x ∈ ks.getLast?, ends_term x = true) ∧
    List.Chain' (fun a b => between a b = true) ks

/-- The parser moved from `s` to `t` over the characters `seg` of the input and
appended the tokens `toks`. -/
structure Step (s t : Parser) (seg : List Char) (toks : List Token) : Prop where
  expr_eq : t.expr = s.expr
  pos_eq : t.it_curr_symb = s.it_curr_symb + seg.length
  rest_eq : rest s = seg ++ rest t
  tokens_eq : t.token_list = s.token_list ++ toks
  in_bounds : t.it_curr_symb ≤ t.expr.length

/-- What a successful call of a production establishes between the state `s`
at entry and the state `t` at return: it moved over a segment of the input and
appended tokens such that the lexemes spell the segment without its blanks,
the segment without its blanks derives from `nt`, and the token kinds derive
from `tnt`. -/
def Sound (nt : nonterminal) (tnt : token_nonterminal) (s t : Parser) : Prop :=
  ∃ seg toks, Step s t seg toks ∧ lexemes toks = strip_blanks seg ∧
    Derives nt (strip_blanks seg) ∧ TokenDerives tnt (kinds toks)

/-- What a successful run of the operator loop establishes: the segment it moved
over extends any expression to an expression, at the level of characters and at
the level of token kinds. -/
def SoundLoop (s t : Parser) : Prop :=
  ∃ seg toks, Step s t seg toks ∧ lexemes toks = strip_blanks seg ∧
    (∀ w, Derives .expression w → Derives .expression (w ++ strip_blanks seg)) ∧
    (∀ k, TokenDerives .E k → TokenDerives .E (k ++ kinds toks))

/-- The cursor invariant between the state `s` before a call and the state `t`
after it: the input string is the same, the position did not move backward and
does not pass the end of the input. -/
def Forward (s t : Parser) : Prop :=
  t.expr = s.expr ∧ s.it_curr_symb ≤ t.it_curr_symb ∧ t.it_curr_symb ≤ t.expr.length

/-- The list `a` is an initial part of the list `b`. -/
def initial_part (a b : List Char) : Prop :=
  ∃ t, b = a ++ t

/-- The list `w` occurs in `e` as a contiguous run of characters. -/
def part_of (w e : List Char) : Prop :=
  ∃ p q, e = p ++ w ++ q

/-- The value an integer literal denotes: the decimal value of its digits,
negated behind a `-`. -/
def integer_value (w : List Char) : Int :=
  if w.head? = some '-' then -(decimal_value w.tail : Int) else (decimal_value w : Int)

/-- What holds of a token if it is an `OPERAND`: its lexeme is a contiguous run
of `e`, has no space or tab, derives from `integer`, and its value lies within
the bounds of the required integer domain. -/
def operand_ok (lim : IntLimits) (e : List Char) (tok : Token) : Prop :=
  tok.type = .OPERAND →
    part_of tok.value e ∧ (∀ c ∈ tok.value, is_blank c = false) ∧
      Derives .integer tok.value ∧
      lim.min ≤ integer_value tok.value ∧ integer_value tok.value ≤ lim.max

/-- A call moved from `s` to `t` over `seg` and appended `toks`; every operand
among them is a proper literal of `seg`, and the lexemes spell an initial part
of `seg` without its blanks. -/
structure Recorded (lim : IntLimits) (s t : Parser) (seg : List Char) (toks : List Token) :
    Prop where
  step : Step s t seg toks
  operands : ∀ tok ∈ toks, operand_ok lim seg tok
  leads : initial_part (lexemes toks) (strip_blanks seg)

mutual

/-- Depth of the nested calls of `expression()` and `term()` under one call of
`expression()`, that call counted: one more than the deepest `term()` call it
makes, before or inside its loop. It follows the control flow of `expression`. -/
def expression_depth (lim : IntLimits) : Nat → Parser → Nat
  | 0, _ => 0
  | n + 1, s =>
    1 + max (term_depth lim n (skip_ws s))
      (match term lim n (skip_ws s) with
        | (.done result, s1) => loop_depth lim n result s1
        | _ => 0)

/-- Depth of the deepest `term()` call that the loop of `expression()` makes;
the loop itself runs in the frame of `expression()`. It follows the control
flow of `expression_loop`. -/
def loop_depth (lim : IntLimits) : Nat → ParserResult → Parser → Nat
  | 0, _, _ => 0
  | n + 1, result, s =>
    if result.type = .PARSER_OK ∧ end_input s = false then
      if (expect_operator s).1 then
        max (term_depth lim n (expect_operator s).2)
          (match term lim n (expect_operator s).2 with
            | (.done result1, s1) =>
              if result1.type ≠ .PARSER_OK then 0 else loop_depth lim n result1 s1
            | _ => 0)
      else 0
    else 0

/-- Depth of the nested calls under one call of `term()`, that call counted:
one more than the depth of the `expression()` call it makes behind a `(`. -/
def term_depth (lim : IntLimits) : Nat → Parser → Nat
  | 0, _ => 0
  | n + 1, s =>
    1 + (if (expect .TS_OPENING_SCOPE (skip_ws s)).1 then
      expression_depth lim n
        (push_back (expect .TS_OPENING_SCOPE (skip_ws s)).2 ['('] .OPENING_SCOPE)
    else 0)

end

/-- Depth of the nested calls of `expression()` and `term()` during
`Parser::parse`. -/
def parse_depth (lim : IntLimits) (self : Parser) (e_ : List Char) : Nat :=
  if end_input (skip_ws (self.reset e_)) then 0
  else expression_depth lim (2 * e_.length + 2) (skip_ws (self.reset e_))

/-- Indices at which `Parser::peek` reads `*it_curr_symb`: in
`not end_input() and lexer( *it_curr_symb ) == c_` the read is evaluated only
when `end_input()` is false. -/
def peek_reads (s : Parser) : List Nat :=
  if end_input s then [] else [s.it_curr_symb]

/-- Indices at which the loop of `Parser::skip_ws` reads `*it_curr_symb`: the
loop condition evaluates the read only when `end_input()` is false. -/
def skip_ws_loop_reads : Nat → Parser → List Nat
  | 0, s => if end_input s then [] else [s.it_curr_symb]
  | n + 1, s =>
    if end_input s then []
    else s.it_curr_symb ::
      (if lexer (deref s) == .TS_WS || lexer (deref s) == .TS_TAB then
        skip_ws_loop_reads n (next_symbol s)
      else [])

/-- Indices at which `Parser::skip_ws` reads `*it_curr_symb`. -/
def skip_ws_reads (s : Parser) : List Nat :=
  skip_ws_loop_reads (s.expr.length - s.it_curr_symb) s

mutual

/-- Indices at which `integer()` evaluates `lexer( *it_curr_symb )` in its first
statement, which no test of `end_input()` precedes, during one call of
`expression()`. It follows the control flow of `expression`. -/
def expression_integer_reads (lim : IntLimits) : Nat → Parser → List Nat
  | 0, _ => []
  | n + 1, s =>
    term_integer_reads lim n (skip_ws s) ++
      (match term lim n (skip_ws s) with
        | (.done result, s1) => loop_integer_reads lim n result s1
        | _ => [])

/-- The same indices for the loop of `expression()`. -/
def loop_integer_reads (lim : IntLimits) : Nat → ParserResult → Parser → List Nat
  | 0, _, _ => []
  | n + 1, result, s =>
    if result.type = .PARSER_OK ∧ end_input s = false then
      if (expect_operator s).1 then
        term_integer_reads lim n (expect_operator s).2 ++
          (match term lim n (expect_operator s).2 with
            | (.done result1, s1) =>
              if result1.type ≠ .PARSER_OK then [] else loop_integer_reads lim n result1 s1
            | _ => [])
      else []
    else []

/-- The same indices for one call of `term()`: behind a `(` those of the inner
`expression()`, otherwise the position at which `integer()` is entered. -/
def term_integer_reads (lim : IntLimits) : Nat → Parser → List Nat
  | 0, _ => []
  | n + 1, s =>
    if (expect .TS_OPENING_SCOPE (skip_ws s)).1 then
      expression_integer_reads lim n
        (push_back (expect .TS_OPENING_SCOPE (skip_ws s)).2 ['('] .OPENING_SCOPE)
    else [(expect .TS_OPENING_SCOPE (skip_ws s)).2.it_curr_symb]

end

/-- Indices at which `integer()` reads `*it_curr_symb` in its first statement
during `Parser::parse`. -/
def parse_integer_reads (lim : IntLimits) (self : Parser) (e_ : List Char) : List Nat :=
  if end_input (skip_ws (self.reset e_)) then []
  else expression_integer_reads lim (2 * e_.length + 2) (skip_ws (self.reset e_))

/-- An integer literal of the zero-free fragment within the required integer
domain: `["-"] , natural_number` whose value lies within the bounds. -/
def literal_ok (lim : IntLimits) (w : List Char) : Prop :=
  (Derives .natural_number w ∨ ∃ u, w = '-' :: u ∧ Derives .natural_number u) ∧
    lim.min ≤ integer_value w ∧ integer_value w ≤ lim.max

/-- The zero-free fragment of the grammar of the spec, with spaces and tabs
allowed before a term, before an operator and before a `)`, and with every
literal within the required integer domain. The constructors follow those of
`Derives`, with `integer := ["-"] , natural_number` only. -/
inductive Spaced (lim : IntLimits) : nonterminal → List Char → Prop
  | term_integer (bl w : List Char) :
      (∀ c ∈ bl, is_blank c = true) → literal_ok lim w → Spaced lim .term (bl ++ w)
  | term_scope (bl x bl2 : List Char) :
      (∀ c ∈ bl, is_blank c = true) → Spaced lim .expression x →
      (∀ c ∈ bl2, is_blank c = true) →
      Spaced lim .term (bl ++ ('(' :: (x ++ (bl2 ++ [')']))))
  | expression_term (t : List Char) : Spaced lim .term t → Spaced lim .expression t
  | expression_more (x bl : List Char) (c : Char) (t : List Char) :
      Spaced lim .expression x → (∀ b ∈ bl, is_blank b = true) → is_operator c = true →
      Spaced lim .term t → Spaced lim .expression (x ++ (bl ++ (c :: t)))

/-- Nonterminals of the grammar with the repetition unrolled to the right:
`operator_terms` stands for `{ op , term }`. -/
inductive unrolled_nonterminal
  | expression
  | term
  | operator_terms
  deriving DecidableEq, Repr

/-- The fragment `Spaced` read the way the code runs over it: an expression is
a term and then a run of operator and term pairs, taken from the left. -/
inductive Unrolled (lim : IntLimits) : unrolled_nonterminal → List Char → Prop
  | literal (bl w : List Char) :
      (∀ c ∈ bl, is_blank c = true) → literal_ok lim w → Unrolled lim .term (bl ++ w)
  | scope (bl x bl2 : List Char) :
      (∀ c ∈ bl, is_blank c = true) → Unrolled lim .expression x →
      (∀ c ∈ bl2, is_blank c = true) →
      Unrolled lim .term (bl ++ ('(' :: (x ++ (bl2 ++ [')']))))
  | no_more : Unrolled lim .operator_terms []
  | more (bl : List Char) (c : Char) (t y : List Char) :
      (∀ b ∈ bl, is_blank b = true) → is_operator c = true →
      Unrolled lim .term t → Unrolled lim .operator_terms y →
      Unrolled lim .operator_terms (bl ++ (c :: (t ++ y)))
  | expression (t y : List Char) :
      Unrolled lim .term t → Unrolled lim .operator_terms y →
      Unrolled lim .expression (t ++ y)

/-- A whole input of the zero-free fragment: an expression with blanks at the
allowed places, and blanks at the end. -/
def well_spaced (lim : IntLimits) (e : List Char) : Prop :=
  ∃ x bl, Spaced lim .expression x ∧ (∀ c ∈ bl, is_blank c = true) ∧ e = x ++ bl

/-- The text `tl` does not start with a digit. -/
def stops_digits (tl : List Char) : Prop :=
  ∀ c ∈ tl.head?, is_digit c = false

/-- The first character of `tl` that is not a blank, if any, is no operator. -/
def stops_operators (tl : List Char) : Prop :=
  ∀ c ∈ (tl.dropWhile is_blank).head?, is_operator c = false

/-- The call returned `PARSER_OK` and left exactly `remaining` unread. -/
def Accepts (o : Outcome × Parser) (remaining : List Char) : Prop :=
  ∃ r t, o = (.done r, t) ∧ r.type = .PARSER_OK ∧ rest t = remaining

/-- What completeness means for each nonterminal of the unrolled grammar:
run on a state whose unread input starts with a text of that nonterminal, the
production (given recursion budget) returns `PARSER_OK` and stops behind the
text, `expression()` and its loop also behind the blanks that follow. -/
def Complete (lim : IntLimits) : unrolled_nonterminal → List Char → Prop
  | .term, x => ∀ (n : Nat) (s : Parser) (tl : List Char),
      s.it_curr_symb ≤ s.expr.length → rest s = x ++ tl → stops_digits tl →
      (term lim n s).1 ≠ .no_fuel → Accepts (term lim n s) tl
  | .operator_terms, y => ∀ (n : Nat) (r0 : ParserResult) (s : Parser) (tl : List Char),
      r0.type = .PARSER_OK → s.it_curr_symb ≤ s.expr.length → rest s = y ++ tl →
      stops_digits tl → stops_operators tl →
      (expression_loop lim n r0 s).1 ≠ .no_fuel →
      Accepts (expression_loop lim n r0 s) (tl.dropWhile is_blank)
  | .expression, x => ∀ (n : Nat) (s : Parser) (tl : List Char),
      s.it_curr_symb ≤ s.expr.length → rest s = x ++ tl → stops_digits tl →
      stops_operators tl → (expression lim n s).1 ≠ .no_fuel →
      Accepts (expression lim n s) (tl.dropWhile is_blank)

/-- A fresh instance. -/
def Parser.fresh : Parser := ⟨[], 0, []⟩

/-- Bounds of a 16-bit `short int`. -/
def short_limits : IntLimits := ⟨-32768, 32767⟩

/-! ## Facts about the classifier and the cursor -/

theorem ite_eq_elim {α : Type} {p : Prop} [Decidable p] {a b x : α}
    (h : (if p then a else b) = x) (ha : a ≠ x) : ¬p ∧ b = x := by
  by_cases hp : p
  · rw [if_pos hp] at h; exact absurd h ha
  · rw [if_neg hp] at h; exact ⟨hp, h⟩

/-- Complete description of the classifier, branch by branch. -/
theorem lexer_cases (c : Char) :
    (c = '+' ∧ lexer c = .TS_PLUS) ∨ (c = '-' ∧ lexer c = .TS_MINUS) ∨
    (c = '^' ∧ lexer c = .TS_EXPO) ∨ (c = '*' ∧ lexer c = .TS_MULT) ∨
    (c = '/' ∧ lexer c = .TS_DIV) ∨ (c = '(' ∧ lexer c = .TS_OPENING_SCOPE) ∨
    (c = ')' ∧ lexer c = .TS_CLOSING_SCOPE) ∨ (c = ' ' ∧ lexer c = .TS_WS) ∨
    (c = '\t' ∧ lexer c = .TS_TAB) ∨ (c = '0' ∧ lexer c = .TS_ZERO) ∨
    (is_nonzero_digit c = true ∧ lexer c = .TS_NON_ZERO_DIGIT) ∨
    lexer c = .TS_EOS ∨ lexer c = .TS_INVALID := by
  unfold lexer
  by_cases h1 : c = '+'
  · exact Or.inl ⟨h1, if_pos h1⟩
  refine Or.inr ?_; rw [if_neg h1]
  by_cases h2 : c = '-'
  · exact Or.inl ⟨h2, if_pos h2⟩
  refine Or.inr ?_; rw [if_neg h2]
  by_cases h3 : c = '^'
  · exact Or.inl ⟨h3, if_pos h3⟩
  refine Or.inr ?_; rw [if_neg h3]
  by_cases h4 : c = '*'
  · exact Or.inl ⟨h4, if_pos h4⟩
  refine Or.inr ?_; rw [if_neg h4]
  by_cases h5 : c = '/'
  · exact Or.inl ⟨h5, if_pos h5⟩
  refine Or.inr ?_; rw [if_neg h5]
  by_cases h6 : c = '('
  · exact Or.inl ⟨h6, if_pos h6⟩
  refine Or.inr ?_; rw [if_neg h6]
  by_cases h7 : c = ')'
  · exact Or.inl ⟨h7, if_pos h7⟩
  refine Or.inr ?_; rw [if_neg h7]
  by_cases h8 : c = ' '
  · exact Or.inl ⟨h8, if_pos h8⟩
  refine Or.inr ?_; rw [if_neg h8]
  by_cases h9 : c = '\t'
  · exact Or.inl ⟨h9, if_pos h9⟩
  refine Or.inr ?_; rw [if_neg h9]
  by_cases h10 : c = '0'
  · exact Or.inl ⟨h10, if_pos h10⟩
  refine Or.inr ?_; rw [if_neg h10]
  by_cases h11 : c = '1' ∨ c = '2' ∨ c = '3' ∨ c = '4' ∨ c = '5' ∨ c = '6' ∨ c = '7'
      ∨ c = '8' ∨ c = '9'
  · exact Or.inl ⟨decide_eq_true h11, if_pos h11⟩
  refine Or.inr ?_; rw [if_neg h11]
  by_cases h12 : c = '\x00'
  · exact Or.inl (if_pos h12)
  · exact Or.inr (if_neg h12)

theorem lexer_plus (c : Char) (h : lexer c = .TS_PLUS) : c = '+' := by
  rcases lexer_cases c with ⟨hc, -⟩ | ⟨-, hl⟩ | ⟨-, hl⟩ | ⟨-, hl⟩ | ⟨-, hl⟩ | ⟨-, hl⟩ |
    ⟨-, hl⟩ | ⟨-, hl⟩ | ⟨-, hl⟩ | ⟨-, hl⟩ | ⟨-, hl⟩ | hl | hl
  all_goals first | exact hc | (rw [hl] at h; cases h)

theorem lexer_minus (c : Char) (h : lexer c = .TS_MINUS) : c = '-' := by
  rcases lexer_cases c with ⟨-, hl⟩ | ⟨hc, -⟩ | ⟨-, hl⟩ | ⟨-, hl⟩ | ⟨-, hl⟩ | ⟨-, hl⟩ |
    ⟨-, hl⟩ | ⟨-, hl⟩ | ⟨-, hl⟩ | ⟨-, hl⟩ | ⟨-, hl⟩ | hl | hl
  all_goals first | exact hc | (rw [hl] at h; cases h)

theorem lexer_expo (c : Char) (h : lexer c = .TS_EXPO) : c = '^' := by
  rcases lexer_cases c with ⟨-, hl⟩ | ⟨-, hl⟩ | ⟨hc, -⟩ | ⟨-, hl⟩ | ⟨-, hl⟩ | ⟨-, hl⟩ |
    ⟨-, hl⟩ | ⟨-, hl⟩ | ⟨-, hl⟩ | ⟨-, hl⟩ | ⟨-, hl⟩ | hl | hl
  all_goals first | exact hc | (rw [hl] at h; cases h)

theorem lexer_mult (c : Char) (h : lexer c = .TS_MULT) : c = '*' := by
  rcases lexer_cases c with ⟨-, hl⟩ | ⟨-, hl⟩ | ⟨-, hl⟩ | ⟨hc, -⟩ | ⟨-, hl⟩ | ⟨-, hl⟩ |
    ⟨-, hl⟩ | ⟨-, hl⟩ | ⟨-, hl⟩ | ⟨-, hl⟩ | ⟨-, hl⟩ | hl | hl
  all_goals first | exact hc | (rw [hl] at h; cases h)

theorem lexer_div (c : Char) (h : lexer c = .TS_DIV) : c = '/' := by
  rcases lexer_cases c with ⟨-, hl⟩ | ⟨-, hl⟩ | ⟨-, hl⟩ | ⟨-, hl⟩ | ⟨hc, -⟩ | ⟨-, hl⟩ |
    ⟨-, hl⟩ | ⟨-, hl⟩ | ⟨-, hl⟩ | ⟨-, hl⟩ | ⟨-, hl⟩ | hl | hl
  all_goals first | exact hc | (rw [hl] at h; cases h)

theorem lexer_opening (c : Char) (h : lexer c = .TS_OPENING_SCOPE) : c = '(' := by
  rcases lexer_cases c with ⟨-, hl⟩ | ⟨-, hl⟩ | ⟨-, hl⟩ | ⟨-, hl⟩ | ⟨-, hl⟩ | ⟨hc, -⟩ |
    ⟨-, hl⟩ | ⟨-, hl⟩ | ⟨-, hl⟩ | ⟨-, hl⟩ | ⟨-, hl⟩ | hl | hl
  all_goals first | exact hc | (rw [hl] at h; cases h)

theorem lexer_closing (c : Char) (h : lexer c = .TS_CLOSING_SCOPE) : c = ')' := by
  rcases lexer_cases c with ⟨-, hl⟩ | ⟨-, hl⟩ | ⟨-, hl⟩ | ⟨-, hl⟩ | ⟨-, hl⟩ | ⟨-, hl⟩ |
    ⟨hc, -⟩ | ⟨-, hl⟩ | ⟨-, hl⟩ | ⟨-, hl⟩ | ⟨-, hl⟩ | hl | hl
  all_goals first | exact hc | (rw [hl] at h; cases h)

theorem lexer_ws (c : Char) (h : lexer c = .TS_WS) : c = ' ' := by
  rcases lexer_cases c with ⟨-, hl⟩ | ⟨-, hl⟩ | ⟨-, hl⟩ | ⟨-, hl⟩ | ⟨-, hl⟩ | ⟨-, hl⟩ |
    ⟨-, hl⟩ | ⟨hc, -⟩ | ⟨-, hl⟩ | ⟨-, hl⟩ | ⟨-, hl⟩ | hl | hl
  all_goals first | exact hc | (rw [hl] at h; cases h)

theorem lexer_tab (c : Char) (h : lexer c = .TS_TAB) : c = '\t' := by
  rcases lexer_cases c with ⟨-, hl⟩ | ⟨-, hl⟩ | ⟨-, hl⟩ | ⟨-, hl⟩ | ⟨-, hl⟩ | ⟨-, hl⟩ |
    ⟨-, hl⟩ | ⟨-, hl⟩ | ⟨hc, -⟩ | ⟨-, hl⟩ | ⟨-, hl⟩ | hl | hl
  all_goals first | exact hc | (rw [hl] at h; cases h)

theorem lexer_zero (c : Char) (h : lexer c = .TS_ZERO) : c = '0' := by
  rcases lexer_cases c with ⟨-, hl⟩ | ⟨-, hl⟩ | ⟨-, hl⟩ | ⟨-, hl⟩ | ⟨-, hl⟩ | ⟨-, hl⟩ |
    ⟨-, hl⟩ | ⟨-, hl⟩ | ⟨-, hl⟩ | ⟨hc, -⟩ | ⟨-, hl⟩ | hl | hl
  all_goals first | exact hc | (rw [hl] at h; cases h)

theorem lexer_non_zero (c : Char) (h : lexer c = .TS_NON_ZERO_DIGIT) :
    is_nonzero_digit c = true := by
  rcases lexer_cases c with ⟨-, hl⟩ | ⟨-, hl⟩ | ⟨-, hl⟩ | ⟨-, hl⟩ | ⟨-, hl⟩ | ⟨-, hl⟩ |
    ⟨-, hl⟩ | ⟨-, hl⟩ | ⟨-, hl⟩ | ⟨-, hl⟩ | ⟨hc, -⟩ | hl | hl
  all_goals first | exact hc | (rw [hl] at h; cases h)

theorem is_blank_iff (c : Char) : is_blank c = true ↔ (c = ' ' ∨ c = '\t') := by
  unfold is_blank
  rw [Bool.or_eq_true, beq_iff_eq, beq_iff_eq]

theorem lexer_blank (c : Char) :
    (lexer c == .TS_WS || lexer c == .TS_TAB) = is_blank c := by
  rcases lexer_cases c with ⟨-, hl⟩ | ⟨-, hl⟩ | ⟨-, hl⟩ | ⟨-, hl⟩ | ⟨-, hl⟩ | ⟨-, hl⟩ |
    ⟨-, hl⟩ | ⟨hc, -⟩ | ⟨hc, -⟩ | ⟨-, hl⟩ | ⟨-, hl⟩ | hl | hl
  all_goals first
    | (subst hc; rfl)
    | (rw [hl]
       have hb : is_blank c = false := by
         rw [Bool.eq_false_iff]
         intro hb
         rcases (is_blank_iff c).1 hb with hb | hb
         · subst hb; revert hl; decide
         · subst hb; revert hl; decide
       rw [hb]; rfl)

/-! ## Facts about the cursor -/

theorem end_input_false_lt (s : Parser) (hs : s.it_curr_symb ≤ s.expr.length)
    (h : end_input s = false) : s.it_curr_symb < s.expr.length := by
  unfold end_input at h
  have hne : s.it_curr_symb ≠ s.expr.length := by simpa using h
  omega

theorem end_input_of_eq (s : Parser) (h : s.it_curr_symb = s.expr.length) :
    end_input s = true := by
  unfold end_input; simpa using h

theorem rest_cons (s : Parser) (h : s.it_curr_symb < s.expr.length) :
    rest s = deref s :: rest (next_symbol s) := by
  unfold rest deref next_symbol
  rw [List.getD_eq_getElem _ _ h]
  exact List.drop_eq_getElem_cons h

theorem rest_nil_of_end (s : Parser) (h : end_input s = true) : rest s = [] := by
  unfold end_input at h
  have he : s.it_curr_symb = s.expr.length := by simpa using h
  unfold rest
  exact List.drop_of_length_le (le_of_eq he.symm)

theorem Step.refl (s : Parser) (hs : s.it_curr_symb ≤ s.expr.length) : Step s s [] [] :=
  ⟨rfl, rfl, rfl, (List.append_nil _).symm, hs⟩

theorem Step.trans {s t u : Parser} {a b : List Char} {x y : List Token}
    (h1 : Step s t a x) (h2 : Step t u b y) : Step s u (a ++ b) (x ++ y) := by
  refine ⟨h2.expr_eq.trans h1.expr_eq, ?_, ?_, ?_, h2.in_bounds⟩
  · rw [h2.pos_eq, h1.pos_eq, List.length_append]; omega
  · rw [h1.rest_eq, h2.rest_eq, List.append_assoc]
  · rw [h2.tokens_eq, h1.tokens_eq, List.append_assoc]

theorem Step.push {s t : Parser} {a : List Char} {x : List Token} (h : Step s t a x)
    (v : List Char) (k : token_t) : Step s (push_back t v k) a (x ++ [⟨v, k⟩]) := by
  refine ⟨h.expr_eq, h.pos_eq, h.rest_eq, ?_, h.in_bounds⟩
  show t.token_list ++ [⟨v, k⟩] = s.token_list ++ (x ++ [⟨v, k⟩])
  rw [h.tokens_eq, List.append_assoc]

theorem Step.start_in_bounds {s t : Parser} {a : List Char} {x : List Token}
    (h : Step s t a x) : s.it_curr_symb ≤ s.expr.length := by
  have h1 := h.in_bounds
  rw [h.expr_eq, h.pos_eq] at h1
  omega

theorem step_next (s : Parser) (h : s.it_curr_symb < s.expr.length) :
    Step s (next_symbol s) [deref s] [] :=
  ⟨rfl, rfl, rest_cons s h, (List.append_nil _).symm, h⟩

theorem peek_true (c_ : terminal_symbol_t) (s : Parser) (h : peek c_ s = true) :
    end_input s = false ∧ lexer (deref s) = c_ := by
  unfold peek at h
  rw [Bool.and_eq_true, Bool.not_eq_true', beq_iff_eq] at h
  exact h

theorem accept_true (c_ : terminal_symbol_t) (s : Parser)
    (hs : s.it_curr_symb ≤ s.expr.length) (h : (accept c_ s).1 = true) :
    lexer (deref s) = c_ ∧ Step s (accept c_ s).2 [deref s] [] := by
  unfold accept at h ⊢
  by_cases hp : peek c_ s = true
  · rw [if_pos hp]
    obtain ⟨he, hl⟩ := peek_true c_ s hp
    exact ⟨hl, step_next s (end_input_false_lt s hs he)⟩
  · rw [if_neg hp] at h
    cases h

theorem accept_false (c_ : terminal_symbol_t) (s : Parser) (h : (accept c_ s).1 = false) :
    (accept c_ s).2 = s := by
  unfold accept at h ⊢
  by_cases hp : peek c_ s = true
  · rw [if_pos hp] at h; cases h
  · rw [if_neg hp]

theorem accept_false_peek (c_ : terminal_symbol_t) (s : Parser)
    (h : (accept c_ s).1 = false) : peek c_ s = false := by
  unfold accept at h
  by_cases hp : peek c_ s = true
  · rw [if_pos hp] at h; cases h
  · simpa using hp

theorem skip_ws_loop_step : ∀ (n : Nat) (s : Parser), s.it_curr_symb ≤ s.expr.length →
    ∃ bl, (∀ c ∈ bl, is_blank c = true) ∧ Step s (skip_ws_loop n s) bl [] := by
  intro n
  induction n with
  | zero =>
    intro s hs
    exact ⟨[], by simp, Step.refl s hs⟩
  | succ n ih =>
    intro s hs
    unfold skip_ws_loop
    by_cases hc : (!end_input s &&
        (lexer (deref s) == .TS_WS || lexer (deref s) == .TS_TAB)) = true
    · rw [if_pos hc]
      rw [lexer_blank, Bool.and_eq_true, Bool.not_eq_true'] at hc
      have hlt := end_input_false_lt s hs hc.1
      obtain ⟨bl, hbl, hst⟩ := ih (next_symbol s) hlt
      refine ⟨deref s :: bl, ?_, ?_⟩
      · intro c hcm
        rcases List.mem_cons.1 hcm with h | h
        · rw [h]; exact hc.2
        · exact hbl c h
      · exact (step_next s hlt).trans hst
    · rw [if_neg hc]
      exact ⟨[], by simp, Step.refl s hs⟩

theorem skip_ws_step (s : Parser) (hs : s.it_curr_symb ≤ s.expr.length) :
    ∃ bl, (∀ c ∈ bl, is_blank c = true) ∧ Step s (skip_ws s) bl [] :=
  skip_ws_loop_step _ s hs

theorem skip_ws_loop_exit : ∀ (n : Nat) (s : Parser), s.it_curr_symb ≤ s.expr.length →
    s.expr.length - s.it_curr_symb ≤ n →
    end_input (skip_ws_loop n s) = true ∨ is_blank (deref (skip_ws_loop n s)) = false := by
  intro n
  induction n with
  | zero =>
    intro s hs hn
    exact Or.inl (end_input_of_eq s (by omega))
  | succ n ih =>
    intro s hs hn
    unfold skip_ws_loop
    by_cases hc : (!end_input s &&
        (lexer (deref s) == .TS_WS || lexer (deref s) == .TS_TAB)) = true
    · rw [if_pos hc]
      rw [lexer_blank, Bool.and_eq_true, Bool.not_eq_true'] at hc
      have hlt := end_input_false_lt s hs hc.1
      exact ih (next_symbol s) hlt (by show s.expr.length - (s.it_curr_symb + 1) ≤ n; omega)
    · rw [if_neg hc]
      rw [lexer_blank] at hc
      cases he : end_input s
      · right
        rw [he] at hc
        simpa using hc
      · left; rfl

/-- The loop of `skip_ws` ends on its own condition: after `skip_ws` the input
is exhausted or the current character is neither a space nor a tab. -/
theorem skip_ws_exit (s : Parser) (hs : s.it_curr_symb ≤ s.expr.length) :
    end_input (skip_ws s) = true ∨ is_blank (deref (skip_ws s)) = false :=
  skip_ws_loop_exit _ s hs (le_refl _)

theorem skip_ws_fixed (t : Parser)
    (h : end_input t = true ∨ is_blank (deref t) = false) : skip_ws t = t := by
  unfold skip_ws
  cases t.expr.length - t.it_curr_symb with
  | zero => rfl
  | succ n =>
    unfold skip_ws_loop
    have hc : ¬ ((!end_input t &&
        (lexer (deref t) == .TS_WS || lexer (deref t) == .TS_TAB)) = true) := by
      rw [lexer_blank]
      rcases h with h | h <;> simp [h]
    rw [if_neg hc]

theorem skip_ws_idem (s : Parser) (hs : s.it_curr_symb ≤ s.expr.length) :
    skip_ws (skip_ws s) = skip_ws s :=
  skip_ws_fixed _ (skip_ws_exit s hs)

theorem expect_true (c_ : terminal_symbol_t) (s : Parser)
    (hs : s.it_curr_symb ≤ s.expr.length) (h : (expect c_ s).1 = true) :
    ∃ bl, (∀ c ∈ bl, is_blank c = true) ∧ lexer (deref (skip_ws s)) = c_ ∧
      Step s (expect c_ s).2 (bl ++ [deref (skip_ws s)]) [] := by
  obtain ⟨bl, hbl, hst⟩ := skip_ws_step s hs
  obtain ⟨hl, hacc⟩ := accept_true c_ (skip_ws s) hst.in_bounds h
  exact ⟨bl, hbl, hl, hst.trans hacc⟩

theorem expect_false (c_ : terminal_symbol_t) (s : Parser) (h : (expect c_ s).1 = false) :
    (expect c_ s).2 = skip_ws s :=
  accept_false c_ (skip_ws s) h

/-! ## Facts about the integer productions -/

theorem is_digit_zero : is_digit '0' = true := by decide

theorem is_digit_of_nonzero (c : Char) (h : is_nonzero_digit c = true) : is_digit c = true := by
  unfold is_digit
  rw [h, Bool.or_true]

theorem digit_true (s : Parser) (hs : s.it_curr_symb ≤ s.expr.length)
    (h : (digit s).1 = true) :
    is_digit (deref s) = true ∧ Step s (digit s).2 [deref s] [] := by
  unfold digit at h ⊢
  by_cases hz : (accept .TS_ZERO s).1 = true
  · rw [if_pos hz]
    obtain ⟨hl, hst⟩ := accept_true _ s hs hz
    refine ⟨?_, hst⟩
    rw [lexer_zero _ hl]
    exact is_digit_zero
  · rw [if_neg hz] at h ⊢
    have hz2 : (accept .TS_ZERO s).1 = false := by simpa using hz
    rw [accept_false _ s hz2] at h ⊢
    obtain ⟨hl, hst⟩ := accept_true _ s hs h
    exact ⟨is_digit_of_nonzero _ (lexer_non_zero _ hl), hst⟩

theorem digit_false (s : Parser) (h : (digit s).1 = false) : (digit s).2 = s := by
  unfold digit at h ⊢
  by_cases hz : (accept .TS_ZERO s).1 = true
  · rw [if_pos hz] at h; cases h
  · rw [if_neg hz] at h ⊢
    have hz2 : (accept .TS_ZERO s).1 = false := by simpa using hz
    rw [accept_false _ s hz2] at h ⊢
    exact accept_false _ s h

theorem accept_at_end (c_ : terminal_symbol_t) (s : Parser) (h : end_input s = true) :
    (accept c_ s).1 = false := by
  unfold accept peek
  rw [h]
  rfl

theorem digit_at_end (s : Parser) (h : end_input s = true) : (digit s).1 = false := by
  unfold digit
  rw [accept_at_end _ s h]
  have h2 : (accept .TS_ZERO s).2 = s := accept_false _ s (accept_at_end _ s h)
  rw [h2]
  simpa using accept_at_end .TS_NON_ZERO_DIGIT s h

theorem digit_loop_step : ∀ (n : Nat) (s : Parser), s.it_curr_symb ≤ s.expr.length →
    ∃ ds, (∀ c ∈ ds, is_digit c = true) ∧ Step s (digit_loop n s) ds [] := by
  intro n
  induction n with
  | zero =>
    intro s hs
    unfold digit_loop
    cases hd : (digit s).1
    · rw [digit_false s hd]
      exact ⟨[], by simp, Step.refl s hs⟩
    · obtain ⟨h1, h2⟩ := digit_true s hs hd
      exact ⟨[deref s], by simpa using h1, h2⟩
  | succ n ih =>
    intro s hs
    unfold digit_loop
    cases hd : (digit s).1
    · rw [if_neg (by simp), digit_false s hd]
      exact ⟨[], by simp, Step.refl s hs⟩
    · rw [if_pos rfl]
      obtain ⟨h1, h2⟩ := digit_true s hs hd
      obtain ⟨ds, hds, hst⟩ := ih (digit s).2 h2.in_bounds
      refine ⟨deref s :: ds, ?_, h2.trans hst⟩
      intro c hc
      rcases List.mem_cons.1 hc with h | h
      · rw [h]; exact h1
      · exact hds c h

/-- The loop `while( digit() ) ;` ends on its own condition: after it `digit()`
fails. -/
theorem digit_loop_exit : ∀ (n : Nat) (s : Parser), s.it_curr_symb ≤ s.expr.length →
    s.expr.length - s.it_curr_symb ≤ n → (digit (digit_loop n s)).1 = false := by
  intro n
  induction n with
  | zero =>
    intro s hs hn
    unfold digit_loop
    have hd := digit_at_end s (end_input_of_eq s (by omega))
    rw [digit_false s hd]
    exact hd
  | succ n ih =>
    intro s hs hn
    unfold digit_loop
    cases hd : (digit s).1
    · rw [if_neg (by simp), digit_false s hd]
      exact hd
    · rw [if_pos rfl]
      obtain ⟨-, h2⟩ := digit_true s hs hd
      refine ih (digit s).2 h2.in_bounds ?_
      rw [h2.expr_eq, h2.pos_eq]
      simp only [List.length_singleton]
      omega

theorem natural_number_ok (s : Parser) (hs : s.it_curr_symb ≤ s.expr.length)
    (h : (natural_number s).1.type = .PARSER_OK) :
    ∃ d ds, is_nonzero_digit d = true ∧ (∀ c ∈ ds, is_digit c = true) ∧
      Step s (natural_number s).2 (d :: ds) [] := by
  unfold natural_number at h ⊢
  by_cases hd : (digit_excl_zero s).1 = true
  · rw [if_pos hd]
    obtain ⟨hl, hst⟩ := accept_true _ s hs hd
    obtain ⟨ds, hds, hst2⟩ := digit_loop_step
      ((digit_excl_zero s).2.expr.length - (digit_excl_zero s).2.it_curr_symb)
      (digit_excl_zero s).2 hst.in_bounds
    exact ⟨deref s, ds, lexer_non_zero _ hl, hds, hst.trans hst2⟩
  · rw [if_neg hd] at h
    cases h

theorem natural_number_fail (s : Parser) (h : (natural_number s).1.type ≠ .PARSER_OK) :
    natural_number s = (⟨.ILL_FORMED_INTEGER, s.it_curr_symb⟩, s) := by
  unfold natural_number at h ⊢
  by_cases hd : (digit_excl_zero s).1 = true
  · rw [if_pos hd] at h
    exact absurd rfl h
  · rw [if_neg hd]
    have hd2 : (accept .TS_NON_ZERO_DIGIT s).1 = false := by simpa using hd
    have h2 : (digit_excl_zero s).2 = s := accept_false _ s hd2
    rw [h2]

/-- After a successful `natural_number()` the next character is not a digit:
the digit loop ran to its own end. -/
theorem natural_number_stops (s : Parser) (hs : s.it_curr_symb ≤ s.expr.length)
    (h : (natural_number s).1.type = .PARSER_OK) :
    (digit (natural_number s).2).1 = false := by
  unfold natural_number at h ⊢
  by_cases hd : (digit_excl_zero s).1 = true
  · rw [if_pos hd]
    obtain ⟨-, hst⟩ := accept_true _ s hs hd
    exact digit_loop_exit _ _ hst.in_bounds (le_refl _)
  · rw [if_neg hd] at h
    cases h

theorem Derives.no_blank_integer {w : List Char} (h : Derives .integer w) :
    ∀ c ∈ w, is_blank c = false := by
  have hdig : ∀ c, is_digit c = true → is_blank c = false := by
    intro c hc
    unfold is_digit is_nonzero_digit at hc
    rw [Bool.or_eq_true, beq_iff_eq, decide_eq_true_iff] at hc
    rcases hc with h | h | h | h | h | h | h | h | h | h <;> (subst h; decide)
  have hnat : ∀ v, Derives .natural_number v → ∀ c ∈ v, is_blank c = false := by
    intro v hv
    cases hv with
    | natural_number d ds hd hds =>
      intro c hc
      rcases List.mem_cons.1 hc with h | h
      · rw [h]; exact hdig d (is_digit_of_nonzero d hd)
      · exact hdig c (hds c h)
  cases h with
  | integer_zero => intro c hc; rw [List.mem_singleton.1 hc]; decide
  | integer_natural _ hn => exact hnat _ hn
  | integer_minus v hn =>
    intro c hc
    rcases List.mem_cons.1 hc with h | h
    · rw [h]; decide
    · exact hnat _ hn c h

theorem strip_blanks_of_no_blank (w : List Char) (h : ∀ c ∈ w, is_blank c = false) :
    strip_blanks w = w := by
  unfold strip_blanks
  rw [List.filter_eq_self]
  intro c hc
  rw [h c hc]; rfl

theorem strip_blanks_of_blank (w : List Char) (h : ∀ c ∈ w, is_blank c = true) :
    strip_blanks w = [] := by
  unfold strip_blanks
  rw [List.filter_eq_nil_iff]
  intro c hc
  rw [h c hc]; simp

theorem strip_blanks_append (a b : List Char) :
    strip_blanks (a ++ b) = strip_blanks a ++ strip_blanks b :=
  List.filter_append a b

/-- A successful `integer()` either stopped in front of a `0` without moving, or
consumed `["-"] natural_number`. -/
theorem integer_ok (s : Parser) (hs : s.it_curr_symb ≤ s.expr.length)
    (h : (integer s).1.type = .PARSER_OK) :
    (lexer (deref s) = .TS_ZERO ∧ (integer s).2 = s) ∨
    (lexer (deref s) ≠ .TS_ZERO ∧ ∃ w, Derives .integer w ∧ w ≠ ['0'] ∧
      Step s (integer s).2 w []) := by
  unfold integer at h ⊢
  by_cases hz : lexer (deref s) = .TS_ZERO
  · left
    rw [if_pos hz]
    exact ⟨hz, rfl⟩
  · right
    rw [if_neg hz] at h ⊢
    refine ⟨hz, ?_⟩
    cases hm : (accept .TS_MINUS s).1
    · rw [accept_false _ s hm] at h ⊢
      obtain ⟨d, ds, hd, hds, hst⟩ := natural_number_ok s hs h
      refine ⟨d :: ds, .integer_natural _ (.natural_number d ds hd hds), ?_, hst⟩
      intro he
      rw [List.cons.injEq] at he
      rw [he.1] at hd
      revert hd; decide
    · obtain ⟨hl, hst⟩ := accept_true _ s hs hm
      obtain ⟨d, ds, hd, hds, hst2⟩ := natural_number_ok _ hst.in_bounds h
      refine ⟨deref s :: d :: ds, ?_, ?_, hst.trans hst2⟩
      · rw [lexer_minus _ hl]
        exact .integer_minus _ (.natural_number d ds hd hds)
      · intro he
        rw [List.cons.injEq] at he
        exact absurd he.2 (List.cons_ne_nil _ _)

theorem substring_of_step {s t : Parser} {seg : List Char} {x : List Token}
    (h : Step s t seg x) : substring t s.it_curr_symb = seg := by
  unfold substring
  rw [h.expr_eq, h.pos_eq]
  have h1 : List.drop s.it_curr_symb s.expr = seg ++ rest t := h.rest_eq
  rw [h1]
  exact List.take_left' (by omega)

theorem stoll_nil : stoll [] = .error .invalid_argument := by rfl

/-- What a successful return of the integer branch of `term()` means. -/
theorem term_integer_ok (lim : IntLimits) (s t : Parser) (r : ParserResult)
    (hs : s.it_curr_symb ≤ s.expr.length)
    (h : term_integer lim s.it_curr_symb s = (.done r, t)) (hr : r.type = .PARSER_OK) :
    ∃ w v, Derives .integer w ∧ w ≠ ['0'] ∧ stoll w = .ok v ∧ lim.min ≤ v ∧ v ≤ lim.max ∧
      Step s t w [⟨w, .OPERAND⟩] := by
  unfold term_integer at h
  by_cases hi : (integer s).1.type = .PARSER_OK
  · rw [if_pos hi] at h
    rcases integer_ok s hs hi with ⟨-, he⟩ | ⟨-, w, hw, hw0, hst⟩
    · rw [he] at h
      have hsub : substring s s.it_curr_symb = [] := by
        unfold substring
        rw [Nat.sub_self, List.take_zero]
      rw [hsub, stoll_nil] at h
      cases h
    · have hsub := substring_of_step hst
      rw [hsub] at h
      cases hv : stoll w with
      | error e => rw [hv] at h; cases h
      | ok v =>
        rw [hv] at h
        dsimp only at h
        by_cases hb : v ≤ lim.max ∧ v ≥ lim.min
        · rw [if_pos hb] at h
          cases h
          exact ⟨w, v, hw, hw0, hv, hb.2, hb.1, by simpa using hst.push w .OPERAND⟩
        · rw [if_neg hb] at h
          cases h
          cases hr
  · rw [if_neg hi] at h
    cases h
    exact absurd hr hi

/-! ## Facts about the operator chain -/

theorem expect_hit {s0 s : Parser} {bl0 : List Char} (sym : terminal_symbol_t) (g : Char)
    (hbl0 : ∀ c ∈ bl0, is_blank c = true) (h0 : Step s0 s bl0 [])
    (hg : ∀ c, lexer c = sym → c = g) (h : (expect sym s).1 = true) :
    ∃ bl, (∀ c ∈ bl, is_blank c = true) ∧
      Step s0 (push_back (expect sym s).2 [g] .OPERATOR) (bl ++ [g]) [⟨[g], .OPERATOR⟩] := by
  obtain ⟨bl, hbl, hl, hst⟩ := expect_true sym s h0.in_bounds h
  rw [hg _ hl] at hst
  refine ⟨bl0 ++ bl, ?_, ?_⟩
  · intro c hc
    rcases List.mem_append.1 hc with h | h
    · exact hbl0 c h
    · exact hbl c h
  · have := (h0.trans hst).push [g] .OPERATOR
    simpa [List.append_assoc] using this

theorem expect_miss {s0 s : Parser} {bl0 : List Char} (sym : terminal_symbol_t)
    (hbl0 : ∀ c ∈ bl0, is_blank c = true) (h0 : Step s0 s bl0 [])
    (h : (expect sym s).1 = false) :
    ∃ bl, (∀ c ∈ bl, is_blank c = true) ∧ Step s0 (expect sym s).2 bl [] := by
  rw [expect_false sym s h]
  obtain ⟨bl, hbl, hst⟩ := skip_ws_step s h0.in_bounds
  refine ⟨bl0 ++ bl, ?_, by simpa using h0.trans hst⟩
  intro c hc
  rcases List.mem_append.1 hc with h | h
  · exact hbl0 c h
  · exact hbl c h

/-- Both ways out of the operator chain of `expression()`: a hit consumed blanks
and one operator glyph and recorded it; a miss consumed blanks only. -/
theorem expect_operator_step (s : Parser) (hs : s.it_curr_symb ≤ s.expr.length) :
    ((expect_operator s).1 = true → ∃ bl g, (∀ c ∈ bl, is_blank c = true) ∧
      is_operator g = true ∧
      Step s (expect_operator s).2 (bl ++ [g]) [⟨[g], .OPERATOR⟩]) ∧
    ((expect_operator s).1 = false → ∃ bl, (∀ c ∈ bl, is_blank c = true) ∧
      Step s (expect_operator s).2 bl []) := by
  have hnil : ∀ c ∈ ([] : List Char), is_blank c = true := by simp
  unfold expect_operator
  by_cases h1 : (expect .TS_PLUS s).1 = true
  · rw [if_pos h1]
    obtain ⟨bl, hbl, hst⟩ := expect_hit .TS_PLUS '+' hnil (Step.refl s hs) lexer_plus h1
    exact ⟨fun _ => ⟨bl, '+', hbl, by decide, hst⟩, fun h => Bool.noConfusion h⟩
  rw [if_neg h1]
  obtain ⟨b1, hb1, st1⟩ := expect_miss .TS_PLUS hnil (Step.refl s hs) (by simpa using h1)
  by_cases h2 : (expect .TS_MINUS (expect .TS_PLUS s).2).1 = true
  · rw [if_pos h2]
    obtain ⟨bl, hbl, hst⟩ := expect_hit .TS_MINUS '-' hb1 st1 lexer_minus h2
    exact ⟨fun _ => ⟨bl, '-', hbl, by decide, hst⟩, fun h => Bool.noConfusion h⟩
  rw [if_neg h2]
  obtain ⟨b2, hb2, st2⟩ := expect_miss .TS_MINUS hb1 st1 (by simpa using h2)
  by_cases h3 : (expect .TS_EXPO (expect .TS_MINUS (expect .TS_PLUS s).2).2).1 = true
  · rw [if_pos h3]
    obtain ⟨bl, hbl, hst⟩ := expect_hit .TS_EXPO '^' hb2 st2 lexer_expo h3
    exact ⟨fun _ => ⟨bl, '^', hbl, by decide, hst⟩, fun h => Bool.noConfusion h⟩
  rw [if_neg h3]
  obtain ⟨b3, hb3, st3⟩ := expect_miss .TS_EXPO hb2 st2 (by simpa using h3)
  by_cases h4 : (expect .TS_MULT (expect .TS_EXPO (expect .TS_MINUS
      (expect .TS_PLUS s).2).2).2).1 = true
  · rw [if_pos h4]
    obtain ⟨bl, hbl, hst⟩ := expect_hit .TS_MULT '*' hb3 st3 lexer_mult h4
    exact ⟨fun _ => ⟨bl, '*', hbl, by decide, hst⟩, fun h => Bool.noConfusion h⟩
  rw [if_neg h4]
  obtain ⟨b4, hb4, st4⟩ := expect_miss .TS_MULT hb3 st3 (by simpa using h4)
  by_cases h5 : (expect .TS_DIV (expect .TS_MULT (expect .TS_EXPO (expect .TS_MINUS
      (expect .TS_PLUS s).2).2).2).2).1 = true
  · rw [if_pos h5]
    obtain ⟨bl, hbl, hst⟩ := expect_hit .TS_DIV '/' hb4 st4 lexer_div h5
    exact ⟨fun _ => ⟨bl, '/', hbl, by decide, hst⟩, fun h => Bool.noConfusion h⟩
  rw [if_neg h5]
  obtain ⟨b5, hb5, st5⟩ := expect_miss .TS_DIV hb4 st4 (by simpa using h5)
  dsimp only
  refine ⟨fun h => ?_, fun _ => ?_⟩
  · exact absurd h Bool.false_ne_true
  · exact ⟨b5, hb5, st5⟩

theorem is_operator_not_blank (g : Char) (h : is_operator g = true) : is_blank g = false := by
  unfold is_operator at h
  simp only [Bool.or_eq_true, beq_iff_eq] at h
  rcases h with (((h | h) | h) | h) | h <;> (subst h; decide)

theorem strip_blanks_singleton (g : Char) (h : is_blank g = false) :
    strip_blanks [g] = [g] :=
  strip_blanks_of_no_blank [g] (by intro c hc; rw [List.mem_singleton.1 hc]; exact h)

theorem lexemes_append (a b : List Token) : lexemes (a ++ b) = lexemes a ++ lexemes b := by
  unfold lexemes
  rw [List.map_append, List.flatten_append]

theorem lexemes_singleton (v : List Char) (k : token_t) : lexemes [⟨v, k⟩] = v := by
  unfold lexemes
  simp

theorem kinds_append (a b : List Token) : kinds (a ++ b) = kinds a ++ kinds b :=
  List.map_append _ a b

theorem kinds_singleton (v : List Char) (k : token_t) : kinds [⟨v, k⟩] = [k] := rfl

/-! ## Soundness of the productions -/

theorem strip_blanks_scope : strip_blanks ['('] = ['('] ∧ strip_blanks [')'] = [')'] := by
  constructor <;> rfl

/-- Every successful call of `term()`, `expression()` and of the operator loop
consumed a segment that derives from the grammar and recorded its tokens. -/
theorem sound_all (lim : IntLimits) : ∀ n : Nat,
    (∀ s r t, s.it_curr_symb ≤ s.expr.length → term lim n s = (.done r, t) →
      r.type = .PARSER_OK → Sound .term .T s t) ∧
    (∀ s r t, s.it_curr_symb ≤ s.expr.length → expression lim n s = (.done r, t) →
      r.type = .PARSER_OK → Sound .expression .E s t) ∧
    (∀ r0 s r t, expression_loop lim n r0 s = (.done r, t) → r.type = .PARSER_OK →
      r0.type = .PARSER_OK ∧ (s.it_curr_symb ≤ s.expr.length → SoundLoop s t)) := by
  intro n
  induction n with
  | zero =>
    refine ⟨?_, ?_, ?_⟩
    · intro s r t _ h _; rw [term] at h; cases h
    · intro s r t _ h _; rw [expression] at h; cases h
    · intro r0 s r t h _; rw [expression_loop] at h; cases h
  | succ n ih =>
    obtain ⟨ihT, ihE, ihL⟩ := ih
    refine ⟨?_, ?_, ?_⟩
    · -- term
      intro s r t hs h hr
      rw [term] at h
      obtain ⟨bl0, hbl0, st0⟩ := skip_ws_step s hs
      by_cases ho : (expect .TS_OPENING_SCOPE (skip_ws s)).1 = true
      · rw [if_pos ho] at h
        obtain ⟨bl1, hbl1, hl1, st1⟩ := expect_true _ _ st0.in_bounds ho
        rw [lexer_opening _ hl1] at st1
        have st2 := (st0.trans st1).push ['('] .OPENING_SCOPE
        generalize (push_back (expect .TS_OPENING_SCOPE (skip_ws s)).2 ['(']
          .OPENING_SCOPE) = s2 at h st2
        cases hE : expression lim n s2 with
        | mk o s3 =>
          rw [hE] at h
          cases o with
          | done result =>
            dsimp only at h
            by_cases hres : result.type = .PARSER_OK
            · rw [if_pos hres] at h
              obtain ⟨segE, toksE, stE, hlex, hder, htok⟩ :=
                ihE s2 result s3 st2.in_bounds hE hres
              cases hc : (expect .TS_CLOSING_SCOPE s3).1
              · rw [if_pos hc] at h
                cases h
                cases hr
              · rw [if_neg (by rw [hc]; exact Bool.noConfusion)] at h
                obtain ⟨bl2, hbl2, hl2, st3⟩ := expect_true _ _ stE.in_bounds hc
                rw [lexer_closing _ hl2] at st3
                have st4 := ((st2.trans stE).trans st3).push [')'] .CLOSING_SCOPE
                cases h
                refine ⟨_, _, st4, ?_, ?_, ?_⟩
                · simp only [lexemes_append, lexemes_singleton, strip_blanks_append,
                    strip_blanks_of_blank _ hbl0, strip_blanks_of_blank _ hbl1,
                    strip_blanks_of_blank _ hbl2, strip_blanks_scope, hlex]
                  simp [lexemes]
                · simp only [strip_blanks_append,
                    strip_blanks_of_blank _ hbl0, strip_blanks_of_blank _ hbl1,
                    strip_blanks_of_blank _ hbl2, strip_blanks_scope]
                  simpa using Derives.term_scope _ hder
                · simp only [kinds_append, kinds_singleton]
                  simpa [kinds] using TokenDerives.T_scope _ htok
            · rw [if_neg hres] at h
              cases h
              exact absurd hr hres
          | thrown e => cases h
          | no_fuel => cases h
      · rw [if_neg ho] at h
        have ho2 : (expect .TS_OPENING_SCOPE (skip_ws s)).1 = false := by simpa using ho
        rw [expect_false _ _ ho2, skip_ws_idem s hs] at h
        obtain ⟨w, v, hw, -, -, -, -, stI⟩ :=
          term_integer_ok lim (skip_ws s) t r st0.in_bounds h hr
        refine ⟨_, _, st0.trans stI, ?_, ?_, ?_⟩
        · simp only [List.nil_append, lexemes_singleton, strip_blanks_append,
            strip_blanks_of_blank _ hbl0,
            strip_blanks_of_no_blank _ hw.no_blank_integer]
        · simp only [List.nil_append, strip_blanks_append,
            strip_blanks_of_blank _ hbl0,
            strip_blanks_of_no_blank _ hw.no_blank_integer]
          exact .term_integer _ hw
        · exact .T_operand
    · -- expression
      intro s r t hs h hr
      rw [expression] at h
      obtain ⟨bl0, hbl0, st0⟩ := skip_ws_step s hs
      cases hT : term lim n (skip_ws s) with
      | mk o s1 =>
        rw [hT] at h
        cases o with
        | done result =>
          dsimp only at h
          obtain ⟨hres, hL⟩ := ihL result s1 r t h hr
          obtain ⟨segT, toksT, stT, hlexT, hderT, htokT⟩ :=
            ihT (skip_ws s) result s1 st0.in_bounds hT hres
          obtain ⟨segL, toksL, stL, hlexL, hderL, htokL⟩ := hL stT.in_bounds
          refine ⟨_, _, (st0.trans stT).trans stL, ?_, ?_, ?_⟩
          · simp only [List.nil_append, lexemes_append, strip_blanks_append,
              strip_blanks_of_blank _ hbl0, hlexT, hlexL]
          · simp only [strip_blanks_append, strip_blanks_of_blank _ hbl0, List.nil_append]
            exact hderL _ (.expression_term _ hderT)
          · simp only [List.nil_append, kinds_append]
            exact htokL _ (.E_term _ htokT)
        | thrown e => cases h
        | no_fuel => cases h
    · -- the operator loop
      intro r0 s r t h hr
      rw [expression_loop] at h
      by_cases hc : r0.type = .PARSER_OK ∧ end_input s = false
      · rw [if_pos hc] at h
        refine ⟨hc.1, fun hs => ?_⟩
        obtain ⟨hhit, hmiss⟩ := expect_operator_step s hs
        cases hop : (expect_operator s).1
        · rw [if_neg (by rw [hop]; exact Bool.noConfusion)] at h
          cases h
          obtain ⟨bl, hbl, st⟩ := hmiss hop
          refine ⟨_, _, st, ?_, ?_, ?_⟩
          · rw [strip_blanks_of_blank _ hbl]; rfl
          · intro w hw
            rw [strip_blanks_of_blank _ hbl, List.append_nil]
            exact hw
          · intro k hk
            simpa [kinds] using hk
        · rw [if_pos hop] at h
          obtain ⟨bl, g, hbl, hg, st⟩ := hhit hop
          cases hT : term lim n (expect_operator s).2 with
          | mk o s1 =>
            rw [hT] at h
            cases o with
            | done result1 =>
              dsimp only at h
              by_cases hres : result1.type = .PARSER_OK
              · rw [if_neg (not_not.2 hres)] at h
                obtain ⟨segT, toksT, stT, hlexT, hderT, htokT⟩ :=
                  ihT _ result1 s1 st.in_bounds hT hres
                obtain ⟨-, hL⟩ := ihL result1 s1 r t h hr
                obtain ⟨segL, toksL, stL, hlexL, hderL, htokL⟩ := hL stT.in_bounds
                have hgs := strip_blanks_singleton g (is_operator_not_blank g hg)
                refine ⟨_, _, (st.trans stT).trans stL, ?_, ?_, ?_⟩
                · simp only [lexemes_append, lexemes_singleton, strip_blanks_append,
                    strip_blanks_of_blank _ hbl, hgs, hlexT, hlexL]
                  simp
                · intro w hw
                  simp only [strip_blanks_append, strip_blanks_of_blank _ hbl, hgs,
                    List.nil_append]
                  have := hderL _ (Derives.expression_more w g _ hw hg hderT)
                  simpa [List.append_assoc] using this
                · intro k hk
                  simp only [kinds_append, kinds_singleton]
                  have := htokL _ (TokenDerives.E_more k _ hk htokT)
                  simpa [List.append_assoc] using this
              · rw [if_pos hres] at h
                cases h
                cases hr
            | thrown e => cases h
            | no_fuel => cases h
      · rw [if_neg hc] at h
        cases h
        refine ⟨hr, fun hs => ⟨[], [], Step.refl s hs, rfl, ?_, ?_⟩⟩
        · intro w hw
          simpa [strip_blanks] using hw
        · intro k hk
          simpa [kinds] using hk

/-! ## Facts about the token-level grammar -/

theorem begins_term_ne_operator (x : token_t) (h : begins_term x = true) : x ≠ .OPERATOR := by
  cases x <;> first | decide | (revert h; decide)

theorem ends_term_ne_operator (x : token_t) (h : ends_term x = true) : x ≠ .OPERATOR := by
  cases x <;> first | decide | (revert h; decide)

theorem between_of_ends_begins (x y : token_t) (hx : ends_term x = true ∨ x = .OPENING_SCOPE)
    (hy : begins_term y = true ∨ y = .CLOSING_SCOPE) (hxy : x = .OPERATOR ∨ True) :
    between x y = true := by
  cases x <;> cases y <;> first | rfl | (revert hx hy; decide)

theorem between_operator_left (y : token_t) (hy : begins_term y = true) :
    between .OPERATOR y = true := by
  cases y <;> first | rfl | (revert hy; decide)

theorem between_operator_right (x : token_t) (hx : ends_term x = true) :
    between x .OPERATOR = true := by
  cases x <;> first | rfl | (revert hx; decide)

/-- Shape of a derivable run of token kinds. -/
theorem TokenDerives.shape {nt : token_nonterminal} {k : List token_t}
    (h : TokenDerives nt k) : k ≠ [] ∧ operators_between k := by
  unfold operators_between
  induction h with
  | T_operand =>
    refine ⟨by simp, ?_, ?_, List.chain'_singleton _⟩
    · intro x hx; cases hx; rfl
    · intro x hx; cases hx; rfl
  | T_scope w _ ih =>
    obtain ⟨hne, hhead, hlast, hchain⟩ := ih
    refine ⟨by simp, ?_, ?_, ?_⟩
    · intro x hx; cases hx; rfl
    · intro x hx
      rw [List.getLast?_concat] at hx
      cases hx; rfl
    · have h1 : List.Chain' (fun a b => between a b = true) (w ++ [.CLOSING_SCOPE]) := by
        refine List.Chain'.append hchain (List.chain'_singleton _) ?_
        intro x hx y hy
        cases hy
        exact between_of_ends_begins x _ (Or.inl (hlast x hx)) (Or.inr rfl) (Or.inr trivial)
      have h2 := List.Chain'.append (List.chain'_singleton token_t.OPENING_SCOPE) h1 (by
        intro x hx y hy
        cases hx
        rw [List.head?_append_of_ne_nil _ hne] at hy
        exact between_of_ends_begins _ y (Or.inr rfl) (Or.inl (hhead y hy)) (Or.inr trivial))
      simpa using h2
  | E_term w _ ih => exact ih
  | E_more w v _ _ ihw ihv =>
    obtain ⟨hne, hhead, hlast, hchain⟩ := ihw
    obtain ⟨hne2, hhead2, hlast2, hchain2⟩ := ihv
    refine ⟨by simp, ?_, ?_, ?_⟩
    · intro x hx
      rw [List.head?_append_of_ne_nil _ hne] at hx
      exact hhead x hx
    · intro x hx
      rw [List.getLast?_append_cons] at hx
      cases v with
      | nil => exact absurd rfl hne2
      | cons y ys =>
        rw [List.getLast?_cons_cons] at hx
        exact hlast2 x hx
    · have h1 : List.Chain' (fun a b => between a b = true) (token_t.OPERATOR :: v) := by
        have := List.Chain'.append (List.chain'_singleton token_t.OPERATOR) hchain2 (by
          intro x hx y hy
          cases hx
          exact between_operator_left y (hhead2 y hy))
        simpa using this
      refine List.Chain'.append hchain h1 ?_
      intro x hx y hy
      cases hy
      exact between_operator_right x (hlast x hx)

theorem scope_depth_append (a b : List token_t) : ∀ d : Nat,
    scope_depth d (a ++ b) = (scope_depth d a).bind (fun d1 => scope_depth d1 b) := by
  induction a with
  | nil => intro d; rfl
  | cons k ks ih =>
    intro d
    cases k with
    | OPERAND => simp only [List.cons_append, scope_depth]; exact ih d
    | OPERATOR => simp only [List.cons_append, scope_depth]; exact ih d
    | OPENING_SCOPE => simp only [List.cons_append, scope_depth]; exact ih (d + 1)
    | CLOSING_SCOPE =>
      simp only [List.cons_append, scope_depth]
      by_cases hd : d = 0
      · rw [if_pos hd, if_pos hd]; rfl
      · rw [if_neg hd, if_neg hd]; exact ih (d - 1)

/-- A derivable run of token kinds returns to the nesting depth it started at. -/
theorem TokenDerives.depth {nt : token_nonterminal} {k : List token_t}
    (h : TokenDerives nt k) : ∀ d : Nat, scope_depth d k = some d := by
  induction h with
  | T_operand => intro d; rfl
  | T_scope w _ ih =>
    intro d
    show scope_depth (d + 1) (w ++ [.CLOSING_SCOPE]) = some d
    rw [scope_depth_append, ih (d + 1)]
    simp [scope_depth]
  | E_term w _ ih => exact ih
  | E_more w v _ _ ihw ihv =>
    intro d
    rw [scope_depth_append, ihw d]
    exact ihv d

theorem TokenDerives.balanced {nt : token_nonterminal} {k : List token_t}
    (h : TokenDerives nt k) : balanced k = true := by
  unfold Bares.balanced
  rw [h.depth 0]
  rfl

/-! ## Facts about the entry point -/

theorem reset_in_bounds (self : Parser) (e : List Char) :
    (self.reset e).it_curr_symb ≤ (self.reset e).expr.length :=
  Nat.zero_le _

/-- Everything a successful `parse` establishes. -/
theorem parse_ok (lim : IntLimits) (self : Parser) (e : List Char) (r : ParserResult)
    (t : Parser) (h : parse lim self e = (.done r, t)) (hr : r.type = .PARSER_OK) :
    t.expr = e ∧ t.it_curr_symb = e.length ∧ lexemes t.token_list = strip_blanks e ∧
      Derives .expression (strip_blanks e) ∧ TokenDerives .E (kinds t.token_list) := by
  unfold parse at h
  dsimp only at h
  obtain ⟨bl0, hbl0, st0⟩ := skip_ws_step (self.reset e) (reset_in_bounds self e)
  by_cases he : end_input (skip_ws (self.reset e)) = true
  · rw [if_pos he] at h
    cases h
    cases hr
  · rw [if_neg he] at h
    cases hE : expression lim (2 * e.length + 2) (skip_ws (self.reset e)) with
    | mk o s1 =>
      rw [hE] at h
      cases o with
      | done result =>
        dsimp only at h
        by_cases hres : result.type = .PARSER_OK
        · rw [if_pos hres] at h
          obtain ⟨seg, toks, stE, hlex, hder, htok⟩ :=
            (sound_all lim _).2.1 _ result s1 st0.in_bounds hE hres
          obtain ⟨bl1, hbl1, st1⟩ := skip_ws_step s1 stE.in_bounds
          cases hend : end_input (skip_ws s1)
          · rw [if_pos hend] at h
            cases h
            cases hr
          · rw [if_neg (by rw [hend]; exact Bool.noConfusion)] at h
            cases h
            have st := (st0.trans stE).trans st1
            have hrest : rest (self.reset e) = e := rfl
            have hnil := rest_nil_of_end _ hend
            have hsplit : e = bl0 ++ seg ++ bl1 := by
              have := st.rest_eq
              rw [hrest, hnil, List.append_nil] at this
              exact this
            have hpos : (skip_ws s1).it_curr_symb = e.length := by
              have h1 := st.expr_eq
              unfold end_input at hend
              have h2 : (skip_ws s1).it_curr_symb = (skip_ws s1).expr.length := by
                simpa using hend
              rw [h2, h1]
              rfl
            have htoks : (skip_ws s1).token_list = toks := by
              have := st.tokens_eq
              simpa [Parser.reset] using this
            have hstrip : strip_blanks e = strip_blanks seg := by
              rw [hsplit, strip_blanks_append, strip_blanks_append,
                strip_blanks_of_blank _ hbl0, strip_blanks_of_blank _ hbl1]
              simp
            refine ⟨st.expr_eq, hpos, ?_, ?_, ?_⟩
            · rw [htoks, hstrip]; exact hlex
            · rw [hstrip]; exact hder
            · rw [htoks]; exact htok
        · rw [if_neg hres] at h
          cases h
          exact absurd hr hres
      | thrown e => cases h
      | no_fuel => cases h

theorem Derives.ne_nil {nt : nonterminal} {w : List Char} (h : Derives nt w) : w ≠ [] := by
  induction h with
  | natural_number d ds _ _ => simp
  | integer_zero => simp
  | integer_natural w _ ih => exact ih
  | integer_minus w _ _ => simp
  | term_integer w _ ih => exact ih
  | term_scope w _ _ => simp
  | expression_term w _ ih => exact ih
  | expression_more w c v _ _ _ _ _ => simp

theorem skip_ws_tokens (s : Parser) : (skip_ws s).token_list = s.token_list := by
  unfold skip_ws
  generalize s.expr.length - s.it_curr_symb = n
  induction n generalizing s with
  | zero => rfl
  | succ n ih =>
    unfold skip_ws_loop
    split
    · exact ih (next_symbol s)
    · rfl

/-- Where `skip_ws` stops: right after the leading blanks of the unread input. -/
theorem skip_ws_leading (s : Parser) (hs : s.it_curr_symb ≤ s.expr.length) :
    (skip_ws s).it_curr_symb = s.it_curr_symb + ((rest s).takeWhile is_blank).length ∧
      rest (skip_ws s) = (rest s).dropWhile is_blank := by
  obtain ⟨bl, hbl, st⟩ := skip_ws_step s hs
  have hstop : (rest (skip_ws s)).takeWhile is_blank = [] ∧
      (rest (skip_ws s)).dropWhile is_blank = rest (skip_ws s) := by
    rcases skip_ws_exit s hs with he | hb
    · rw [rest_nil_of_end _ he]; exact ⟨rfl, rfl⟩
    · cases he : end_input (skip_ws s)
      · rw [rest_cons _ (end_input_false_lt _ st.in_bounds he)]
        constructor
        · rw [List.takeWhile_cons, hb]; rfl
        · rw [List.dropWhile_cons, hb]; rfl
      · rw [rest_nil_of_end _ he]; exact ⟨rfl, rfl⟩
  constructor
  · rw [st.pos_eq, st.rest_eq, List.takeWhile_append_of_pos hbl, hstop.1, List.append_nil]
  · rw [st.rest_eq, List.dropWhile_append_of_pos hbl, hstop.2]

theorem skip_ws_all_blank (s : Parser) (hs : s.it_curr_symb ≤ s.expr.length)
    (h : ∀ c ∈ rest s, is_blank c = true) : end_input (skip_ws s) = true := by
  have hd := (skip_ws_leading s hs).2
  have hnil : (rest s).dropWhile is_blank = [] := by
    rw [List.dropWhile_eq_nil_iff]
    exact h
  rw [hnil] at hd
  obtain ⟨bl, hbl, st⟩ := skip_ws_step s hs
  cases he : end_input (skip_ws s)
  · rw [rest_cons _ (end_input_false_lt _ st.in_bounds he)] at hd
    cases hd
  · rfl

/-! ## Widening the required integer domain -/

theorem term_integer_widen (lim lim' : IntLimits) (hmin : lim'.min ≤ lim.min)
    (hmax : lim.max ≤ lim'.max) (b : Nat) (s t : Parser) (r : ParserResult)
    (h : term_integer lim b s = (.done r, t)) (hr : r.type = .PARSER_OK) :
    term_integer lim' b s = (.done r, t) := by
  unfold term_integer at h ⊢
  by_cases hi : (integer s).1.type = .PARSER_OK
  · rw [if_pos hi] at h ⊢
    cases hv : stoll (substring (integer s).2 b) with
    | error e => rw [hv] at h; cases h
    | ok v =>
      rw [hv] at h
      dsimp only at h ⊢
      by_cases hb : v ≤ lim.max ∧ v ≥ lim.min
      · rw [if_pos hb] at h
        rw [if_pos ⟨le_trans hb.1 hmax, le_trans hmin hb.2⟩]
        exact h
      · rw [if_neg hb] at h
        cases h
        cases hr
  · rw [if_neg hi] at h ⊢
    exact h

/-- A successful call stays the same call when the required integer domain is
widened. -/
theorem widen_all (lim lim' : IntLimits) (hmin : lim'.min ≤ lim.min)
    (hmax : lim.max ≤ lim'.max) : ∀ n : Nat,
    (∀ s r t, term lim n s = (.done r, t) → r.type = .PARSER_OK →
      term lim' n s = (.done r, t)) ∧
    (∀ s r t, expression lim n s = (.done r, t) → r.type = .PARSER_OK →
      expression lim' n s = (.done r, t)) ∧
    (∀ r0 s r t, expression_loop lim n r0 s = (.done r, t) → r.type = .PARSER_OK →
      expression_loop lim' n r0 s = (.done r, t)) := by
  intro n
  induction n with
  | zero =>
    refine ⟨?_, ?_, ?_⟩
    · intro s r t h _; rw [term] at h; cases h
    · intro s r t h _; rw [expression] at h; cases h
    · intro r0 s r t h _; rw [expression_loop] at h; cases h
  | succ n ih =>
    obtain ⟨ihT, ihE, ihL⟩ := ih
    refine ⟨?_, ?_, ?_⟩
    · intro s r t h hr
      rw [term] at h ⊢
      by_cases ho : (expect .TS_OPENING_SCOPE (skip_ws s)).1 = true
      · rw [if_pos ho] at h ⊢
        cases hE : expression lim n (push_back (expect .TS_OPENING_SCOPE (skip_ws s)).2 ['(']
          .OPENING_SCOPE) with
        | mk o s3 =>
          rw [hE] at h
          cases o with
          | done result =>
            dsimp only at h
            by_cases hres : result.type = .PARSER_OK
            · rw [ihE _ result s3 hE hres]
              exact h
            · rw [if_neg hres] at h
              cases h
              exact absurd hr hres
          | thrown e => cases h
          | no_fuel => cases h
      · rw [if_neg ho] at h ⊢
        exact term_integer_widen lim lim' hmin hmax _ _ _ _ h hr
    · intro s r t h hr
      rw [expression] at h ⊢
      cases hT : term lim n (skip_ws s) with
      | mk o s1 =>
        rw [hT] at h
        cases o with
        | done result =>
          dsimp only at h
          have hres := ((sound_all lim n).2.2 result s1 r t h hr).1
          rw [ihT _ result s1 hT hres]
          exact ihL result s1 r t h hr
        | thrown e => cases h
        | no_fuel => cases h
    · intro r0 s r t h hr
      rw [expression_loop] at h ⊢
      by_cases hc : r0.type = .PARSER_OK ∧ end_input s = false
      · rw [if_pos hc] at h ⊢
        by_cases hop : (expect_operator s).1 = true
        · rw [if_pos hop] at h ⊢
          cases hT : term lim n (expect_operator s).2 with
          | mk o s1 =>
            rw [hT] at h
            cases o with
            | done result1 =>
              dsimp only at h
              by_cases hres : result1.type = .PARSER_OK
              · rw [ihT _ result1 s1 hT hres]
                dsimp only
                rw [if_neg (not_not.2 hres)] at h ⊢
                exact ihL result1 s1 r t h hr
              · rw [if_pos hres] at h
                cases h
                cases hr
            | thrown e => cases h
            | no_fuel => cases h
        · rw [if_neg hop] at h ⊢
          exact h
      · rw [if_neg hc] at h ⊢
        exact h

/-- `parse` does not look at the state the instance was in before the call. -/
theorem parse_fresh (lim : IntLimits) (self : Parser) (e : List Char) :
    parse lim self e = parse lim Parser.fresh e := rfl

/-- A successful parse stays the same parse when the required integer domain is
widened. -/
theorem parse_widen (lim lim' : IntLimits) (hmin : lim'.min ≤ lim.min)
    (hmax : lim.max ≤ lim'.max) (self : Parser) (e : List Char) (r : ParserResult)
    (t : Parser) (h : parse lim self e = (.done r, t)) (hr : r.type = .PARSER_OK) :
    parse lim' self e = (.done r, t) := by
  unfold parse at h ⊢
  dsimp only at h ⊢
  by_cases he : end_input (skip_ws (self.reset e)) = true
  · rw [if_pos he] at h ⊢
    exact h
  · rw [if_neg he] at h ⊢
    cases hE : expression lim (2 * e.length + 2) (skip_ws (self.reset e)) with
    | mk o s1 =>
      rw [hE] at h
      cases o with
      | done result =>
        dsimp only at h
        by_cases hres : result.type = .PARSER_OK
        · rw [(widen_all lim lim' hmin hmax _).2.1 _ result s1 hE hres]
          exact h
        · rw [if_neg hres] at h
          cases h
          exact absurd hr hres
      | thrown e => cases h
      | no_fuel => cases h

/-! ## The cursor in every outcome, and the recursion budget -/

theorem accept_step (c_ : terminal_symbol_t) (s : Parser)
    (hs : s.it_curr_symb ≤ s.expr.length) : ∃ seg, Step s (accept c_ s).2 seg [] := by
  cases h : (accept c_ s).1
  · rw [accept_false c_ s h]
    exact ⟨[], Step.refl s hs⟩
  · exact ⟨_, (accept_true c_ s hs h).2⟩

theorem expect_step (c_ : terminal_symbol_t) (s : Parser)
    (hs : s.it_curr_symb ≤ s.expr.length) : ∃ seg, Step s (expect c_ s).2 seg [] := by
  obtain ⟨bl, -, st⟩ := skip_ws_step s hs
  obtain ⟨seg, st2⟩ := accept_step c_ (skip_ws s) st.in_bounds
  exact ⟨_, st.trans st2⟩

theorem natural_number_step (s : Parser) (hs : s.it_curr_symb ≤ s.expr.length) :
    ∃ seg, Step s (natural_number s).2 seg [] := by
  unfold natural_number
  obtain ⟨seg, st⟩ := accept_step .TS_NON_ZERO_DIGIT s hs
  by_cases hd : (digit_excl_zero s).1 = true
  · rw [if_pos hd]
    obtain ⟨ds, -, st2⟩ := digit_loop_step
      ((digit_excl_zero s).2.expr.length - (digit_excl_zero s).2.it_curr_symb)
      (digit_excl_zero s).2 st.in_bounds
    exact ⟨_, st.trans st2⟩
  · rw [if_neg hd]
    exact ⟨seg, st⟩

theorem integer_step (s : Parser) (hs : s.it_curr_symb ≤ s.expr.length) :
    ∃ seg, Step s (integer s).2 seg [] := by
  unfold integer
  by_cases hz : lexer (deref s) = .TS_ZERO
  · rw [if_pos hz]
    exact ⟨[], Step.refl s hs⟩
  · rw [if_neg hz]
    obtain ⟨seg, st⟩ := accept_step .TS_MINUS s hs
    obtain ⟨seg2, st2⟩ := natural_number_step _ st.in_bounds
    exact ⟨_, st.trans st2⟩

theorem term_integer_step (lim : IntLimits) (b : Nat) (s : Parser)
    (hs : s.it_curr_symb ≤ s.expr.length) :
    ∃ seg toks, Step s (term_integer lim b s).2 seg toks ∧ (term_integer lim b s).1 ≠ .no_fuel := by
  obtain ⟨seg, st⟩ := integer_step s hs
  unfold term_integer
  by_cases hi : (integer s).1.type = .PARSER_OK
  · rw [if_pos hi]
    cases hv : stoll (substring (integer s).2 b) with
    | error e => exact ⟨seg, [], st, Outcome.noConfusion⟩
    | ok v =>
      dsimp only
      by_cases hb : v ≤ lim.max ∧ v ≥ lim.min
      · rw [if_pos hb]
        exact ⟨seg, _, st.push _ _, Outcome.noConfusion⟩
      · rw [if_neg hb]
        exact ⟨seg, [], st, Outcome.noConfusion⟩
  · rw [if_neg hi]
    exact ⟨seg, [], st, Outcome.noConfusion⟩

theorem expect_operator_any (s : Parser) (hs : s.it_curr_symb ≤ s.expr.length) :
    ∃ seg toks, Step s (expect_operator s).2 seg toks ∧
      ((expect_operator s).1 = true → seg ≠ []) := by
  obtain ⟨hhit, hmiss⟩ := expect_operator_step s hs
  cases h : (expect_operator s).1
  · obtain ⟨bl, -, st⟩ := hmiss h
    exact ⟨bl, [], st, fun h => Bool.noConfusion h⟩
  · obtain ⟨bl, g, -, -, st⟩ := hhit h
    exact ⟨_, _, st, fun _ => by simp⟩

/-- Cursor invariant of the productions, whatever the outcome: a call moves the
cursor forward over a segment of the input, stays within the input, leaves the
input as it is and only appends tokens. -/
theorem step_all (lim : IntLimits) : ∀ n : Nat,
    (∀ s, s.it_curr_symb ≤ s.expr.length → ∃ seg toks, Step s (term lim n s).2 seg toks) ∧
    (∀ s, s.it_curr_symb ≤ s.expr.length →
      ∃ seg toks, Step s (expression lim n s).2 seg toks) ∧
    (∀ r0 s, s.it_curr_symb ≤ s.expr.length →
      ∃ seg toks, Step s (expression_loop lim n r0 s).2 seg toks) := by
  intro n
  induction n with
  | zero =>
    refine ⟨?_, ?_, ?_⟩
    · intro s hs; rw [term]; exact ⟨[], [], Step.refl s hs⟩
    · intro s hs; rw [expression]; exact ⟨[], [], Step.refl s hs⟩
    · intro r0 s hs; rw [expression_loop]; exact ⟨[], [], Step.refl s hs⟩
  | succ n ih =>
    obtain ⟨ihT, ihE, ihL⟩ := ih
    refine ⟨?_, ?_, ?_⟩
    · intro s hs
      rw [term]
      obtain ⟨bl0, -, st0⟩ := skip_ws_step s hs
      obtain ⟨seg1, st1⟩ := expect_step .TS_OPENING_SCOPE (skip_ws s) st0.in_bounds
      by_cases ho : (expect .TS_OPENING_SCOPE (skip_ws s)).1 = true
      · rw [if_pos ho]
        have st2 := (st0.trans st1).push ['('] .OPENING_SCOPE
        obtain ⟨segE, toksE, stE⟩ := ihE _ st2.in_bounds
        generalize (push_back (expect .TS_OPENING_SCOPE (skip_ws s)).2 ['(']
          .OPENING_SCOPE) = s2 at st2 stE ⊢
        cases hE : expression lim n s2 with
        | mk o s3 =>
          rw [hE] at stE
          cases o with
          | done result =>
            dsimp only
            by_cases hres : result.type = .PARSER_OK
            · rw [if_pos hres]
              obtain ⟨seg3, st3⟩ := expect_step .TS_CLOSING_SCOPE s3 stE.in_bounds
              cases hc : (expect .TS_CLOSING_SCOPE s3).1
              · rw [if_pos rfl]
                exact ⟨_, _, (st2.trans stE).trans st3⟩
              · rw [if_neg (by exact Bool.noConfusion)]
                exact ⟨_, _, ((st2.trans stE).trans st3).push _ _⟩
            · rw [if_neg hres]
              exact ⟨_, _, st2.trans stE⟩
          | thrown e => exact ⟨_, _, st2.trans stE⟩
          | no_fuel => exact ⟨_, _, st2.trans stE⟩
      · rw [if_neg ho]
        obtain ⟨seg, toks, st, -⟩ := term_integer_step lim (skip_ws s).it_curr_symb _
          st1.in_bounds
        exact ⟨_, _, (st0.trans st1).trans st⟩
    · intro s hs
      rw [expression]
      obtain ⟨bl0, -, st0⟩ := skip_ws_step s hs
      obtain ⟨segT, toksT, stT⟩ := ihT _ st0.in_bounds
      cases hT : term lim n (skip_ws s) with
      | mk o s1 =>
        rw [hT] at stT
        cases o with
        | done result =>
          dsimp only
          obtain ⟨segL, toksL, stL⟩ := ihL result s1 stT.in_bounds
          exact ⟨_, _, (st0.trans stT).trans stL⟩
        | thrown e => exact ⟨_, _, st0.trans stT⟩
        | no_fuel => exact ⟨_, _, st0.trans stT⟩
    · intro r0 s hs
      rw [expression_loop]
      by_cases hc : r0.type = .PARSER_OK ∧ end_input s = false
      · rw [if_pos hc]
        obtain ⟨seg, toks, st, -⟩ := expect_operator_any s hs
        by_cases hop : (expect_operator s).1 = true
        · rw [if_pos hop]
          obtain ⟨segT, toksT, stT⟩ := ihT _ st.in_bounds
          cases hT : term lim n (expect_operator s).2 with
          | mk o s1 =>
            rw [hT] at stT
            cases o with
            | done result1 =>
              dsimp only
              by_cases hres : result1.type = .PARSER_OK
              · rw [if_neg (not_not.2 hres)]
                obtain ⟨segL, toksL, stL⟩ := ihL result1 s1 stT.in_bounds
                exact ⟨_, _, (st.trans stT).trans stL⟩
              · rw [if_pos hres]
                exact ⟨_, _, st.trans stT⟩
            | thrown e => exact ⟨_, _, st.trans stT⟩
            | no_fuel => exact ⟨_, _, st.trans stT⟩
        · rw [if_neg hop]
          exact ⟨_, _, st⟩
      · rw [if_neg hc]
        exact ⟨[], [], Step.refl s hs⟩

/-- Number of unread characters. -/
theorem step_unread {s t : Parser} {seg : List Char} {toks : List Token}
    (h : Step s t seg toks) :
    t.expr.length - t.it_curr_symb + seg.length = s.expr.length - s.it_curr_symb := by
  have h1 := h.in_bounds
  have h2 := h.pos_eq
  have h3 := h.expr_eq
  rw [h3] at h1 ⊢
  omega

/-- The recursion budget is enough: a call with a budget of twice the number of
unread characters, plus one for `term()` and the loop and plus two for
`expression()`, does not end for lack of budget. -/
theorem fuel_all (lim : IntLimits) : ∀ n : Nat,
    (∀ s, s.it_curr_symb ≤ s.expr.length → 2 * (s.expr.length - s.it_curr_symb) + 1 ≤ n →
      (term lim n s).1 ≠ .no_fuel) ∧
    (∀ s, s.it_curr_symb ≤ s.expr.length → 2 * (s.expr.length - s.it_curr_symb) + 2 ≤ n →
      (expression lim n s).1 ≠ .no_fuel) ∧
    (∀ r0 s, s.it_curr_symb ≤ s.expr.length →
      2 * (s.expr.length - s.it_curr_symb) + 1 ≤ n →
      (expression_loop lim n r0 s).1 ≠ .no_fuel) := by
  intro n
  induction n with
  | zero =>
    refine ⟨?_, ?_, ?_⟩
    · intro s _ h; omega
    · intro s _ h; omega
    · intro r0 s _ h; omega
  | succ n ih =>
    obtain ⟨ihT, ihE, ihL⟩ := ih
    refine ⟨?_, ?_, ?_⟩
    · intro s hs hn
      rw [term]
      obtain ⟨bl0, -, st0⟩ := skip_ws_step s hs
      by_cases ho : (expect .TS_OPENING_SCOPE (skip_ws s)).1 = true
      · rw [if_pos ho]
        obtain ⟨bl1, -, -, st1⟩ := expect_true _ _ st0.in_bounds ho
        have st2 := (st0.trans st1).push ['('] .OPENING_SCOPE
        have hu := step_unread st2
        have hE := ihE _ st2.in_bounds (by
          simp only [List.length_append, List.length_singleton] at hu
          omega)
        generalize (push_back (expect .TS_OPENING_SCOPE (skip_ws s)).2 ['(']
          .OPENING_SCOPE) = s2 at hE ⊢
        cases hX : expression lim n s2 with
        | mk o s3 =>
          rw [hX] at hE
          cases o with
          | done result =>
            dsimp only
            by_cases hres : result.type = .PARSER_OK
            · rw [if_pos hres]
              cases hc : (expect .TS_CLOSING_SCOPE s3).1
              · rw [if_pos rfl]; exact Outcome.noConfusion
              · rw [if_neg (by exact Bool.noConfusion)]; exact Outcome.noConfusion
            · rw [if_neg hres]; exact Outcome.noConfusion
          | thrown e => exact Outcome.noConfusion
          | no_fuel => exact absurd rfl hE
      · rw [if_neg ho]
        obtain ⟨seg1, st1⟩ := expect_step .TS_OPENING_SCOPE (skip_ws s) st0.in_bounds
        exact (term_integer_step lim _ _ st1.in_bounds).choose_spec.choose_spec.2
    · intro s hs hn
      rw [expression]
      obtain ⟨bl0, -, st0⟩ := skip_ws_step s hs
      have hu0 := step_unread st0
      have hT := ihT _ st0.in_bounds (by omega)
      obtain ⟨segT, toksT, stT⟩ := (step_all lim n).1 _ st0.in_bounds
      cases hX : term lim n (skip_ws s) with
      | mk o s1 =>
        rw [hX] at hT stT
        cases o with
        | done result =>
          dsimp only
          have hu1 := step_unread stT
          dsimp only at hu1
          exact ihL result s1 stT.in_bounds (by omega)
        | thrown e => exact Outcome.noConfusion
        | no_fuel => exact absurd rfl hT
    · intro r0 s hs hn
      rw [expression_loop]
      by_cases hc : r0.type = .PARSER_OK ∧ end_input s = false
      · rw [if_pos hc]
        obtain ⟨seg, toks, st, hseg⟩ := expect_operator_any s hs
        by_cases hop : (expect_operator s).1 = true
        · rw [if_pos hop]
          have hlen : 0 < seg.length := List.length_pos.2 (hseg hop)
          have hu := step_unread st
          have hT := ihT _ st.in_bounds (by omega)
          obtain ⟨segT, toksT, stT⟩ := (step_all lim n).1 _ st.in_bounds
          cases hX : term lim n (expect_operator s).2 with
          | mk o s1 =>
            rw [hX] at hT stT
            cases o with
            | done result1 =>
              dsimp only
              by_cases hres : result1.type = .PARSER_OK
              · rw [if_neg (not_not.2 hres)]
                have hu1 := step_unread stT
                dsimp only at hu1
                exact ihL result1 s1 stT.in_bounds (by omega)
              · rw [if_pos hres]; exact Outcome.noConfusion
            | thrown e => exact Outcome.noConfusion
            | no_fuel => exact absurd rfl hT
        · rw [if_neg hop]; exact Outcome.noConfusion
      · rw [if_neg hc]; exact Outcome.noConfusion

/-- The model of `parse` never ends for lack of recursion budget: on every
input it returns a result or lets an exception escape. -/
theorem parse_has_fuel (lim : IntLimits) (self : Parser) (e : List Char) :
    (parse lim self e).1 ≠ .no_fuel := by
  unfold parse
  dsimp only
  obtain ⟨bl0, -, st0⟩ := skip_ws_step (self.reset e) (reset_in_bounds self e)
  by_cases he : end_input (skip_ws (self.reset e)) = true
  · rw [if_pos he]; exact Outcome.noConfusion
  · rw [if_neg he]
    have hu := step_unread st0
    have hlen : (self.reset e).expr.length - (self.reset e).it_curr_symb = e.length := rfl
    have hE := (fuel_all lim (2 * e.length + 2)).2.1 _ st0.in_bounds (by omega)
    cases hX : expression lim (2 * e.length + 2) (skip_ws (self.reset e)) with
    | mk o s1 =>
      rw [hX] at hE
      cases o with
      | done result =>
        dsimp only
        by_cases hres : result.type = .PARSER_OK
        · rw [if_pos hres]
          cases hend : end_input (skip_ws s1)
          · rw [if_pos rfl]; exact Outcome.noConfusion
          · rw [if_neg (by exact Bool.noConfusion)]; exact Outcome.noConfusion
        · rw [if_neg hres]; exact Outcome.noConfusion
      | thrown x => exact Outcome.noConfusion
      | no_fuel => exact absurd rfl hE

/-! ## Failure paths -/

theorem strip_blanks_nil_of_nil : strip_blanks [] = [] := rfl

/-- What `parse` returns when `expression()` succeeded and left something other
than blanks unread. -/
theorem parse_extraneous_core (lim : IntLimits) (self : Parser) (e : List Char)
    (r : ParserResult) (s1 : Parser)
    (hE : expression lim (2 * e.length + 2) (skip_ws (self.reset e)) = (.done r, s1))
    (hr : r.type = .PARSER_OK)
    (hrest : (e.drop s1.it_curr_symb).dropWhile is_blank ≠ []) :
    parse lim self e = (.done ⟨.EXTRANEOUS_SYMBOL,
      s1.it_curr_symb + ((e.drop s1.it_curr_symb).takeWhile is_blank).length⟩, skip_ws s1) ∧
      s1.it_curr_symb ≤ e.length := by
  obtain ⟨bl0, hbl0, st0⟩ := skip_ws_step (self.reset e) (reset_in_bounds self e)
  obtain ⟨seg, toks, stE, -, hder, -⟩ := (sound_all lim _).2.1 _ r s1 st0.in_bounds hE hr
  have hexpr : s1.expr = e := stE.expr_eq.trans st0.expr_eq
  have hrest1 : rest s1 = e.drop s1.it_curr_symb := by unfold rest; rw [hexpr]
  have hseg : seg ≠ [] := by
    intro hnil
    rw [hnil] at hder
    exact hder.ne_nil strip_blanks_nil_of_nil
  have he : ¬ end_input (skip_ws (self.reset e)) = true := by
    intro he
    have h1 := stE.rest_eq
    rw [rest_nil_of_end _ he] at h1
    cases seg with
    | nil => exact hseg rfl
    | cons c cs => cases h1
  obtain ⟨hpos, hdrop⟩ := skip_ws_leading s1 stE.in_bounds
  have hend : end_input (skip_ws s1) = false := by
    cases h : end_input (skip_ws s1)
    · rfl
    · rw [rest_nil_of_end _ h, hrest1] at hdrop
      exact absurd hdrop.symm hrest
  refine ⟨?_, by have := stE.in_bounds; rw [hexpr] at this; exact this⟩
  unfold parse
  dsimp only
  rw [if_neg he, hE]
  dsimp only
  rw [if_pos hr, if_pos hend, hpos, hrest1]

/-- What the operator loop returns when the term after an operator fails. -/
theorem expression_loop_retag (lim : IntLimits) (n : Nat) (r0 r1 : ParserResult)
    (s s1 : Parser) (hr0 : r0.type = .PARSER_OK) (hne : end_input s = false)
    (hop : (expect_operator s).1 = true)
    (hT : term lim n (expect_operator s).2 = (.done r1, s1))
    (hfail : r1.type ≠ .PARSER_OK) :
    expression_loop lim (n + 1) r0 s = (.done ⟨.MISSING_TERM, r1.at_col⟩, s1) := by
  rw [expression_loop, if_pos ⟨hr0, hne⟩, if_pos hop, hT]
  dsimp only
  rw [if_pos hfail]

/-- What `expression()` returns when its first term fails: the loop is not
entered. -/
theorem expression_first_term_fails (lim : IntLimits) (n : Nat) (s t : Parser)
    (r : ParserResult) (hT : term lim (n + 1) (skip_ws s) = (.done r, t))
    (hr : r.type ≠ .PARSER_OK) : expression lim (n + 2) s = (.done r, t) := by
  rw [expression, hT]
  dsimp only
  rw [expression_loop, if_neg (fun h => hr h.1)]

/-- What `parse` returns when `expression()` fails. -/
theorem parse_expression_fails (lim : IntLimits) (self : Parser) (e : List Char)
    (r : ParserResult) (t : Parser) (he : end_input (skip_ws (self.reset e)) = false)
    (hE : expression lim (2 * e.length + 2) (skip_ws (self.reset e)) = (.done r, t))
    (hr : r.type ≠ .PARSER_OK) : parse lim self e = (.done r, t) := by
  unfold parse
  dsimp only
  rw [if_neg (by rw [he]; exact Bool.noConfusion), hE]
  dsimp only
  rw [if_neg hr]

/-- What `term()` returns when the parenthesised expression is not followed by
a closing parenthesis. -/
theorem term_missing_closing_core (lim : IntLimits) (n : Nat) (s s1 : Parser)
    (r1 : ParserResult) (hopen : (expect .TS_OPENING_SCOPE (skip_ws s)).1 = true)
    (hE : expression lim n
      (push_back (expect .TS_OPENING_SCOPE (skip_ws s)).2 ['('] .OPENING_SCOPE) = (.done r1, s1))
    (hr1 : r1.type = .PARSER_OK)
    (hnc : end_input (skip_ws s1) = true ∨ deref (skip_ws s1) ≠ ')') :
    term lim (n + 1) s =
      (.done ⟨.MISSING_CLOSING_PARENTHESIS, (skip_ws s1).it_curr_symb⟩, skip_ws s1) := by
  have hacc : (expect .TS_CLOSING_SCOPE s1).1 = false := by
    cases h : (expect .TS_CLOSING_SCOPE s1).1
    · rfl
    · exfalso
      unfold expect accept at h
      by_cases hp : peek .TS_CLOSING_SCOPE (skip_ws s1) = true
      · obtain ⟨h1, h2⟩ := peek_true _ _ hp
        rcases hnc with hnc | hnc
        · rw [hnc] at h1; cases h1
        · exact hnc (lexer_closing _ h2)
      · rw [if_neg hp] at h
        cases h
  rw [term, if_pos hopen, hE]
  dsimp only
  rw [if_pos hr1, if_pos hacc, expect_false _ _ hacc]

/-- The integer branch of `term()` lets the exception of `std::stoll` escape. -/
theorem term_throws (lim : IntLimits) (n : Nat) (s t : Parser) (x : Exception)
    (hopen : (expect .TS_OPENING_SCOPE (skip_ws s)).1 = false)
    (hi : (integer (expect .TS_OPENING_SCOPE (skip_ws s)).2).1.type = .PARSER_OK)
    (hst : stoll (substring (integer (expect .TS_OPENING_SCOPE (skip_ws s)).2).2
      (skip_ws s).it_curr_symb) = .error x)
    (ht : (integer (expect .TS_OPENING_SCOPE (skip_ws s)).2).2 = t) :
    term lim (n + 1) s = (.thrown x, t) := by
  rw [term, if_neg (by rw [hopen]; exact Bool.noConfusion)]
  unfold term_integer
  rw [if_pos hi, hst, ht]

/-- An exception that escapes from the first term of the input escapes from
`parse`. -/
theorem parse_first_term_throws (lim : IntLimits) (self : Parser) (e : List Char)
    (x : Exception) (t : Parser) (he : end_input (skip_ws (self.reset e)) = false)
    (hT : term lim (2 * e.length + 1) (skip_ws (skip_ws (self.reset e))) = (.thrown x, t)) :
    parse lim self e = (.thrown x, t) := by
  unfold parse
  dsimp only
  rw [if_neg (by rw [he]; exact Bool.noConfusion),
    show 2 * e.length + 2 = (2 * e.length + 1) + 1 from rfl, expression, hT]

/-! ## Frame of the cursor primitives -/

theorem Step.forward {s t : Parser} {seg : List Char} {toks : List Token}
    (h : Step s t seg toks) : Forward s t :=
  ⟨h.expr_eq, by rw [h.pos_eq]; exact Nat.le_add_right _ _, h.in_bounds⟩

theorem digit_step (s : Parser) (hs : s.it_curr_symb ≤ s.expr.length) :
    ∃ seg, Step s (digit s).2 seg [] := by
  cases h : (digit s).1
  · rw [digit_false s h]
    exact ⟨[], Step.refl s hs⟩
  · exact ⟨_, (digit_true s hs h).2⟩

theorem deref_eq_of_lt (s : Parser) (h : s.it_curr_symb < s.expr.length) :
    s.expr[s.it_curr_symb]? = some (deref s) := by
  unfold deref
  rw [List.getD_eq_getElem _ _ h, List.getElem?_eq_getElem h]

theorem deref_at_end (s : Parser) (h : end_input s = true) : deref s = '\x00' := by
  unfold end_input at h
  have he : s.it_curr_symb = s.expr.length := by simpa using h
  unfold deref
  exact List.getD_eq_default _ _ (le_of_eq he.symm)

theorem accept_fst (c_ : terminal_symbol_t) (s : Parser) : (accept c_ s).1 = peek c_ s := by
  unfold accept
  cases h : peek c_ s
  · rw [if_neg (by exact Bool.noConfusion)]
  · rw [if_pos rfl]

theorem accept_tokens (c_ : terminal_symbol_t) (s : Parser) :
    (accept c_ s).2.token_list = s.token_list ∧ (accept c_ s).2.expr = s.expr := by
  unfold accept
  cases h : peek c_ s
  · rw [if_neg (by exact Bool.noConfusion)]
    exact ⟨rfl, rfl⟩
  · rw [if_pos rfl]
    exact ⟨rfl, rfl⟩

/-! ## Terms that start with a zero, and places where no term starts -/

theorem accept_miss (c_ : terminal_symbol_t) (s : Parser)
    (h : end_input s = true ∨ lexer (deref s) ≠ c_) : accept c_ s = (false, s) := by
  unfold accept
  have hp : ¬ peek c_ s = true := by
    intro hp
    obtain ⟨he, hl⟩ := peek_true c_ s hp
    rcases h with h | h
    · rw [h] at he; cases he
    · exact h hl
  rw [if_neg hp]

theorem expect_miss_fixed (c_ : terminal_symbol_t) (s : Parser)
    (hs : s.it_curr_symb ≤ s.expr.length)
    (h : end_input (skip_ws s) = true ∨ lexer (deref (skip_ws s)) ≠ c_) :
    expect c_ (skip_ws s) = (false, skip_ws s) := by
  unfold expect
  rw [skip_ws_idem s hs]
  exact accept_miss c_ _ h

/-- A term whose first character after the blanks is `0`: `integer()` returns
`PARSER_OK` without consuming it, the text handed to `std::stoll` is empty, and
`std::invalid_argument` escapes from `term()`. -/
theorem term_zero_throws (lim : IntLimits) (n : Nat) (s : Parser)
    (hs : s.it_curr_symb ≤ s.expr.length) (hz : deref (skip_ws s) = '0') :
    term lim (n + 1) s = (.thrown .invalid_argument, skip_ws s) := by
  have hlex : lexer (deref (skip_ws s)) = .TS_ZERO := by rw [hz]; decide
  have hexp := expect_miss_fixed .TS_OPENING_SCOPE s hs
    (Or.inr (by rw [hlex]; exact terminal_symbol_t.noConfusion))
  have hint : integer (skip_ws s) = (ParserResult.of_code .PARSER_OK, skip_ws s) := by
    unfold integer
    rw [if_pos hlex]
  apply term_throws
  · rw [hexp]
  · rw [hexp, hint]; rfl
  · rw [hexp, hint]
    unfold substring
    rw [Nat.sub_self, List.take_zero]
    exact stoll_nil
  · rw [hexp, hint]

/-- Where `skip_ws` stops on an input that starts with blanks and then a
character that is not a blank. -/
theorem skip_ws_reset_blanks (self : Parser) (bl : List Char) (c : Char) (tl : List Char)
    (hbl : ∀ x ∈ bl, is_blank x = true) (hc : is_blank c = false) :
    skip_ws (self.reset (bl ++ c :: tl)) = ⟨bl ++ c :: tl, bl.length, []⟩ ∧
      deref ⟨bl ++ c :: tl, bl.length, []⟩ = c ∧
      end_input ⟨bl ++ c :: tl, bl.length, []⟩ = false := by
  have hs := reset_in_bounds self (bl ++ c :: tl)
  obtain ⟨seg, -, st⟩ := skip_ws_step (self.reset (bl ++ c :: tl)) hs
  have hpos := (skip_ws_leading _ hs).1
  have hrest : rest (self.reset (bl ++ c :: tl)) = bl ++ c :: tl := rfl
  have htw : (bl ++ c :: tl).takeWhile is_blank = bl := by
    rw [List.takeWhile_append_of_pos hbl, List.takeWhile_cons, hc]
    simp
  rw [hrest, htw] at hpos
  have h1 : skip_ws (self.reset (bl ++ c :: tl)) = ⟨bl ++ c :: tl, bl.length, []⟩ := by
    have he := st.expr_eq
    have ht := st.tokens_eq
    cases hsk : skip_ws (self.reset (bl ++ c :: tl)) with
    | mk e p t =>
      rw [hsk] at he ht hpos
      simp only [Parser.reset] at he ht hpos
      simp only [List.nil_append] at ht
      rw [Parser.mk.injEq]
      exact ⟨he, by simpa using hpos, by
        cases seg' : t with
        | nil => rfl
        | cons a b => rw [seg'] at ht; exact absurd ht (by simp)⟩
  have hlt : (⟨bl ++ c :: tl, bl.length, []⟩ : Parser).it_curr_symb <
      (⟨bl ++ c :: tl, bl.length, []⟩ : Parser).expr.length := by
    show bl.length < (bl ++ c :: tl).length
    rw [List.length_append, List.length_cons]
    omega
  refine ⟨h1, ?_, ?_⟩
  · have hr := rest_cons _ hlt
    have hd : rest (⟨bl ++ c :: tl, bl.length, []⟩ : Parser) = c :: tl :=
      List.drop_left bl (c :: tl)
    rw [hd] at hr
    exact (List.cons.inj hr).1.symm
  · unfold end_input
    exact beq_false_of_ne (Nat.ne_of_lt hlt)

/-- An input whose first character after the blanks is `0`: the exception of
the first term escapes from `parse`, with the cursor in front of the zero and
an empty token list. -/
theorem parse_zero_first_core (lim : IntLimits) (self : Parser) (bl tl : List Char)
    (hbl : ∀ c ∈ bl, is_blank c = true) :
    parse lim self (bl ++ '0' :: tl) =
      (.thrown .invalid_argument, ⟨bl ++ '0' :: tl, bl.length, []⟩) := by
  obtain ⟨h1, hd, he⟩ := skip_ws_reset_blanks self bl '0' tl hbl (by decide)
  have hs := reset_in_bounds self (bl ++ '0' :: tl)
  have hidem := skip_ws_idem _ hs
  apply parse_first_term_throws
  · rw [h1]; exact he
  · rw [hidem]
    have hsb := (skip_ws_step _ hs).choose_spec.2.in_bounds
    have ht := term_zero_throws lim (2 * (bl ++ '0' :: tl).length) _ hsb
      (by rw [hidem, h1]; exact hd)
    rw [hidem, h1] at ht
    rw [h1]
    exact ht

/-- What `term()` returns where no term starts: after the blanks the input is
exhausted, or the character there is none of `(`, `0`, `-` and the nonzero
digits. The result is the one of `natural_number()`. -/
theorem term_no_term_core (lim : IntLimits) (n : Nat) (s : Parser)
    (hs : s.it_curr_symb ≤ s.expr.length)
    (h : end_input (skip_ws s) = true ∨
      (deref (skip_ws s) ≠ '(' ∧ deref (skip_ws s) ≠ '0' ∧ deref (skip_ws s) ≠ '-' ∧
        is_nonzero_digit (deref (skip_ws s)) = false)) :
    term lim (n + 1) s =
      (.done ⟨.ILL_FORMED_INTEGER, (skip_ws s).it_curr_symb⟩, skip_ws s) := by
  have hopen : end_input (skip_ws s) = true ∨
      lexer (deref (skip_ws s)) ≠ .TS_OPENING_SCOPE := by
    rcases h with h | h
    · exact Or.inl h
    · exact Or.inr (fun hl => h.1 (lexer_opening _ hl))
  have hminus : end_input (skip_ws s) = true ∨ lexer (deref (skip_ws s)) ≠ .TS_MINUS := by
    rcases h with h | h
    · exact Or.inl h
    · exact Or.inr (fun hl => h.2.2.1 (lexer_minus _ hl))
  have hdig : end_input (skip_ws s) = true ∨
      lexer (deref (skip_ws s)) ≠ .TS_NON_ZERO_DIGIT := by
    rcases h with h | h
    · exact Or.inl h
    · exact Or.inr (fun hl => by
        have := lexer_non_zero _ hl
        rw [h.2.2.2] at this
        cases this)
  have hzero : ¬ lexer (deref (skip_ws s)) = .TS_ZERO := by
    rcases h with h | h
    · rw [deref_at_end _ h]; decide
    · exact fun hl => h.2.1 (lexer_zero _ hl)
  have hint : integer (skip_ws s) =
      (⟨.ILL_FORMED_INTEGER, (skip_ws s).it_curr_symb⟩, skip_ws s) := by
    unfold integer
    rw [if_neg hzero, accept_miss _ _ hminus]
    unfold natural_number digit_excl_zero
    rw [accept_miss _ _ hdig]
    rw [if_neg (by exact Bool.noConfusion)]
  rw [term, expect_miss_fixed _ s hs hopen, if_neg (by exact Bool.noConfusion)]
  unfold term_integer
  rw [hint, if_neg (by exact code_t.noConfusion)]

/-- What `term()` returns when the expression inside the parentheses fails: the
result of that expression, unchanged. -/
theorem term_scope_fails (lim : IntLimits) (n : Nat) (s t : Parser) (r : ParserResult)
    (hopen : (expect .TS_OPENING_SCOPE (skip_ws s)).1 = true)
    (hE : expression lim n
      (push_back (expect .TS_OPENING_SCOPE (skip_ws s)).2 ['('] .OPENING_SCOPE) = (.done r, t))
    (hr : r.type ≠ .PARSER_OK) : term lim (n + 1) s = (.done r, t) := by
  rw [term, if_pos hopen, hE]
  dsimp only
  rw [if_neg hr]

/-- The run of `parse` on `"()"`, for every required integer domain. -/
theorem parse_empty_scope (lim : IntLimits) (self : Parser) :
    parse lim self "()".toList =
      (.done ⟨.ILL_FORMED_INTEGER, 1⟩, ⟨"()".toList, 1, [⟨['('], .OPENING_SCOPE⟩]⟩) := by
  have h3 := term_no_term_core lim 2 (skip_ws (push_back (expect .TS_OPENING_SCOPE
    (skip_ws (skip_ws (skip_ws (Parser.fresh.reset "()".toList))))).2 ['(']
    .OPENING_SCOPE)) (by decide) (by decide)
  have h4 := expression_first_term_fails lim 2 _ _ _ h3 (by decide)
  have h5 := term_scope_fails lim 4 (skip_ws (skip_ws (Parser.fresh.reset "()".toList))) _ _
    (by decide) h4 (by decide)
  have h6 := expression_first_term_fails lim 4 (skip_ws (Parser.fresh.reset "()".toList))
    _ _ h5 (by decide)
  rw [parse_fresh, parse_expression_fails lim Parser.fresh "()".toList _ _ (by decide) h6
    (by decide)]
  decide

/-! ## What the token list records, whatever the outcome -/

theorem digit_char_facts (c : Char) (h : is_digit c = true) :
    isspace c = false ∧ isdigit c = true ∧ c ≠ '-' ∧ c ≠ '+' := by
  unfold is_digit is_nonzero_digit at h
  rw [Bool.or_eq_true, beq_iff_eq, decide_eq_true_iff] at h
  rcases h with h | h | h | h | h | h | h | h | h | h <;> (subst h; decide)

theorem takeWhile_isdigit (ds : List Char) (h : ∀ c ∈ ds, is_digit c = true) :
    ds.takeWhile isdigit = ds := by
  rw [List.takeWhile_eq_self_iff]
  intro c hc
  exact (digit_char_facts c (h c hc)).2.1

/-- What `std::stoll` computes on a run of digits. -/
theorem stoll_digits (d : Char) (ds : List Char) (hd : is_digit d = true)
    (hds : ∀ c ∈ ds, is_digit c = true) :
    stoll (d :: ds) =
      if LLONG_MIN ≤ (decimal_value (d :: ds) : Int) ∧
          (decimal_value (d :: ds) : Int) ≤ LLONG_MAX then
        .ok (decimal_value (d :: ds) : Int) else .error .out_of_range := by
  obtain ⟨h1, h2, h3, h4⟩ := digit_char_facts d hd
  have hall : ∀ c ∈ d :: ds, is_digit c = true := by
    intro c hc
    rcases List.mem_cons.1 hc with h | h
    · rw [h]; exact hd
    · exact hds c h
  have htw := takeWhile_isdigit (d :: ds) hall
  unfold stoll
  have hdw : (d :: ds).dropWhile isspace = d :: ds := by
    rw [List.dropWhile_cons, h1]; rfl
  simp only [hdw, List.head?_cons, Option.some_beq_some, beq_eq_false_iff_ne.2 h3,
    beq_eq_false_iff_ne.2 h4, Bool.or_self, Bool.false_eq_true, if_false, htw,
    List.isEmpty_cons]

/-- What `std::stoll` computes on a `-` and a run of digits. -/
theorem stoll_minus_digits (d : Char) (ds : List Char) (hd : is_digit d = true)
    (hds : ∀ c ∈ ds, is_digit c = true) :
    stoll ('-' :: d :: ds) =
      if LLONG_MIN ≤ -(decimal_value (d :: ds) : Int) ∧
          -(decimal_value (d :: ds) : Int) ≤ LLONG_MAX then
        .ok (-(decimal_value (d :: ds) : Int)) else .error .out_of_range := by
  have hall : ∀ c ∈ d :: ds, is_digit c = true := by
    intro c hc
    rcases List.mem_cons.1 hc with h | h
    · rw [h]; exact hd
    · exact hds c h
  have htw := takeWhile_isdigit (d :: ds) hall
  unfold stoll
  have hdw : ('-' :: d :: ds).dropWhile isspace = '-' :: d :: ds := by
    rw [List.dropWhile_cons]
    have : isspace '-' = false := by decide
    rw [this]; rfl
  simp only [hdw, List.head?_cons, beq_self_eq_true, Bool.true_or, if_true, List.tail_cons,
    htw, List.isEmpty_cons, Bool.false_eq_true, if_false]

theorem integer_value_digits (d : Char) (ds : List Char) (hd : is_digit d = true) :
    integer_value (d :: ds) = (decimal_value (d :: ds) : Int) := by
  unfold integer_value
  have h3 := (digit_char_facts d hd).2.2.1
  rw [List.head?_cons, if_neg (fun h => h3 (Option.some.inj h))]

theorem integer_value_minus (w : List Char) :
    integer_value ('-' :: w) = -(decimal_value w : Int) := by
  unfold integer_value
  rw [List.head?_cons, if_pos rfl, List.tail_cons]

/-- A literal that `std::stoll` converts has the value the literal denotes. -/
theorem stoll_value (w : List Char) (v : Int) (hw : Derives .integer w)
    (h : stoll w = .ok v) : v = integer_value w := by
  have hnat : ∀ u, Derives .natural_number u →
      ∃ d ds, u = d :: ds ∧ is_digit d = true ∧ ∀ c ∈ ds, is_digit c = true := by
    intro u hu
    cases hu with
    | natural_number d ds hd hds => exact ⟨d, ds, rfl, is_digit_of_nonzero d hd, hds⟩
  cases hw with
  | integer_zero =>
    have : stoll ['0'] = .ok 0 := by decide
    rw [this] at h
    cases h
    decide
  | integer_natural _ hn =>
    obtain ⟨d, ds, rfl, hd, hds⟩ := hnat _ hn
    rw [stoll_digits d ds hd hds] at h
    rw [integer_value_digits d ds hd]
    split at h
    · cases h; rfl
    · cases h
  | integer_minus u hn =>
    obtain ⟨d, ds, rfl, hd, hds⟩ := hnat _ hn
    rw [stoll_minus_digits d ds hd hds] at h
    rw [integer_value_minus]
    split at h
    · cases h; rfl
    · cases h

theorem initial_part_nil (b : List Char) : initial_part [] b := ⟨b, rfl⟩

theorem initial_part_refl (b : List Char) : initial_part b b := ⟨[], (List.append_nil b).symm⟩

theorem initial_part_append (a b c : List Char) (h : initial_part b c) :
    initial_part (a ++ b) (a ++ c) := by
  obtain ⟨t, ht⟩ := h
  exact ⟨t, by rw [ht, List.append_assoc]⟩

theorem initial_part_extend (a b c : List Char) (h : initial_part a b) :
    initial_part a (b ++ c) := by
  obtain ⟨t, ht⟩ := h
  exact ⟨t ++ c, by rw [ht, List.append_assoc]⟩

theorem part_of_left (w a b : List Char) (h : part_of w a) : part_of w (a ++ b) := by
  obtain ⟨p, q, hpq⟩ := h
  exact ⟨p, q ++ b, by rw [hpq]; simp [List.append_assoc]⟩

theorem part_of_right (w a b : List Char) (h : part_of w b) : part_of w (a ++ b) := by
  obtain ⟨p, q, hpq⟩ := h
  exact ⟨a ++ p, q, by rw [hpq]; simp [List.append_assoc]⟩

theorem operand_ok_left (lim : IntLimits) (a b : List Char) (tok : Token)
    (h : operand_ok lim a tok) : operand_ok lim (a ++ b) tok := by
  intro hk
  obtain ⟨h1, h2⟩ := h hk
  exact ⟨part_of_left _ a b h1, h2⟩

theorem operand_ok_right (lim : IntLimits) (a b : List Char) (tok : Token)
    (h : operand_ok lim b tok) : operand_ok lim (a ++ b) tok := by
  intro hk
  obtain ⟨h1, h2⟩ := h hk
  exact ⟨part_of_right _ a b h1, h2⟩

theorem Recorded.of_step_nil (lim : IntLimits) {s t : Parser} {seg : List Char}
    (st : Step s t seg []) : Recorded lim s t seg [] :=
  ⟨st, fun tok h => (by cases h), initial_part_nil _⟩

theorem Recorded.append {lim : IntLimits} {s t u : Parser} {a b : List Char}
    {x y : List Token} (h1 : Recorded lim s t a x) (e1 : lexemes x = strip_blanks a)
    (h2 : Recorded lim t u b y) : Recorded lim s u (a ++ b) (x ++ y) := by
  refine ⟨h1.step.trans h2.step, ?_, ?_⟩
  · intro tok htok
    rcases List.mem_append.1 htok with h | h
    · exact operand_ok_left lim a b tok (h1.operands tok h)
    · exact operand_ok_right lim a b tok (h2.operands tok h)
  · rw [lexemes_append, strip_blanks_append, e1]
    exact initial_part_append _ _ _ h2.leads

theorem exact_append {a b : List Char} {x y : List Token} (e1 : lexemes x = strip_blanks a)
    (e2 : lexemes y = strip_blanks b) : lexemes (x ++ y) = strip_blanks (a ++ b) := by
  rw [lexemes_append, strip_blanks_append, e1, e2]

/-- A step over blanks and one glyph that records the glyph as a token that is
not an operand. -/
theorem Recorded.glyph (lim : IntLimits) {s t : Parser} {bl : List Char} {g : Char}
    {k : token_t} (st : Step s t (bl ++ [g]) [⟨[g], k⟩])
    (hbl : ∀ c ∈ bl, is_blank c = true) (hg : is_blank g = false) (hk : k ≠ .OPERAND) :
    Recorded lim s t (bl ++ [g]) [⟨[g], k⟩] ∧
      lexemes [⟨[g], k⟩] = strip_blanks (bl ++ [g]) := by
  have he : lexemes [⟨[g], k⟩] = strip_blanks (bl ++ [g]) := by
    rw [lexemes_singleton, strip_blanks_append, strip_blanks_of_blank _ hbl,
      strip_blanks_singleton g hg]
    rfl
  refine ⟨⟨st, ?_, ?_⟩, he⟩
  · intro tok htok hop
    rw [List.mem_singleton.1 htok] at hop
    exact absurd hop hk
  · rw [he]; exact initial_part_refl _

/-- What the integer branch of `term()` records, whatever its outcome. -/
theorem term_integer_recorded (lim : IntLimits) (s : Parser)
    (hs : s.it_curr_symb ≤ s.expr.length) :
    ∃ seg toks, Recorded lim s (term_integer lim s.it_curr_symb s).2 seg toks ∧
      (∀ r, (term_integer lim s.it_curr_symb s).1 = .done r → r.type = .PARSER_OK →
        lexemes toks = strip_blanks seg) := by
  obtain ⟨seg0, st0⟩ := integer_step s hs
  unfold term_integer
  by_cases hi : (integer s).1.type = .PARSER_OK
  · rw [if_pos hi]
    rcases integer_ok s hs hi with ⟨-, he⟩ | ⟨-, w, hw, -, hst⟩
    · have hsub : substring (integer s).2 s.it_curr_symb = [] := by
        rw [he]
        unfold substring
        rw [Nat.sub_self, List.take_zero]
      rw [hsub, stoll_nil]
      exact ⟨seg0, [], Recorded.of_step_nil lim st0, fun r h => by cases h⟩
    · rw [substring_of_step hst]
      cases hv : stoll w with
      | error e => exact ⟨w, [], Recorded.of_step_nil lim hst, fun r h => by cases h⟩
      | ok v =>
        dsimp only
        by_cases hb : v ≤ lim.max ∧ v ≥ lim.min
        · rw [if_pos hb]
          have hval := stoll_value w v hw hv
          have hnb := hw.no_blank_integer
          have hex : lexemes [⟨w, .OPERAND⟩] = strip_blanks w := by
            rw [lexemes_singleton, strip_blanks_of_no_blank w hnb]
          refine ⟨w, [⟨w, .OPERAND⟩], ⟨by simpa using hst.push w .OPERAND, ?_, ?_⟩,
            fun _ _ _ => hex⟩
          · intro tok htok _
            rw [List.mem_singleton.1 htok]
            exact ⟨⟨[], [], by simp⟩, hnb, hw, by rw [← hval]; exact hb.2,
              by rw [← hval]; exact hb.1⟩
          · rw [hex]; exact initial_part_refl _
        · rw [if_neg hb]
          exact ⟨w, [], Recorded.of_step_nil lim hst, fun r h hr => by
            cases h
            cases hr⟩
  · rw [if_neg hi]
    exact ⟨seg0, [], Recorded.of_step_nil lim st0, fun r h hr => by
      cases h
      exact absurd hr hi⟩

/-- What `term()`, `expression()` and the operator loop record, whatever their
outcome: the operands are proper literals of the segment moved over, the
lexemes spell an initial part of the segment without its blanks, and all of it
when the call succeeds. -/
theorem record_all (lim : IntLimits) : ∀ n : Nat,
    (∀ s, s.it_curr_symb ≤ s.expr.length →
      ∃ seg toks, Recorded lim s (term lim n s).2 seg toks ∧
        (∀ r, (term lim n s).1 = .done r → r.type = .PARSER_OK →
          lexemes toks = strip_blanks seg)) ∧
    (∀ s, s.it_curr_symb ≤ s.expr.length →
      ∃ seg toks, Recorded lim s (expression lim n s).2 seg toks ∧
        (∀ r, (expression lim n s).1 = .done r → r.type = .PARSER_OK →
          lexemes toks = strip_blanks seg)) ∧
    (∀ r0 s, s.it_curr_symb ≤ s.expr.length →
      ∃ seg toks, Recorded lim s (expression_loop lim n r0 s).2 seg toks ∧
        (∀ r, (expression_loop lim n r0 s).1 = .done r → r.type = .PARSER_OK →
          lexemes toks = strip_blanks seg)) := by
  intro n
  induction n with
  | zero =>
    refine ⟨?_, ?_, ?_⟩
    · intro s hs; rw [term]
      exact ⟨[], [], Recorded.of_step_nil lim (Step.refl s hs), fun r h => by cases h⟩
    · intro s hs; rw [expression]
      exact ⟨[], [], Recorded.of_step_nil lim (Step.refl s hs), fun r h => by cases h⟩
    · intro r0 s hs; rw [expression_loop]
      exact ⟨[], [], Recorded.of_step_nil lim (Step.refl s hs), fun r h => by cases h⟩
  | succ n ih =>
    obtain ⟨ihT, ihE, ihL⟩ := ih
    refine ⟨?_, ?_, ?_⟩
    · -- term
      intro s hs
      rw [term]
      obtain ⟨bl0, hbl0, st0⟩ := skip_ws_step s hs
      have r0 := Recorded.of_step_nil lim st0
      have e0 : lexemes [] = strip_blanks bl0 := by
        rw [strip_blanks_of_blank _ hbl0]; rfl
      by_cases ho : (expect .TS_OPENING_SCOPE (skip_ws s)).1 = true
      · rw [if_pos ho]
        obtain ⟨bl1, hbl1, hl1, st1⟩ := expect_true _ _ st0.in_bounds ho
        rw [lexer_opening _ hl1] at st1
        have st1p : Step (skip_ws s) (push_back (expect .TS_OPENING_SCOPE (skip_ws s)).2 ['(']
            .OPENING_SCOPE) (bl1 ++ ['(']) [⟨['('], .OPENING_SCOPE⟩] := by
          simpa using st1.push ['('] .OPENING_SCOPE
        obtain ⟨r1, e1⟩ := Recorded.glyph lim st1p hbl1 (by decide) (by decide)
        obtain ⟨segE, toksE, rE, eE⟩ := ihE _ st1p.in_bounds
        generalize (push_back (expect .TS_OPENING_SCOPE (skip_ws s)).2 ['(']
          .OPENING_SCOPE) = s2 at st1p r1 rE eE ⊢
        have r01 := r0.append e0 r1
        have e01 := exact_append e0 e1
        cases hE : expression lim n s2 with
        | mk o s3 =>
          rw [hE] at rE eE
          dsimp only at rE eE
          cases o with
          | done result =>
            dsimp only
            by_cases hres : result.type = .PARSER_OK
            · rw [if_pos hres]
              have eE' := eE result rfl hres
              cases hc : (expect .TS_CLOSING_SCOPE s3).1
              · rw [if_pos rfl]
                obtain ⟨seg3, st3⟩ := expect_step .TS_CLOSING_SCOPE s3 rE.step.in_bounds
                exact ⟨_, _, (r01.append e01 rE).append (exact_append e01 eE')
                  (Recorded.of_step_nil lim st3), fun r h hr => by
                    cases h
                    cases hr⟩
              · rw [if_neg (by exact Bool.noConfusion)]
                obtain ⟨bl2, hbl2, hl2, st3⟩ := expect_true _ _ rE.step.in_bounds hc
                rw [lexer_closing _ hl2] at st3
                have st3p : Step s3 (push_back (expect .TS_CLOSING_SCOPE s3).2 [')']
                    .CLOSING_SCOPE) (bl2 ++ [')']) [⟨[')'], .CLOSING_SCOPE⟩] := by
                  simpa using st3.push [')'] .CLOSING_SCOPE
                obtain ⟨r3, e3⟩ := Recorded.glyph lim st3p hbl2 (by decide) (by decide)
                exact ⟨_, _, (r01.append e01 rE).append (exact_append e01 eE') r3,
                  fun _ _ _ => exact_append (exact_append e01 eE') e3⟩
            · rw [if_neg hres]
              exact ⟨_, _, r01.append e01 rE, fun r h hr => by
                cases h
                exact absurd hr hres⟩
          | thrown e => exact ⟨_, _, r01.append e01 rE, fun r h => by cases h⟩
          | no_fuel => exact ⟨_, _, r01.append e01 rE, fun r h => by cases h⟩
      · rw [if_neg ho]
        have ho2 : (expect .TS_OPENING_SCOPE (skip_ws s)).1 = false := by simpa using ho
        rw [expect_false _ _ ho2, skip_ws_idem s hs]
        obtain ⟨seg, toks, rI, eI⟩ := term_integer_recorded lim (skip_ws s) st0.in_bounds
        exact ⟨_, _, r0.append e0 rI, fun r h hr => exact_append e0 (eI r h hr)⟩
    · -- expression
      intro s hs
      rw [expression]
      obtain ⟨bl0, hbl0, st0⟩ := skip_ws_step s hs
      have r0 := Recorded.of_step_nil lim st0
      have e0 : lexemes [] = strip_blanks bl0 := by
        rw [strip_blanks_of_blank _ hbl0]; rfl
      obtain ⟨segT, toksT, rT, eT⟩ := ihT _ st0.in_bounds
      cases hT : term lim n (skip_ws s) with
      | mk o s1 =>
        rw [hT] at rT eT
        dsimp only at rT eT
        cases o with
        | done result =>
          dsimp only
          obtain ⟨segL, toksL, rL, eL⟩ := ihL result s1 rT.step.in_bounds
          by_cases hres : result.type = .PARSER_OK
          · have eT' := eT result rfl hres
            exact ⟨_, _, (r0.append e0 rT).append (exact_append e0 eT') rL,
              fun r h hr => exact_append (exact_append e0 eT') (eL r h hr)⟩
          · have hloop : expression_loop lim n result s1 = (.no_fuel, s1) ∨
                expression_loop lim n result s1 = (.done result, s1) := by
              cases n with
              | zero => left; rw [expression_loop]
              | succ m => right; rw [expression_loop, if_neg (fun h => hres h.1)]
            rcases hloop with hl | hl
            · rw [hl]
              exact ⟨_, _, r0.append e0 rT, fun r h => by cases h⟩
            · rw [hl]
              exact ⟨_, _, r0.append e0 rT, fun r h hr => by
                cases h
                exact absurd hr hres⟩
        | thrown e => exact ⟨_, _, r0.append e0 rT, fun r h => by cases h⟩
        | no_fuel => exact ⟨_, _, r0.append e0 rT, fun r h => by cases h⟩
    · -- the operator loop
      intro r0 s hs
      rw [expression_loop]
      by_cases hc : r0.type = .PARSER_OK ∧ end_input s = false
      · rw [if_pos hc]
        obtain ⟨hhit, hmiss⟩ := expect_operator_step s hs
        cases hop : (expect_operator s).1
        · rw [if_neg (by exact Bool.noConfusion)]
          obtain ⟨bl, hbl, st⟩ := hmiss hop
          exact ⟨_, _, Recorded.of_step_nil lim st, fun _ _ _ => by
            rw [strip_blanks_of_blank _ hbl]; rfl⟩
        · rw [if_pos rfl]
          obtain ⟨bl, g, hbl, hg, st⟩ := hhit hop
          obtain ⟨rO, eO⟩ := Recorded.glyph lim st hbl (is_operator_not_blank g hg)
            (by decide)
          obtain ⟨segT, toksT, rT, eT⟩ := ihT _ st.in_bounds
          cases hT : term lim n (expect_operator s).2 with
          | mk o s1 =>
            rw [hT] at rT eT
            dsimp only at rT eT
            cases o with
            | done result1 =>
              dsimp only
              by_cases hres : result1.type = .PARSER_OK
              · rw [if_neg (not_not.2 hres)]
                have eT' := eT result1 rfl hres
                obtain ⟨segL, toksL, rL, eL⟩ := ihL result1 s1 rT.step.in_bounds
                exact ⟨_, _, (rO.append eO rT).append (exact_append eO eT') rL,
                  fun r h hr => exact_append (exact_append eO eT') (eL r h hr)⟩
              · rw [if_pos hres]
                exact ⟨_, _, rO.append eO rT, fun r h hr => by
                  cases h
                  cases hr⟩
            | thrown e => exact ⟨_, _, rO.append eO rT, fun r h => by cases h⟩
            | no_fuel => exact ⟨_, _, rO.append eO rT, fun r h => by cases h⟩
      · rw [if_neg hc]
        exact ⟨[], [], Recorded.of_step_nil lim (Step.refl s hs), fun _ _ _ => rfl⟩

/-- What the token list holds after `parse`, whatever the outcome: the operands
are proper literals of the input, and the lexemes spell an initial part of the
input without its blanks. -/
theorem parse_recorded (lim : IntLimits) (self : Parser) (e : List Char) :
    (∀ tok ∈ (parse lim self e).2.token_list, operand_ok lim e tok) ∧
      initial_part (lexemes (parse lim self e).2.token_list) (strip_blanks e) := by
  have key : ∀ t seg toks, Recorded lim (self.reset e) t seg toks →
      (∀ tok ∈ t.token_list, operand_ok lim e tok) ∧
        initial_part (lexemes t.token_list) (strip_blanks e) := by
    intro t seg toks h
    have htoks : t.token_list = toks := by
      have := h.step.tokens_eq
      simpa [Parser.reset] using this
    have hsplit : e = seg ++ rest t := h.step.rest_eq
    rw [htoks]
    constructor
    · intro tok htok
      rw [hsplit]
      exact operand_ok_left lim _ _ tok (h.operands tok htok)
    · rw [hsplit, strip_blanks_append]
      exact initial_part_extend _ _ _ h.leads
  have hs := reset_in_bounds self e
  obtain ⟨bl0, hbl0, st0⟩ := skip_ws_step (self.reset e) hs
  have r0 := Recorded.of_step_nil lim st0
  have e0 : lexemes [] = strip_blanks bl0 := by
    rw [strip_blanks_of_blank _ hbl0]; rfl
  unfold parse
  dsimp only
  by_cases he : end_input (skip_ws (self.reset e)) = true
  · rw [if_pos he]
    exact key _ _ _ r0
  · rw [if_neg he]
    obtain ⟨segE, toksE, rE, eE⟩ := (record_all lim (2 * e.length + 2)).2.1 _ st0.in_bounds
    cases hE : expression lim (2 * e.length + 2) (skip_ws (self.reset e)) with
    | mk o s1 =>
      rw [hE] at rE eE
      dsimp only at rE eE
      cases o with
      | done result =>
        dsimp only
        by_cases hres : result.type = .PARSER_OK
        · rw [if_pos hres]
          obtain ⟨bl1, -, st1⟩ := skip_ws_step s1 rE.step.in_bounds
          have rall := (r0.append e0 rE).append (exact_append e0 (eE result rfl hres))
            (Recorded.of_step_nil lim st1)
          cases hend : end_input (skip_ws s1)
          · rw [if_pos rfl]
            exact key _ _ _ rall
          · rw [if_neg (by exact Bool.noConfusion)]
            exact key _ _ _ rall
        · rw [if_neg hres]
          exact key _ _ _ (r0.append e0 rE)
      | thrown x => exact key _ _ _ (r0.append e0 rE)
      | no_fuel => exact key _ _ _ (r0.append e0 rE)

/-! ## Depth of the recursion -/

/-- Number of unread characters. -/
theorem unread_le {s t : Parser} {seg : List Char} {toks : List Token}
    (h : Step s t seg toks) :
    t.expr.length - t.it_curr_symb ≤ s.expr.length - s.it_curr_symb := by
  have := step_unread h
  omega

/-- The depth of the nested calls is bounded by the unread characters: twice
their number, plus one for `term()` and plus two for `expression()`; the
`term()` calls of the loop stay within twice their number. -/
theorem depth_all (lim : IntLimits) : ∀ n : Nat,
    (∀ s, s.it_curr_symb ≤ s.expr.length →
      term_depth lim n s ≤ 2 * (s.expr.length - s.it_curr_symb) + 1) ∧
    (∀ s, s.it_curr_symb ≤ s.expr.length →
      expression_depth lim n s ≤ 2 * (s.expr.length - s.it_curr_symb) + 2) ∧
    (∀ r0 s, s.it_curr_symb ≤ s.expr.length →
      loop_depth lim n r0 s ≤ 2 * (s.expr.length - s.it_curr_symb)) := by
  intro n
  induction n with
  | zero =>
    refine ⟨?_, ?_, ?_⟩
    · intro s _; rw [term_depth]; omega
    · intro s _; rw [expression_depth]; omega
    · intro r0 s _; rw [loop_depth]; omega
  | succ n ih =>
    obtain ⟨ihT, ihE, ihL⟩ := ih
    refine ⟨?_, ?_, ?_⟩
    · intro s hs
      rw [term_depth]
      obtain ⟨bl0, -, st0⟩ := skip_ws_step s hs
      by_cases ho : (expect .TS_OPENING_SCOPE (skip_ws s)).1 = true
      · rw [if_pos ho]
        obtain ⟨bl1, -, -, st1⟩ := expect_true _ _ st0.in_bounds ho
        have st2 := (st0.trans st1).push ['('] .OPENING_SCOPE
        have hu := step_unread st2
        have hE := ihE _ st2.in_bounds
        simp only [List.length_append, List.length_singleton] at hu
        omega
      · rw [if_neg ho]
        omega
    · intro s hs
      rw [expression_depth]
      obtain ⟨bl0, -, st0⟩ := skip_ws_step s hs
      have hu0 := unread_le st0
      have hT := ihT _ st0.in_bounds
      obtain ⟨segT, toksT, stT⟩ := (step_all lim n).1 _ st0.in_bounds
      cases hX : term lim n (skip_ws s) with
      | mk o s1 =>
        rw [hX] at stT
        dsimp only at stT
        have hu1 := unread_le stT
        cases o with
        | done result =>
          dsimp only
          have hL := ihL result s1 stT.in_bounds
          omega
        | thrown x => dsimp only; omega
        | no_fuel => dsimp only; omega
    · intro r0 s hs
      rw [loop_depth]
      by_cases hc : r0.type = .PARSER_OK ∧ end_input s = false
      · rw [if_pos hc]
        obtain ⟨seg, toks, st, hseg⟩ := expect_operator_any s hs
        by_cases hop : (expect_operator s).1 = true
        · rw [if_pos hop]
          have hlen : 0 < seg.length := List.length_pos.2 (hseg hop)
          have hu := step_unread st
          have hT := ihT _ st.in_bounds
          obtain ⟨segT, toksT, stT⟩ := (step_all lim n).1 _ st.in_bounds
          cases hX : term lim n (expect_operator s).2 with
          | mk o s1 =>
            rw [hX] at stT
            dsimp only at stT
            have hu1 := unread_le stT
            cases o with
            | done result1 =>
              dsimp only
              by_cases hres : result1.type = .PARSER_OK
              · rw [if_neg (not_not.2 hres)]
                have hL := ihL result1 s1 stT.in_bounds
                omega
              · rw [if_pos hres]
                omega
            | thrown x => dsimp only; omega
            | no_fuel => dsimp only; omega
        · rw [if_neg hop]
          omega
      · rw [if_neg hc]
        omega

theorem parse_depth_le (lim : IntLimits) (self : Parser) (e : List Char) :
    parse_depth lim self e ≤ 2 * e.length + 2 := by
  unfold parse_depth
  obtain ⟨bl0, -, st0⟩ := skip_ws_step (self.reset e) (reset_in_bounds self e)
  by_cases he : end_input (skip_ws (self.reset e)) = true
  · rw [if_pos he]; omega
  · rw [if_neg he]
    have hu := unread_le st0
    have hlen : (self.reset e).expr.length - (self.reset e).it_curr_symb = e.length := rfl
    have hE := (depth_all lim (2 * e.length + 2)).2.1 _ st0.in_bounds
    omega

/-- The call of `expression()` from `term()` starts behind the `(`, at a
position strictly greater than the one at which `term()` was entered. -/
theorem term_scope_advances (s : Parser) (hs : s.it_curr_symb ≤ s.expr.length)
    (ho : (expect .TS_OPENING_SCOPE (skip_ws s)).1 = true) :
    s.it_curr_symb <
      (push_back (expect .TS_OPENING_SCOPE (skip_ws s)).2 ['('] .OPENING_SCOPE).it_curr_symb := by
  obtain ⟨bl0, -, st0⟩ := skip_ws_step s hs
  obtain ⟨bl1, -, -, st1⟩ := expect_true _ _ st0.in_bounds ho
  have st2 := (st0.trans st1).push ['('] .OPENING_SCOPE
  have := st2.pos_eq
  simp only [List.length_append, List.length_singleton] at this
  omega

/-- An iteration of the loop of `expression()` that matched an operator
consumed at least one character before it calls `term()`. -/
theorem operator_advances (s : Parser) (hs : s.it_curr_symb ≤ s.expr.length)
    (hop : (expect_operator s).1 = true) :
    s.it_curr_symb < (expect_operator s).2.it_curr_symb := by
  obtain ⟨seg, toks, st, hseg⟩ := expect_operator_any s hs
  have hlen : 0 < seg.length := List.length_pos.2 (hseg hop)
  have := st.pos_eq
  omega

/-- An iteration of the loop of `expression()` that matched an operator ends,
behind its call of `term()`, at a position strictly greater than the one it
started at. -/
theorem loop_pass_advances (lim : IntLimits) (n : Nat) (s : Parser)
    (hs : s.it_curr_symb ≤ s.expr.length) (hop : (expect_operator s).1 = true) :
    s.it_curr_symb < (term lim n (expect_operator s).2).2.it_curr_symb := by
  obtain ⟨seg, toks, st, -⟩ := expect_operator_any s hs
  obtain ⟨seg1, toks1, st1⟩ := (step_all lim n).1 _ st.in_bounds
  have h1 := operator_advances s hs hop
  have h2 := st1.pos_eq
  omega

/-! ## Reads of the character under the cursor -/

theorem peek_reads_lt (s : Parser) (hs : s.it_curr_symb ≤ s.expr.length) :
    ∀ i ∈ peek_reads s, i < s.expr.length := by
  intro i hi
  unfold peek_reads at hi
  cases he : end_input s
  · rw [he, if_neg (by exact Bool.noConfusion)] at hi
    rw [List.mem_singleton.1 hi]
    exact end_input_false_lt s hs he
  · rw [he, if_pos rfl] at hi
    cases hi

theorem skip_ws_loop_reads_lt : ∀ (n : Nat) (s : Parser), s.it_curr_symb ≤ s.expr.length →
    ∀ i ∈ skip_ws_loop_reads n s, i < s.expr.length := by
  intro n
  induction n with
  | zero =>
    intro s hs i hi
    unfold skip_ws_loop_reads at hi
    exact peek_reads_lt s hs i hi
  | succ n ih =>
    intro s hs i hi
    unfold skip_ws_loop_reads at hi
    cases he : end_input s
    · rw [he, if_neg (by exact Bool.noConfusion)] at hi
      have hlt := end_input_false_lt s hs he
      rcases List.mem_cons.1 hi with h | h
      · rw [h]; exact hlt
      · split at h
        · exact ih (next_symbol s) hlt i h
        · cases h
    · rw [he, if_pos rfl] at hi
      cases hi

theorem skip_ws_reads_lt (s : Parser) (hs : s.it_curr_symb ≤ s.expr.length) :
    ∀ i ∈ skip_ws_reads s, i < s.expr.length :=
  skip_ws_loop_reads_lt _ s hs

/-- A call of `term()` with nothing but blanks left enters `integer()` at the
end of the input: the first statement of `integer()` reads the character at
the index that equals the length. -/
theorem term_reads_end (lim : IntLimits) (n : Nat) (s : Parser)
    (hs : s.it_curr_symb ≤ s.expr.length) (he : end_input (skip_ws s) = true) :
    s.expr.length ∈ term_integer_reads lim (n + 1) s := by
  rw [term_integer_reads, expect_miss_fixed _ s hs (Or.inl he),
    if_neg (by exact Bool.noConfusion)]
  obtain ⟨bl, -, st⟩ := skip_ws_step s hs
  unfold end_input at he
  have hpos : (skip_ws s).it_curr_symb = (skip_ws s).expr.length := by simpa using he
  rw [List.mem_singleton]
  show s.expr.length = (skip_ws s).it_curr_symb
  rw [hpos, st.expr_eq]

theorem mem_expression_of_term (lim : IntLimits) (n : Nat) (s : Parser) (i : Nat)
    (h : i ∈ term_integer_reads lim n (skip_ws s)) :
    i ∈ expression_integer_reads lim (n + 1) s := by
  rw [expression_integer_reads]
  exact List.mem_append_left _ h

theorem mem_expression_of_loop (lim : IntLimits) (n : Nat) (s s1 : Parser)
    (result : ParserResult) (i : Nat)
    (hT : term lim n (skip_ws s) = (.done result, s1))
    (h : i ∈ loop_integer_reads lim n result s1) :
    i ∈ expression_integer_reads lim (n + 1) s := by
  rw [expression_integer_reads, hT]
  exact List.mem_append_right _ h

theorem mem_loop_of_term (lim : IntLimits) (n : Nat) (r0 : ParserResult) (s : Parser)
    (i : Nat) (hr0 : r0.type = .PARSER_OK) (hne : end_input s = false)
    (hop : (expect_operator s).1 = true)
    (h : i ∈ term_integer_reads lim n (expect_operator s).2) :
    i ∈ loop_integer_reads lim (n + 1) r0 s := by
  rw [loop_integer_reads, if_pos ⟨hr0, hne⟩, if_pos hop]
  exact List.mem_append_left _ h

theorem mem_term_of_scope (lim : IntLimits) (n : Nat) (s : Parser) (i : Nat)
    (ho : (expect .TS_OPENING_SCOPE (skip_ws s)).1 = true)
    (h : i ∈ expression_integer_reads lim n
      (push_back (expect .TS_OPENING_SCOPE (skip_ws s)).2 ['('] .OPENING_SCOPE)) :
    i ∈ term_integer_reads lim (n + 1) s := by
  rw [term_integer_reads, if_pos ho]
  exact h

theorem parse_integer_reads_fresh (lim : IntLimits) (self : Parser) (e : List Char) :
    parse_integer_reads lim self e = parse_integer_reads lim Parser.fresh e := rfl

theorem mem_parse_of_expression (lim : IntLimits) (self : Parser) (e : List Char) (i : Nat)
    (he : end_input (skip_ws (self.reset e)) = false)
    (h : i ∈ expression_integer_reads lim (2 * e.length + 2) (skip_ws (self.reset e))) :
    i ∈ parse_integer_reads lim self e := by
  unfold parse_integer_reads
  rw [if_neg (by rw [he]; exact Bool.noConfusion)]
  exact h

/-! ## Running the productions forward over a given text -/

theorem rest_head (s : Parser) (c : Char) (tl : List Char) (h : rest s = c :: tl) :
    end_input s = false ∧ deref s = c ∧ s.it_curr_symb < s.expr.length ∧
      rest (next_symbol s) = tl := by
  have hlt : s.it_curr_symb < s.expr.length := by
    by_contra hge
    have : rest s = [] := List.drop_of_length_le (Nat.le_of_not_lt hge)
    rw [this] at h
    cases h
  have hc := rest_cons s hlt
  rw [h] at hc
  obtain ⟨h1, h2⟩ := List.cons.inj hc
  refine ⟨?_, h1.symm, hlt, h2.symm⟩
  unfold end_input
  exact beq_false_of_ne (Nat.ne_of_lt hlt)

theorem accept_hit (c_ : terminal_symbol_t) (s : Parser) (g : Char) (tl : List Char)
    (h : rest s = g :: tl) (hl : lexer g = c_) :
    accept c_ s = (true, next_symbol s) ∧ rest (next_symbol s) = tl := by
  obtain ⟨he, hd, -, hr⟩ := rest_head s g tl h
  refine ⟨?_, hr⟩
  unfold accept peek
  rw [he, hd, hl]
  simp

theorem split_unique (p : Char → Bool) (a b a' b' : List Char) (h : a ++ b = a' ++ b')
    (ha : ∀ c ∈ a, p c = true) (ha' : ∀ c ∈ a', p c = true)
    (hb : ∀ c ∈ b.head?, p c = false) (hb' : ∀ c ∈ b'.head?, p c = false) :
    a = a' ∧ b = b' := by
  have key : ∀ (x y : List Char), (∀ c ∈ x, p c = true) → (∀ c ∈ y.head?, p c = false) →
      (x ++ y).takeWhile p = x ∧ (x ++ y).dropWhile p = y := by
    intro x y hx hy
    have hy2 : y.takeWhile p = [] ∧ y.dropWhile p = y := by
      cases y with
      | nil => exact ⟨rfl, rfl⟩
      | cons c cs =>
        have hc : p c = false := hy c rfl
        rw [List.takeWhile_cons, List.dropWhile_cons, hc]
        exact ⟨rfl, rfl⟩
    rw [List.takeWhile_append_of_pos hx, List.dropWhile_append_of_pos hx, hy2.1, hy2.2,
      List.append_nil]
    exact ⟨rfl, rfl⟩
  obtain ⟨h1, h2⟩ := key a b ha hb
  obtain ⟨h3, h4⟩ := key a' b' ha' hb'
  rw [h] at h1 h2
  exact ⟨h1.symm.trans h3, h2.symm.trans h4⟩

theorem lexer_of_nonzero (c : Char) (h : is_nonzero_digit c = true) :
    lexer c = .TS_NON_ZERO_DIGIT := by
  unfold is_nonzero_digit at h
  rw [decide_eq_true_iff] at h
  rcases h with h | h | h | h | h | h | h | h | h <;> (subst h; decide)

theorem lexer_of_digit (c : Char) (h : is_digit c = true) :
    lexer c = .TS_ZERO ∨ lexer c = .TS_NON_ZERO_DIGIT := by
  unfold is_digit at h
  rw [Bool.or_eq_true, beq_iff_eq] at h
  rcases h with h | h
  · left; rw [h]; decide
  · right; exact lexer_of_nonzero c h

theorem lexer_of_operator (c : Char) (h : is_operator c = true) :
    lexer c = .TS_PLUS ∨ lexer c = .TS_MINUS ∨ lexer c = .TS_EXPO ∨ lexer c = .TS_MULT ∨
      lexer c = .TS_DIV := by
  unfold is_operator at h
  simp only [Bool.or_eq_true, beq_iff_eq] at h
  rcases h with (((h | h) | h) | h) | h <;> (subst h; decide)

/-- When `digit()` fails, the unread input does not start with a digit. -/
theorem digit_false_head (s : Parser) (h : (digit s).1 = false) :
    ∀ c ∈ (rest s).head?, is_digit c = false := by
  intro c hc
  cases hr : rest s with
  | nil => rw [hr] at hc; cases hc
  | cons g tl =>
    rw [hr] at hc
    cases hc
    by_contra hd
    have hd' : is_digit c = true := by simpa using hd
    unfold digit at h
    rcases lexer_of_digit c hd' with hl | hl
    · rw [(accept_hit _ s c tl hr hl).1] at h
      cases h
    · have hz : accept .TS_ZERO s = (false, s) := by
        apply accept_miss
        right
        rw [(rest_head s c tl hr).2.1, hl]
        exact terminal_symbol_t.noConfusion
      rw [hz] at h
      rw [if_neg (by exact Bool.noConfusion), (accept_hit _ s c tl hr hl).1] at h
      cases h

/-- `natural_number()` over a nonzero digit and a run of digits that no digit
follows: it succeeds and stops right behind the run. -/
theorem natural_number_consumes (s : Parser) (d : Char) (ds tl : List Char)
    (hs : s.it_curr_symb ≤ s.expr.length) (hrest : rest s = (d :: ds) ++ tl)
    (hd : is_nonzero_digit d = true) (hds : ∀ c ∈ ds, is_digit c = true)
    (hstop : ∀ c ∈ tl.head?, is_digit c = false) :
    (natural_number s).1 = ParserResult.of_code .PARSER_OK ∧
      Step s (natural_number s).2 (d :: ds) [] ∧ rest (natural_number s).2 = tl := by
  have hacc := (accept_hit .TS_NON_ZERO_DIGIT s d (ds ++ tl) hrest (lexer_of_nonzero d hd)).1
  have h1 : (natural_number s).1 = ParserResult.of_code .PARSER_OK := by
    unfold natural_number digit_excl_zero
    rw [hacc, if_pos rfl]
  have hok : (natural_number s).1.type = .PARSER_OK := by rw [h1]; rfl
  obtain ⟨d', ds', hd', hds', st⟩ := natural_number_ok s hs hok
  have hstop' := digit_false_head _ (natural_number_stops s hs hok)
  have hall : ∀ c ∈ d :: ds, is_digit c = true := by
    intro c hc
    rcases List.mem_cons.1 hc with h | h
    · rw [h]; exact is_digit_of_nonzero d hd
    · exact hds c h
  have hall' : ∀ c ∈ d' :: ds', is_digit c = true := by
    intro c hc
    rcases List.mem_cons.1 hc with h | h
    · rw [h]; exact is_digit_of_nonzero d' hd'
    · exact hds' c h
  have heq : (d' :: ds') ++ rest (natural_number s).2 = (d :: ds) ++ tl := by
    rw [← st.rest_eq, hrest]
  obtain ⟨e1, e2⟩ := split_unique is_digit _ _ _ _ heq hall' hall hstop' hstop
  rw [e1] at st
  exact ⟨h1, st, e2⟩

theorem literal_head (lim : IntLimits) (w : List Char) (h : literal_ok lim w) :
    ∃ g tl, w = g :: tl ∧ is_blank g = false ∧
      (lexer g = .TS_NON_ZERO_DIGIT ∨ lexer g = .TS_MINUS) := by
  rcases h.1 with hn | ⟨u, rfl, hn⟩
  · cases hn with
    | natural_number d ds hd hds =>
      refine ⟨d, ds, rfl, ?_, Or.inl (lexer_of_nonzero d hd)⟩
      exact (Derives.integer_natural _ (.natural_number d ds hd hds)).no_blank_integer d
        (List.mem_cons_self _ _)
  · exact ⟨'-', u, rfl, by decide, Or.inr (by decide)⟩

/-- `integer()` over a literal of the zero-free fragment that no digit follows:
it succeeds and stops right behind the literal. -/
theorem integer_consumes (s : Parser) (w tl : List Char)
    (hs : s.it_curr_symb ≤ s.expr.length) (hrest : rest s = w ++ tl)
    (hw : Derives .natural_number w ∨ ∃ u, w = '-' :: u ∧ Derives .natural_number u)
    (hstop : stops_digits tl) :
    (integer s).1 = ParserResult.of_code .PARSER_OK ∧ Step s (integer s).2 w [] ∧
      rest (integer s).2 = tl := by
  rcases hw with hn | ⟨u, rfl, hn⟩
  · cases hn with
    | natural_number d ds hd hds =>
      have hl := lexer_of_nonzero d hd
      have hdr := (rest_head s d (ds ++ tl) hrest).2.1
      have hz : ¬ lexer (deref s) = .TS_ZERO := by
        rw [hdr, hl]; exact terminal_symbol_t.noConfusion
      have hm : accept .TS_MINUS s = (false, s) :=
        accept_miss _ s (Or.inr (by rw [hdr, hl]; exact terminal_symbol_t.noConfusion))
      unfold integer
      rw [if_neg hz, hm]
      exact natural_number_consumes s d ds tl hs hrest hd hds hstop
  · cases hn with
    | natural_number d ds hd hds =>
      have hrest' : rest s = '-' :: ((d :: ds) ++ tl) := hrest
      obtain ⟨-, hdr, hlt, -⟩ := rest_head s '-' _ hrest'
      have hz : ¬ lexer (deref s) = .TS_ZERO := by
        rw [hdr]; decide
      obtain ⟨hm, hr⟩ := accept_hit .TS_MINUS s '-' _ hrest' (by decide)
      have st1 := step_next s hlt
      rw [hdr] at st1
      obtain ⟨h1, h2, h3⟩ := natural_number_consumes (next_symbol s) d ds tl hlt hr hd hds
        hstop
      unfold integer
      rw [if_neg hz, hm]
      exact ⟨h1, st1.trans h2, h3⟩

/-- What `std::stoll` returns on a literal of the zero-free fragment within a
required integer domain that lies within `long long`. -/
theorem stoll_of_literal (lim : IntLimits) (w : List Char) (h : literal_ok lim w)
    (hdom : LLONG_MIN ≤ lim.min ∧ lim.max ≤ LLONG_MAX) : stoll w = .ok (integer_value w) := by
  obtain ⟨hw, hlo, hhi⟩ := h
  rcases hw with hn | ⟨u, rfl, hn⟩
  · cases hn with
    | natural_number d ds hd hds =>
      have hv := integer_value_digits d ds (is_digit_of_nonzero d hd)
      rw [hv] at hlo hhi ⊢
      rw [stoll_digits d ds (is_digit_of_nonzero d hd) hds,
        if_pos ⟨le_trans hdom.1 hlo, le_trans hhi hdom.2⟩]
  · cases hn with
    | natural_number d ds hd hds =>
      have hv := integer_value_minus (d :: ds)
      rw [hv] at hlo hhi ⊢
      rw [stoll_minus_digits d ds (is_digit_of_nonzero d hd) hds,
        if_pos ⟨le_trans hdom.1 hlo, le_trans hhi hdom.2⟩]

theorem dropWhile_blank_head (g : Char) (tl : List Char) (hg : is_blank g = false) :
    (g :: tl).dropWhile is_blank = g :: tl := by
  rw [List.dropWhile_cons, hg]
  rfl

theorem term_skip_ws (lim : IntLimits) (n : Nat) (s : Parser)
    (hs : s.it_curr_symb ≤ s.expr.length) :
    term lim (n + 1) (skip_ws s) = term lim (n + 1) s := by
  rw [term, term, skip_ws_idem s hs]

/-- `term()` over blanks and a literal of the zero-free fragment that no digit
follows: it returns `PARSER_OK` and stops right behind the literal. -/
theorem term_literal (lim : IntLimits) (n : Nat) (s : Parser) (bl w tl : List Char)
    (hs : s.it_curr_symb ≤ s.expr.length) (hrest : rest s = (bl ++ w) ++ tl)
    (hbl : ∀ c ∈ bl, is_blank c = true) (hlit : literal_ok lim w)
    (hdom : LLONG_MIN ≤ lim.min ∧ lim.max ≤ LLONG_MAX) (hstop : stops_digits tl) :
    Accepts (term lim (n + 1) s) tl := by
  obtain ⟨g, wt, hwg, hgb, hgl⟩ := literal_head lim w hlit
  obtain ⟨bl0, -, st0⟩ := skip_ws_step s hs
  have hr0 : rest (skip_ws s) = w ++ tl := by
    rw [(skip_ws_leading s hs).2, hrest, List.append_assoc,
      List.dropWhile_append_of_pos hbl, hwg, List.cons_append, dropWhile_blank_head g _ hgb]
  have hdr : deref (skip_ws s) = g := by
    rw [hwg] at hr0
    exact (rest_head _ g _ hr0).2.1
  have hopen : lexer (deref (skip_ws s)) ≠ .TS_OPENING_SCOPE := by
    rw [hdr]
    rcases hgl with h | h <;> (rw [h]; exact terminal_symbol_t.noConfusion)
  obtain ⟨hi1, hi2, hi3⟩ := integer_consumes (skip_ws s) w tl st0.in_bounds hr0 hlit.1 hstop
  rw [term, expect_miss_fixed _ s hs (Or.inr hopen), if_neg (by exact Bool.noConfusion)]
  unfold term_integer
  have hok : (integer (skip_ws s)).1.type = .PARSER_OK := by rw [hi1]; rfl
  rw [if_pos hok, substring_of_step hi2, stoll_of_literal lim w hlit hdom]
  dsimp only
  rw [if_pos ⟨hlit.2.2, hlit.2.1⟩]
  exact ⟨_, _, rfl, hok, hi3⟩

theorem expect_hits (c_ : terminal_symbol_t) (s : Parser) (g : Char) (tl : List Char)
    (hs : s.it_curr_symb ≤ s.expr.length)
    (hrest : (rest s).dropWhile is_blank = g :: tl) (hl : lexer g = c_) :
    (expect c_ s).1 = true ∧ rest (expect c_ s).2 = tl := by
  have hr : rest (skip_ws s) = g :: tl := by rw [(skip_ws_leading s hs).2, hrest]
  obtain ⟨h1, h2⟩ := accept_hit c_ (skip_ws s) g tl hr hl
  unfold expect
  rw [h1]
  exact ⟨rfl, h2⟩

/-- After a miss of all five operators the cursor stands where `skip_ws` stops. -/
theorem expect_operator_miss_state (s : Parser) (hs : s.it_curr_symb ≤ s.expr.length)
    (h : (expect_operator s).1 = false) : (expect_operator s).2 = skip_ws s := by
  have hidem := skip_ws_idem s hs
  have hexp : ∀ c_, (expect c_ (skip_ws s)).1 = false → (expect c_ (skip_ws s)).2 = skip_ws s := by
    intro c_ hc
    rw [expect_false _ _ hc, hidem]
  unfold expect_operator at h ⊢
  by_cases h1 : (expect .TS_PLUS s).1 = true
  · rw [if_pos h1] at h; cases h
  rw [if_neg h1] at h ⊢
  have e1 := expect_false _ _ (Bool.eq_false_iff.2 h1)
  rw [e1] at h ⊢
  by_cases h2 : (expect .TS_MINUS (skip_ws s)).1 = true
  · rw [if_pos h2] at h; cases h
  rw [if_neg h2] at h ⊢
  have e2 := hexp _ (Bool.eq_false_iff.2 h2)
  rw [e2] at h ⊢
  by_cases h3 : (expect .TS_EXPO (skip_ws s)).1 = true
  · rw [if_pos h3] at h; cases h
  rw [if_neg h3] at h ⊢
  have e3 := hexp _ (Bool.eq_false_iff.2 h3)
  rw [e3] at h ⊢
  by_cases h4 : (expect .TS_MULT (skip_ws s)).1 = true
  · rw [if_pos h4] at h; cases h
  rw [if_neg h4] at h ⊢
  have e4 := hexp _ (Bool.eq_false_iff.2 h4)
  rw [e4] at h ⊢
  by_cases h5 : (expect .TS_DIV (skip_ws s)).1 = true
  · rw [if_pos h5] at h; cases h
  rw [if_neg h5]
  exact hexp _ (Bool.eq_false_iff.2 h5)

/-- The operator chain in front of blanks and an operator: it matches and stops
right behind the operator. -/
theorem expect_operator_hits (s : Parser) (bl : List Char) (g : Char) (tl : List Char)
    (hs : s.it_curr_symb ≤ s.expr.length) (hrest : rest s = bl ++ (g :: tl))
    (hbl : ∀ c ∈ bl, is_blank c = true) (hg : is_operator g = true) :
    (expect_operator s).1 = true ∧ rest (expect_operator s).2 = tl := by
  have hgb := is_operator_not_blank g hg
  obtain ⟨hhit, hmiss⟩ := expect_operator_step s hs
  cases hop : (expect_operator s).1
  · exfalso
    have hst := expect_operator_miss_state s hs hop
    have hr : rest (skip_ws s) = g :: tl := by
      rw [(skip_ws_leading s hs).2, hrest, List.dropWhile_append_of_pos hbl,
        dropWhile_blank_head g _ hgb]
    obtain ⟨-, hdr, -, -⟩ := rest_head _ g tl hr
    have hall : ∀ c_, (expect c_ s).1 = false → lexer g ≠ c_ := by
      intro c_ hc hl
      rw [(expect_hits c_ s g tl hs (by rw [← (skip_ws_leading s hs).2, hr]) hl).1] at hc
      cases hc
    have hidem := skip_ws_idem s hs
    have hall2 : ∀ c_, (expect c_ (skip_ws s)).1 = false → lexer g ≠ c_ := by
      intro c_ hc
      apply hall
      unfold expect at hc ⊢
      rw [hidem] at hc
      exact hc
    unfold expect_operator at hop
    by_cases h1 : (expect .TS_PLUS s).1 = true
    · rw [if_pos h1] at hop; cases hop
    rw [if_neg h1] at hop
    have e1 := expect_false _ _ (Bool.eq_false_iff.2 h1)
    rw [e1] at hop
    by_cases h2 : (expect .TS_MINUS (skip_ws s)).1 = true
    · rw [if_pos h2] at hop; cases hop
    rw [if_neg h2] at hop
    have e2 : (expect .TS_MINUS (skip_ws s)).2 = skip_ws s := by
      rw [expect_false _ _ (Bool.eq_false_iff.2 h2), hidem]
    rw [e2] at hop
    by_cases h3 : (expect .TS_EXPO (skip_ws s)).1 = true
    · rw [if_pos h3] at hop; cases hop
    rw [if_neg h3] at hop
    have e3 : (expect .TS_EXPO (skip_ws s)).2 = skip_ws s := by
      rw [expect_false _ _ (Bool.eq_false_iff.2 h3), hidem]
    rw [e3] at hop
    by_cases h4 : (expect .TS_MULT (skip_ws s)).1 = true
    · rw [if_pos h4] at hop; cases hop
    rw [if_neg h4] at hop
    have e4 : (expect .TS_MULT (skip_ws s)).2 = skip_ws s := by
      rw [expect_false _ _ (Bool.eq_false_iff.2 h4), hidem]
    rw [e4] at hop
    by_cases h5 : (expect .TS_DIV (skip_ws s)).1 = true
    · rw [if_pos h5] at hop; cases hop
    rcases lexer_of_operator g hg with h | h | h | h | h
    · exact hall _ (Bool.eq_false_iff.2 h1) h
    · exact hall2 _ (Bool.eq_false_iff.2 h2) h
    · exact hall2 _ (Bool.eq_false_iff.2 h3) h
    · exact hall2 _ (Bool.eq_false_iff.2 h4) h
    · exact hall2 _ (Bool.eq_false_iff.2 h5) h
  · refine ⟨rfl, ?_⟩
    obtain ⟨bl', g', hbl', hg', st⟩ := hhit hop
    have heq : bl' ++ (g' :: rest (expect_operator s).2) = bl ++ (g :: tl) := by
      have := st.rest_eq
      rw [hrest, List.append_assoc] at this
      exact this.symm
    have hstop : ∀ (x : Char) (l : List Char), is_blank x = false →
        ∀ c ∈ (x :: l).head?, is_blank c = false := by
      intro x l hx c hc
      cases hc
      exact hx
    obtain ⟨-, e2⟩ := split_unique is_blank _ _ _ _ heq hbl' hbl
      (hstop _ _ (is_operator_not_blank g' hg')) (hstop _ _ hgb)
    exact (List.cons.inj e2).2

/-- The operator chain in front of a text whose first character that is not a
blank is no operator: it misses and stops behind the blanks. -/
theorem expect_operator_misses (s : Parser) (hs : s.it_curr_symb ≤ s.expr.length)
    (hstop : stops_operators (rest s)) :
    (expect_operator s).1 = false ∧
      rest (expect_operator s).2 = (rest s).dropWhile is_blank := by
  obtain ⟨hhit, -⟩ := expect_operator_step s hs
  cases hop : (expect_operator s).1
  · refine ⟨rfl, ?_⟩
    rw [expect_operator_miss_state s hs hop]
    exact (skip_ws_leading s hs).2
  · exfalso
    obtain ⟨bl, g, hbl, hg, st⟩ := hhit hop
    have hr := st.rest_eq
    rw [List.append_assoc] at hr
    have hd : (rest s).dropWhile is_blank = g :: rest (expect_operator s).2 := by
      rw [hr, List.dropWhile_append_of_pos hbl]
      exact dropWhile_blank_head g _ (is_operator_not_blank g hg)
    have := hstop g (by rw [hd]; rfl)
    rw [hg] at this
    cases this

theorem digit_not_glyph (c : Char) (h : is_digit c = true) :
    is_blank c = false ∧ is_operator c = false ∧ c ≠ ')' := by
  unfold is_digit is_nonzero_digit at h
  rw [Bool.or_eq_true, beq_iff_eq, decide_eq_true_iff] at h
  rcases h with h | h | h | h | h | h | h | h | h | h <;> (subst h; decide)

theorem not_digit_of_blank (c : Char) (h : is_blank c = true) : is_digit c = false := by
  cases hd : is_digit c
  · rfl
  · rw [(digit_not_glyph c hd).1] at h; cases h

theorem not_digit_of_operator (c : Char) (h : is_operator c = true) : is_digit c = false := by
  cases hd : is_digit c
  · rfl
  · rw [(digit_not_glyph c hd).2.1] at h; cases h

theorem stops_digits_blanks (bl : List Char) (g : Char) (tl : List Char)
    (hbl : ∀ c ∈ bl, is_blank c = true) (hg : is_digit g = false) :
    stops_digits (bl ++ (g :: tl)) := by
  intro c hc
  cases bl with
  | nil => cases hc; exact hg
  | cons b bl =>
    cases hc
    exact not_digit_of_blank _ (hbl _ (List.mem_cons_self _ _))

theorem stops_operators_blanks (bl : List Char) (g : Char) (tl : List Char)
    (hbl : ∀ c ∈ bl, is_blank c = true) (hgb : is_blank g = false)
    (hg : is_operator g = false) : stops_operators (bl ++ (g :: tl)) := by
  intro c hc
  rw [List.dropWhile_append_of_pos hbl, dropWhile_blank_head g _ hgb] at hc
  cases hc
  exact hg

theorem stops_digits_operator_terms (lim : IntLimits) (y tl : List Char)
    (hy : Unrolled lim .operator_terms y) (h : stops_digits tl) : stops_digits (y ++ tl) := by
  cases hy with
  | no_more => exact h
  | more bl c t y hbl hc ht hy =>
    rw [List.append_assoc, List.cons_append]
    exact stops_digits_blanks bl c _ hbl (not_digit_of_operator c hc)

theorem rest_push_back (s : Parser) (l : List Char) (k : token_t) :
    rest (push_back s l k) = rest s := rfl

/-! ## Completeness on the zero-free fragment -/

/-- The blank-free text of a sentence of `Spaced` is a sentence of the grammar
of the spec. -/
theorem Spaced.derives (lim : IntLimits) (nt : nonterminal) (x : List Char)
    (h : Spaced lim nt x) : Derives nt (strip_blanks x) := by
  induction h with
  | term_integer bl w hbl hlit =>
    have hw : Derives .integer w := by
      rcases hlit.1 with hn | ⟨u, rfl, hn⟩
      · exact .integer_natural _ hn
      · exact .integer_minus _ hn
    rw [strip_blanks_append, strip_blanks_of_blank bl hbl,
      strip_blanks_of_no_blank w hw.no_blank_integer]
    exact .term_integer _ hw
  | term_scope bl x bl2 hbl hx hbl2 ih =>
    have e : strip_blanks (bl ++ ('(' :: (x ++ (bl2 ++ [')'])))) =
        '(' :: strip_blanks x ++ [')'] := by
      have h1 : bl ++ ('(' :: (x ++ (bl2 ++ [')']))) = bl ++ (['('] ++ (x ++ (bl2 ++ [')']))) :=
        rfl
      rw [h1, strip_blanks_append, strip_blanks_append, strip_blanks_append,
        strip_blanks_append, strip_blanks_of_blank bl hbl, strip_blanks_of_blank bl2 hbl2,
        strip_blanks_scope.1, strip_blanks_scope.2]
      rfl
    rw [e]
    exact .term_scope _ ih
  | expression_term t ht ih => exact .expression_term _ ih
  | expression_more x bl c t hx hbl hc ht ihx iht =>
    have e : strip_blanks (x ++ (bl ++ (c :: t))) = strip_blanks x ++ c :: strip_blanks t := by
      have h1 : x ++ (bl ++ (c :: t)) = x ++ (bl ++ ([c] ++ t)) := rfl
      rw [h1, strip_blanks_append, strip_blanks_append, strip_blanks_append,
        strip_blanks_of_blank bl hbl, strip_blanks_singleton c (is_operator_not_blank c hc)]
      rfl
    rw [e]
    exact .expression_more _ c _ ihx hc iht

theorem Unrolled.snoc (lim : IntLimits) (nt : unrolled_nonterminal) (y : List Char)
    (h : Unrolled lim nt y) : nt = .operator_terms →
    ∀ (bl : List Char) (c : Char) (t : List Char), (∀ b ∈ bl, is_blank b = true) →
      is_operator c = true → Unrolled lim .term t →
      Unrolled lim .operator_terms (y ++ (bl ++ (c :: t))) := by
  induction h with
  | literal bl w hbl hlit => intro h; cases h
  | scope bl x bl2 hbl hx hbl2 ih => intro h; cases h
  | expression t y ht hy iht ihy => intro h; cases h
  | no_more =>
    intro _ bl c t hbl hc ht
    have := Unrolled.more bl c t [] hbl hc ht .no_more
    rw [List.append_nil] at this
    exact this
  | more bl0 c0 t0 y0 hbl0 hc0 ht0 hy0 iht ihy =>
    intro _ bl c t hbl hc ht
    have := Unrolled.more bl0 c0 t0 _ hbl0 hc0 ht0 (ihy rfl bl c t hbl hc ht)
    rw [List.append_assoc, List.cons_append, List.append_assoc]
    exact this

theorem Unrolled.split (lim : IntLimits) (nt : unrolled_nonterminal) (x : List Char)
    (h : Unrolled lim nt x) : nt = .expression →
    ∃ t y, x = t ++ y ∧ Unrolled lim .term t ∧ Unrolled lim .operator_terms y := by
  cases h with
  | literal bl w hbl hlit => intro h; cases h
  | scope bl x bl2 hbl hx hbl2 => intro h; cases h
  | no_more => intro h; cases h
  | more bl0 c0 t0 y0 hbl0 hc0 ht0 hy0 => intro h; cases h
  | expression t y ht hy => intro _; exact ⟨t, y, rfl, ht, hy⟩

/-- Every sentence of `Spaced` is a sentence of the unrolled grammar. -/
theorem Spaced.unroll (lim : IntLimits) (nt : nonterminal) (x : List Char)
    (h : Spaced lim nt x) :
    (nt = .term → Unrolled lim .term x) ∧ (nt = .expression → Unrolled lim .expression x) := by
  induction h with
  | term_integer bl w hbl hlit =>
    exact ⟨fun _ => .literal bl w hbl hlit, fun h => by cases h⟩
  | term_scope bl x bl2 hbl hx hbl2 ih =>
    exact ⟨fun _ => .scope bl x bl2 hbl (ih.2 rfl) hbl2, fun h => by cases h⟩
  | expression_term t ht ih =>
    refine ⟨fun h => (by cases h), fun _ => ?_⟩
    have := Unrolled.expression t [] (ih.1 rfl) .no_more
    rw [List.append_nil] at this
    exact this
  | expression_more x bl c t hx hbl hc ht ihx iht =>
    refine ⟨fun h => (by cases h), fun _ => ?_⟩
    obtain ⟨t0, y0, rfl, ht0, hy0⟩ := Unrolled.split lim _ _ (ihx.2 rfl) rfl
    rw [List.append_assoc]
    exact .expression t0 _ ht0 (Unrolled.snoc lim _ _ hy0 rfl bl c t hbl hc (iht.1 rfl))

/-- The induction behind completeness: over every sentence of the unrolled
grammar the production that belongs to it returns `PARSER_OK` and stops behind
the sentence, whenever the required integer domain lies within `long long`. -/
theorem complete_all (lim : IntLimits) (hdom : LLONG_MIN ≤ lim.min ∧ lim.max ≤ LLONG_MAX)
    (nt : unrolled_nonterminal) (x : List Char) (h : Unrolled lim nt x) :
    Complete lim nt x := by
  induction h with
  | literal bl w hbl hlit =>
    intro n s tl hs hrest hstop hfuel
    cases n with
    | zero => exact absurd rfl hfuel
    | succ n => exact term_literal lim n s bl w tl hs hrest hbl hlit hdom hstop
  | scope bl x bl2 hbl hx hbl2 ih =>
    intro n s tl hs hrest hstop hfuel
    cases n with
    | zero => exact absurd rfl hfuel
    | succ n =>
      obtain ⟨bl0, -, st0⟩ := skip_ws_step s hs
      have hr0 : rest (skip_ws s) = '(' :: (x ++ (bl2 ++ (')' :: tl))) := by
        rw [(skip_ws_leading s hs).2, hrest, List.append_assoc,
          List.dropWhile_append_of_pos hbl, List.cons_append,
          dropWhile_blank_head '(' _ (by decide)]
        simp only [List.append_assoc, List.cons_append, List.nil_append]
      obtain ⟨ho, hro⟩ := expect_hits .TS_OPENING_SCOPE (skip_ws s) '(' _ st0.in_bounds
        (by rw [hr0]; exact dropWhile_blank_head '(' _ (by decide)) (by decide)
      obtain ⟨seg1, st1⟩ := expect_step .TS_OPENING_SCOPE (skip_ws s) st0.in_bounds
      have hb1 : (push_back (expect .TS_OPENING_SCOPE (skip_ws s)).2 ['(']
          .OPENING_SCOPE).it_curr_symb ≤ (push_back (expect .TS_OPENING_SCOPE (skip_ws s)).2
          ['('] .OPENING_SCOPE).expr.length := st1.in_bounds
      have hfuelE : (expression lim n (push_back (expect .TS_OPENING_SCOPE (skip_ws s)).2 ['(']
          .OPENING_SCOPE)).1 ≠ .no_fuel := by
        intro hc
        apply hfuel
        rw [term, if_pos ho]
        cases hX : expression lim n (push_back (expect .TS_OPENING_SCOPE (skip_ws s)).2 ['(']
          .OPENING_SCOPE) with
        | mk o s1 =>
          rw [hX] at hc
          dsimp only at hc
          subst hc
          rfl
      obtain ⟨r, s1, hE, hr, hr1⟩ := ih n _ (bl2 ++ (')' :: tl)) hb1
        ((rest_push_back _ _ _).trans hro)
        (stops_digits_blanks bl2 ')' tl hbl2 (by decide))
        (stops_operators_blanks bl2 ')' tl hbl2 (by decide) (by decide)) hfuelE
      have hs1 : s1.it_curr_symb ≤ s1.expr.length := by
        obtain ⟨_, _, st⟩ := (step_all lim n).2.1 _ hb1
        rw [hE] at st
        exact st.in_bounds
      have hr1' : rest s1 = ')' :: tl := by
        rw [hr1, List.dropWhile_append_of_pos hbl2]
        exact dropWhile_blank_head ')' _ (by decide)
      obtain ⟨hc, hrc⟩ := expect_hits .TS_CLOSING_SCOPE s1 ')' tl hs1
        (by rw [hr1']; exact dropWhile_blank_head ')' _ (by decide)) (by decide)
      rw [term, if_pos ho, hE]
      dsimp only
      rw [if_pos hr, if_neg (by rw [hc]; exact Bool.noConfusion)]
      exact ⟨r, _, rfl, hr, hrc⟩
  | no_more =>
    intro n r0 s tl hr0 hs hrest hsd hso hfuel
    cases n with
    | zero => exact absurd rfl hfuel
    | succ n =>
      have hrest' : rest s = tl := hrest
      rw [expression_loop]
      by_cases he : end_input s = false
      · obtain ⟨hm, hrm⟩ := expect_operator_misses s hs (by rw [hrest']; exact hso)
        rw [if_pos ⟨hr0, he⟩, if_neg (by rw [hm]; exact Bool.noConfusion)]
        exact ⟨r0, _, rfl, hr0, by rw [hrm, hrest']⟩
      · rw [if_neg (fun h => he h.2)]
        have hnil : rest s = [] :=
          rest_nil_of_end s (by cases h : end_input s; exact absurd h he; rfl)
        refine ⟨r0, s, rfl, hr0, ?_⟩
        rw [← hrest', hnil]
        rfl
  | more bl c t y hbl hc ht hy iht ihy =>
    intro n r0 s tl hr0 hs hrest hsd hso hfuel
    cases n with
    | zero => exact absurd rfl hfuel
    | succ n =>
      have hrest' : rest s = bl ++ (c :: (t ++ (y ++ tl))) := by
        rw [hrest]
        simp only [List.append_assoc, List.cons_append]
      have he : end_input s = false := by
        cases h : end_input s
        · rfl
        · rw [rest_nil_of_end s h] at hrest'
          cases bl <;> cases hrest'
      obtain ⟨ho, hro⟩ := expect_operator_hits s bl c _ hs hrest' hbl hc
      obtain ⟨bl', g', -, -, sto⟩ := (expect_operator_step s hs).1 ho
      have hfuelT : (term lim n (expect_operator s).2).1 ≠ .no_fuel := by
        intro hcf
        apply hfuel
        rw [expression_loop, if_pos ⟨hr0, he⟩, if_pos ho]
        cases hX : term lim n (expect_operator s).2 with
        | mk o s1 =>
          rw [hX] at hcf
          dsimp only at hcf
          subst hcf
          rfl
      obtain ⟨r1, s1, hT, hr1, hrest1⟩ := iht n _ (y ++ tl) sto.in_bounds hro
        (stops_digits_operator_terms lim y tl hy hsd) hfuelT
      have hs1 : s1.it_curr_symb ≤ s1.expr.length := by
        obtain ⟨_, _, st⟩ := (step_all lim n).1 _ sto.in_bounds
        rw [hT] at st
        exact st.in_bounds
      have hE : expression_loop lim (n + 1) r0 s = expression_loop lim n r1 s1 := by
        rw [expression_loop, if_pos ⟨hr0, he⟩, if_pos ho, hT]
        dsimp only
        rw [if_neg (fun h => h hr1)]
      rw [hE] at hfuel ⊢
      exact ihy n r1 s1 tl hr1 hs1 hrest1 hsd hso hfuel
  | expression t y ht hy iht ihy =>
    intro n s tl hs hrest hsd hso hfuel
    cases n with
    | zero => exact absurd rfl hfuel
    | succ n =>
      cases n with
      | zero =>
        exfalso
        apply hfuel
        rw [expression, term]
      | succ n =>
        have hrest' : rest s = t ++ (y ++ tl) := by rw [hrest, List.append_assoc]
        have hfuelT : (term lim (n + 1) s).1 ≠ .no_fuel := by
          intro hcf
          apply hfuel
          rw [expression, term_skip_ws lim n s hs]
          cases hX : term lim (n + 1) s with
          | mk o s1 =>
            rw [hX] at hcf
            dsimp only at hcf
            subst hcf
            rfl
        obtain ⟨r1, s1, hT, hr1, hrest1⟩ := iht (n + 1) s (y ++ tl) hs hrest'
          (stops_digits_operator_terms lim y tl hy hsd) hfuelT
        have hs1 : s1.it_curr_symb ≤ s1.expr.length := by
          obtain ⟨_, _, st⟩ := (step_all lim (n + 1)).1 _ hs
          rw [hT] at st
          exact st.in_bounds
        have hE : expression lim (n + 1 + 1) s = expression_loop lim (n + 1) r1 s1 := by
          rw [expression, term_skip_ws lim n s hs, hT]
        rw [hE] at hfuel ⊢
        exact ihy (n + 1) r1 s1 tl hr1 hs1 hrest1 hsd hso hfuel

theorem Spaced.has_glyph (lim : IntLimits) (nt : nonterminal) (x : List Char)
    (h : Spaced lim nt x) : ∃ c ∈ x, is_blank c = false := by
  induction h with
  | term_integer bl w hbl hlit =>
    obtain ⟨g, tl, rfl, hg, -⟩ := literal_head lim w hlit
    exact ⟨g, List.mem_append_right _ (List.mem_cons_self _ _), hg⟩
  | term_scope bl x bl2 hbl hx hbl2 ih =>
    exact ⟨'(', List.mem_append_right _ (List.mem_cons_self _ _), by decide⟩
  | expression_term t ht ih => exact ih
  | expression_more x bl c t hx hbl hc ht ihx iht =>
    obtain ⟨g, hg, hgb⟩ := ihx
    exact ⟨g, List.mem_append_left _ hg, hgb⟩

theorem expression_skip_ws (lim : IntLimits) (n : Nat) (s : Parser)
    (hs : s.it_curr_symb ≤ s.expr.length) :
    expression lim (n + 1) (skip_ws s) = expression lim (n + 1) s := by
  rw [expression, expression, skip_ws_idem s hs]

/-- `parse` over a whole input of the zero-free fragment: `expression()` accepts
it up to the blanks at its end, and the final `skip_ws` reaches the end. -/
theorem parse_well_spaced (lim : IntLimits)
    (hdom : LLONG_MIN ≤ lim.min ∧ lim.max ≤ LLONG_MAX) (self : Parser) (e : List Char)
    (hwf : well_spaced lim e) :
    ∃ r, (parse lim self e).1 = .done r ∧ r.type = .PARSER_OK := by
  obtain ⟨x, bl, hx, hbl, rfl⟩ := hwf
  have hs0 := reset_in_bounds self (x ++ bl)
  have hrest0 : rest (self.reset (x ++ bl)) = x ++ bl := rfl
  have he : ¬ end_input (skip_ws (self.reset (x ++ bl))) = true := by
    intro he
    have hnil := rest_nil_of_end _ he
    rw [(skip_ws_leading _ hs0).2, hrest0, List.dropWhile_eq_nil_iff] at hnil
    obtain ⟨c, hc, hcb⟩ := Spaced.has_glyph lim _ _ hx
    have := hnil c (List.mem_append_left _ hc)
    rw [hcb] at this
    cases this
  have hlen : (self.reset (x ++ bl)).expr.length - (self.reset (x ++ bl)).it_curr_symb =
      (x ++ bl).length := rfl
  have hfuel : (expression lim (2 * (x ++ bl).length + 1 + 1) (self.reset (x ++ bl))).1 ≠
      .no_fuel :=
    (fuel_all lim _).2.1 _ hs0 (le_of_eq (by rw [hlen]))
  have hsd : stops_digits bl := by
    intro c hc
    cases bl with
    | nil => cases hc
    | cons b bl =>
      cases hc
      exact not_digit_of_blank _ (hbl _ (List.mem_cons_self _ _))
  have hblank : bl.dropWhile is_blank = [] := List.dropWhile_eq_nil_iff.2 hbl
  have hso : stops_operators bl := by
    intro c hc
    rw [hblank] at hc
    cases hc
  obtain ⟨r, s1, hE, hr, hr1⟩ := complete_all lim hdom _ _ ((Spaced.unroll lim _ _ hx).2 rfl)
    _ _ bl hs0 hrest0 hsd hso hfuel
  have hs1 : s1.it_curr_symb ≤ s1.expr.length := by
    obtain ⟨_, _, st⟩ := (step_all lim (2 * (x ++ bl).length + 1 + 1)).2.1 _ hs0
    rw [hE] at st
    exact st.in_bounds
  have hend : end_input (skip_ws s1) = true := by
    apply skip_ws_all_blank s1 hs1
    rw [hr1, hblank]
    intro c hc
    cases hc
  refine ⟨r, ?_, hr⟩
  unfold parse
  dsimp only
  rw [if_neg he]
  have hE2 : expression lim (2 * (x ++ bl).length + 2) (skip_ws (self.reset (x ++ bl))) =
      (.done r, s1) := by
    rw [← hE]
    exact expression_skip_ws lim (2 * (x ++ bl).length + 1) _ hs0
  rw [hE2]
  dsimp only
  rw [if_pos hr, if_neg (by rw [hend]; exact Bool.noConfusion)]

/-! ## The claims -/

/-- C1. The input `"0"` is derivable from the grammar nonterminal `expression`
and holds no literal outside any integer domain, yet `Parser::parse` does not
return `PARSER_OK` on it: `integer()` succeeds in front of the zero without
consuming it, `term()` hands the empty text between `begin_token` and the
cursor to `std::stoll`, and `std::invalid_argument` escapes from `parse`. -/
theorem parse_zero_throws (lim : IntLimits) (self : Parser) :
    Derives .expression "0".toList ∧
      (parse lim self "0".toList).1 = .thrown .invalid_argument := by
  refine ⟨.expression_term _ (.term_integer _ .integer_zero), ?_⟩
  rw [parse_fresh, parse_first_term_throws lim Parser.fresh "0".toList .invalid_argument
    ⟨"0".toList, 0, []⟩ (by decide)
    (term_throws lim _ _ _ _ (by decide) (by decide) (by decide) (by decide))]

/-- C2. Soundness: when `Parser::parse` returns `PARSER_OK`, the whole input was
consumed (the cursor stands at the length of the input, which is the end of
input) and the input with all space and tab characters removed is derivable
from the grammar nonterminal `expression`. -/
theorem parse_ok_sound (lim : IntLimits) (self : Parser) (e : List Char) (r : ParserResult)
    (h : (parse lim self e).1 = .done r) (hr : r.type = .PARSER_OK) :
    (parse lim self e).2.expr = e ∧ (parse lim self e).2.it_curr_symb = e.length ∧
      end_input (parse lim self e).2 = true ∧ Derives .expression (strip_blanks e) := by
  have hp : parse lim self e = (.done r, (parse lim self e).2) := by rw [← h]
  obtain ⟨h1, h2, -, h4, -⟩ := parse_ok lim self e r _ hp hr
  exact ⟨h1, h2, end_input_of_eq _ (by rw [h2, h1]), h4⟩

/-- Witness of C2 on `"( 3 - 4 ) * 5"`. -/
theorem parse_ok_sound_witness :
    (parse short_limits Parser.fresh "( 3 - 4 ) * 5".toList).2.it_curr_symb = 13 ∧
      Derives .expression (strip_blanks "( 3 - 4 ) * 5".toList) :=
  have h := parse_ok_sound short_limits Parser.fresh "( 3 - 4 ) * 5".toList ⟨.PARSER_OK, 0⟩
    (by decide) (by decide)
  ⟨h.2.1, h.2.2.2⟩

/-- C3. When `Parser::parse` returns `PARSER_OK`, the concatenation of the lexemes
of `get_tokens()`, in list order, equals the input with all space and tab
characters removed. When 1 to 5 lie within the required integer domain, `"1+2"`
gives the tokens `1`, `+`, `2` and `"(3-4)*5"` gives `(`, `3`, `-`, `4`, `)`,
`*`, `5`, with the kinds of the spec. -/
theorem parse_ok_lexemes (lim : IntLimits) (self : Parser) (e : List Char) (r : ParserResult)
    (h : (parse lim self e).1 = .done r) (hr : r.type = .PARSER_OK) :
    lexemes (get_tokens (parse lim self e).2) = strip_blanks e ∧
    (lim.min ≤ 1 → 5 ≤ lim.max →
      get_tokens (parse lim self "1+2".toList).2 =
        [⟨['1'], .OPERAND⟩, ⟨['+'], .OPERATOR⟩, ⟨['2'], .OPERAND⟩] ∧
      get_tokens (parse lim self "(3-4)*5".toList).2 =
        [⟨['('], .OPENING_SCOPE⟩, ⟨['3'], .OPERAND⟩, ⟨['-'], .OPERATOR⟩, ⟨['4'], .OPERAND⟩,
          ⟨[')'], .CLOSING_SCOPE⟩, ⟨['*'], .OPERATOR⟩, ⟨['5'], .OPERAND⟩]) := by
  have hp : parse lim self e = (.done r, (parse lim self e).2) := by rw [← h]
  refine ⟨(parse_ok lim self e r _ hp hr).2.2.1, fun hlo hhi => ?_⟩
  have w1 : parse ⟨1, 5⟩ self "1+2".toList = (.done ⟨.PARSER_OK, 0⟩, ⟨"1+2".toList, 3,
      [⟨['1'], .OPERAND⟩, ⟨['+'], .OPERATOR⟩, ⟨['2'], .OPERAND⟩]⟩) := by
    rw [parse_fresh]; decide
  have w2 : parse ⟨1, 5⟩ self "(3-4)*5".toList = (.done ⟨.PARSER_OK, 0⟩, ⟨"(3-4)*5".toList, 7,
      [⟨['('], .OPENING_SCOPE⟩, ⟨['3'], .OPERAND⟩, ⟨['-'], .OPERATOR⟩, ⟨['4'], .OPERAND⟩,
        ⟨[')'], .CLOSING_SCOPE⟩, ⟨['*'], .OPERATOR⟩, ⟨['5'], .OPERAND⟩]⟩) := by
    rw [parse_fresh]; decide
  rw [parse_widen ⟨1, 5⟩ lim hlo hhi self _ _ _ w1 rfl,
    parse_widen ⟨1, 5⟩ lim hlo hhi self _ _ _ w2 rfl]
  exact ⟨rfl, rfl⟩

/-- Witness of C3 on `"12 * ( -7 + 30 )"`. -/
theorem parse_ok_lexemes_witness :
    lexemes (get_tokens (parse short_limits Parser.fresh "12 * ( -7 + 30 )".toList).2) =
      "12*(-7+30)".toList :=
  (parse_ok_lexemes short_limits Parser.fresh "12 * ( -7 + 30 )".toList ⟨.PARSER_OK, 0⟩
    (by decide) (by decide)).1

/-- C4. When `Parser::parse` returns `PARSER_OK`, the sequence of token kinds in
`get_tokens()` is derivable from the token-level grammar `E := T { OPERATOR T }`,
`T := OPERAND | OPENING_SCOPE E CLOSING_SCOPE`; the list is non-empty, its
parentheses are balanced, and every `OPERATOR` stands strictly between two
terms. -/
theorem parse_ok_token_grammar (lim : IntLimits) (self : Parser) (e : List Char)
    (r : ParserResult) (h : (parse lim self e).1 = .done r) (hr : r.type = .PARSER_OK) :
    TokenDerives .E (kinds (get_tokens (parse lim self e).2)) ∧
      get_tokens (parse lim self e).2 ≠ [] ∧
      balanced (kinds (get_tokens (parse lim self e).2)) = true ∧
      operators_between (kinds (get_tokens (parse lim self e).2)) := by
  have hp : parse lim self e = (.done r, (parse lim self e).2) := by rw [← h]
  have hd := (parse_ok lim self e r _ hp hr).2.2.2.2
  refine ⟨hd, ?_, hd.balanced, hd.shape.2⟩
  intro hnil
  apply hd.shape.1
  unfold get_tokens at hnil
  rw [hnil]
  rfl

/-- Witness of C4 on `"(1+2)/(3)"`. -/
theorem parse_ok_token_grammar_witness :
    balanced (kinds (get_tokens (parse short_limits Parser.fresh "(1+2)/(3)".toList).2))
      = true ∧
    operators_between (kinds (get_tokens (parse short_limits Parser.fresh
      "(1+2)/(3)".toList).2)) :=
  have h := parse_ok_token_grammar short_limits Parser.fresh "(1+2)/(3)".toList
    ⟨.PARSER_OK, 0⟩ (by decide) (by decide)
  ⟨h.2.2.1, h.2.2.2⟩

/-- C5. For every input consisting only of space and tab characters (the empty
input included), `Parser::parse` returns `UNEXPECTED_END_OF_EXPRESSION` with the
column equal to the length of the input. -/
theorem parse_blank_input (lim : IntLimits) (self : Parser) (e : List Char)
    (h : ∀ c ∈ e, c = ' ' ∨ c = '\t') :
    (parse lim self e).1 = .done ⟨.UNEXPECTED_END_OF_EXPRESSION, e.length⟩ := by
  have he : end_input (skip_ws (self.reset e)) = true :=
    skip_ws_all_blank _ (reset_in_bounds self e) (fun c hc => (is_blank_iff c).2 (h c hc))
  obtain ⟨bl, -, st⟩ := skip_ws_step (self.reset e) (reset_in_bounds self e)
  have hpos : (skip_ws (self.reset e)).it_curr_symb = e.length := by
    have h1 : (skip_ws (self.reset e)).it_curr_symb = (skip_ws (self.reset e)).expr.length := by
      unfold end_input at he
      simpa using he
    rw [h1, st.expr_eq]
    rfl
  unfold parse
  dsimp only
  rw [if_pos he, hpos]

/-- Witness of C5 on space, tab, space. -/
theorem parse_blank_input_witness :
    (parse short_limits Parser.fresh [' ', '\t', ' ']).1 =
      .done ⟨.UNEXPECTED_END_OF_EXPRESSION, 3⟩ :=
  parse_blank_input short_limits Parser.fresh [' ', '\t', ' '] (by decide)

/-- C6. When `expression()`, run by `Parser::parse` on the input `e`, succeeds
and stops at position `k`, so that `e` is `p ++ r` with `p = e.take k` consumed
and `r = e.drop k` unread, and `r` without its leading spaces and tabs is not
empty, then `parse` returns `EXTRANEOUS_SYMBOL` with the column `p.length` plus
the number of leading blanks of `r`, which is the index in the input of the
first non-blank character of `r`. When 1 to 12 lie within the required integer
domain, `"12a"` gives column 2 and `"1+2)"` gives column 3. -/
theorem parse_extraneous (lim : IntLimits) (self : Parser) (e : List Char)
    (r : ParserResult) (s1 : Parser)
    (hE : expression lim (2 * e.length + 2) (skip_ws (self.reset e)) = (.done r, s1))
    (hr : r.type = .PARSER_OK)
    (hrest : (e.drop s1.it_curr_symb).dropWhile is_blank ≠ []) :
    (parse lim self e).1 = .done ⟨.EXTRANEOUS_SYMBOL,
      (e.take s1.it_curr_symb).length +
        ((e.drop s1.it_curr_symb).takeWhile is_blank).length⟩ ∧
    (lim.min ≤ 1 → 12 ≤ lim.max →
      (parse lim self "12a".toList).1 = .done ⟨.EXTRANEOUS_SYMBOL, 2⟩ ∧
      (parse lim self "1+2)".toList).1 = .done ⟨.EXTRANEOUS_SYMBOL, 3⟩) := by
  constructor
  · obtain ⟨h1, h2⟩ := parse_extraneous_core lim self e r s1 hE hr hrest
    rw [h1, List.length_take, Nat.min_eq_left h2]
  · intro hlo hhi
    have w1 : expression ⟨1, 12⟩ (2 * "12a".toList.length + 2)
        (skip_ws (Parser.fresh.reset "12a".toList)) =
        (.done ⟨.PARSER_OK, 0⟩, ⟨"12a".toList, 2, [⟨['1', '2'], .OPERAND⟩]⟩) := by decide
    have w2 : expression ⟨1, 12⟩ (2 * "1+2)".toList.length + 2)
        (skip_ws (Parser.fresh.reset "1+2)".toList)) =
        (.done ⟨.PARSER_OK, 0⟩, ⟨"1+2)".toList, 3,
          [⟨['1'], .OPERAND⟩, ⟨['+'], .OPERATOR⟩, ⟨['2'], .OPERAND⟩]⟩) := by decide
    have v1 := (widen_all ⟨1, 12⟩ lim hlo hhi _).2.1 _ _ _ w1 rfl
    have v2 := (widen_all ⟨1, 12⟩ lim hlo hhi _).2.1 _ _ _ w2 rfl
    rw [parse_fresh lim self "12a".toList, parse_fresh lim self "1+2)".toList,
      (parse_extraneous_core lim Parser.fresh _ _ _ v1 rfl (by decide)).1,
      (parse_extraneous_core lim Parser.fresh _ _ _ v2 rfl (by decide)).1]
    exact ⟨rfl, rfl⟩

/-- Witness of C6 on `"7 * 8  )x"`: `expression()` stops at 7, in front of `)`. -/
theorem parse_extraneous_witness :
    (parse short_limits Parser.fresh "7 * 8  )x".toList).1 =
      .done ⟨.EXTRANEOUS_SYMBOL, 7⟩ :=
  (parse_extraneous short_limits Parser.fresh "7 * 8  )x".toList ⟨.PARSER_OK, 0⟩
    ⟨"7 * 8  )x".toList, 7, [⟨['7'], .OPERAND⟩, ⟨['*'], .OPERATOR⟩, ⟨['8'], .OPERAND⟩]⟩
    (by decide) (by decide) (by decide)).1

/-- C7. Whenever the loop of `expression()` (entered with a successful result
and with input left) has matched one of the five operators and the following
`term()` call returns a failure of any kind, the loop, and with it
`expression()`, returns `MISSING_TERM` with the column that `term()` reported,
in the state `term()` left; this holds in the first iteration, reached from the
first term of `expression()`, as in every later one. When 1 lies within the
required integer domain, `parse("1+")` returns `MISSING_TERM` at column 2. -/
theorem expression_retags_failed_term (lim : IntLimits) (self : Parser) (n : Nat)
    (r0 r1 : ParserResult) (s s1 : Parser) (hr0 : r0.type = .PARSER_OK)
    (hne : end_input s = false) (hop : (expect_operator s).1 = true)
    (hT : term lim n (expect_operator s).2 = (.done r1, s1))
    (hfail : r1.type ≠ .PARSER_OK) :
    expression_loop lim (n + 1) r0 s = (.done ⟨.MISSING_TERM, r1.at_col⟩, s1) ∧
    (∀ s0, term lim (n + 1) (skip_ws s0) = (.done r0, s) →
      expression lim (n + 2) s0 = (.done ⟨.MISSING_TERM, r1.at_col⟩, s1)) ∧
    (lim.min ≤ 1 → 1 ≤ lim.max →
      (parse lim self "1+".toList).1 = .done ⟨.MISSING_TERM, 2⟩) := by
  have hloop := expression_loop_retag lim n r0 r1 s s1 hr0 hne hop hT hfail
  refine ⟨hloop, ?_, ?_⟩
  · intro s0 h0
    rw [expression, h0]
    exact hloop
  · intro hlo hhi
    have w : term ⟨1, 1⟩ 5 (skip_ws (skip_ws (Parser.fresh.reset "1+".toList))) =
        (.done ⟨.PARSER_OK, 0⟩, ⟨"1+".toList, 1, [⟨['1'], .OPERAND⟩]⟩) := by decide
    have v := (widen_all ⟨1, 1⟩ lim hlo hhi _).1 _ _ _ w rfl
    have ht : term lim 4 (expect_operator ⟨"1+".toList, 1, [⟨['1'], .OPERAND⟩]⟩).2 =
        (.done ⟨.ILL_FORMED_INTEGER, 2⟩,
          ⟨"1+".toList, 2, [⟨['1'], .OPERAND⟩, ⟨['+'], .OPERATOR⟩]⟩) := rfl
    have hl := expression_loop_retag lim 4 ⟨.PARSER_OK, 0⟩ _ _ _ rfl (by decide) (by decide)
      ht (by decide)
    have hx : expression lim (2 * "1+".toList.length + 2)
        (skip_ws (Parser.fresh.reset "1+".toList)) =
        (.done ⟨.MISSING_TERM, 2⟩,
          ⟨"1+".toList, 2, [⟨['1'], .OPERAND⟩, ⟨['+'], .OPERATOR⟩]⟩) := by
      show expression lim (5 + 1) _ = _
      rw [expression, v]
      exact hl
    rw [parse_fresh, parse_expression_fails lim Parser.fresh "1+".toList _ _ (by decide) hx
      (by decide)]

/-- Witness of C7 on `"5 - ("`: the term after `-` fails with
`ILL_FORMED_INTEGER` at column 5. -/
theorem expression_retags_failed_term_witness :
    expression_loop short_limits 4 ⟨.PARSER_OK, 0⟩ ⟨"5 - (".toList, 1, [⟨['5'], .OPERAND⟩]⟩ =
      (.done ⟨.MISSING_TERM, 5⟩, ⟨"5 - (".toList, 5,
        [⟨['5'], .OPERAND⟩, ⟨['-'], .OPERATOR⟩, ⟨['('], .OPENING_SCOPE⟩]⟩) :=
  (expression_retags_failed_term short_limits Parser.fresh 3 ⟨.PARSER_OK, 0⟩
    ⟨.ILL_FORMED_INTEGER, 5⟩ ⟨"5 - (".toList, 1, [⟨['5'], .OPERAND⟩]⟩
    ⟨"5 - (".toList, 5, [⟨['5'], .OPERAND⟩, ⟨['-'], .OPERATOR⟩, ⟨['('], .OPENING_SCOPE⟩]⟩
    (by decide) (by decide) (by decide) (by decide) (by decide)).1

/-- C8. Whenever `term()` matches an opening parenthesis, the inner
`expression()` succeeds, and after skipping spaces and tabs the input is
exhausted or the next character is not `)`, `term()` returns
`MISSING_CLOSING_PARENTHESIS` with the column equal to the cursor position after
skipping those blanks, and the token list is the one the inner expression left:
no `CLOSING_SCOPE` token is appended. When 1 and 2 lie within the required
integer domain, `parse("(1+2")` returns `MISSING_CLOSING_PARENTHESIS` at
column 4. -/
theorem term_missing_closing (lim : IntLimits) (self : Parser) (n : Nat) (s s1 : Parser)
    (r1 : ParserResult) (hopen : (expect .TS_OPENING_SCOPE (skip_ws s)).1 = true)
    (hE : expression lim n
      (push_back (expect .TS_OPENING_SCOPE (skip_ws s)).2 ['('] .OPENING_SCOPE) = (.done r1, s1))
    (hr1 : r1.type = .PARSER_OK)
    (hnc : end_input (skip_ws s1) = true ∨ deref (skip_ws s1) ≠ ')') :
    (term lim (n + 1) s).1 =
      .done ⟨.MISSING_CLOSING_PARENTHESIS, (skip_ws s1).it_curr_symb⟩ ∧
    (term lim (n + 1) s).2 = skip_ws s1 ∧
    (term lim (n + 1) s).2.token_list = s1.token_list ∧
    (lim.min ≤ 1 → 2 ≤ lim.max →
      (parse lim self "(1+2".toList).1 = .done ⟨.MISSING_CLOSING_PARENTHESIS, 4⟩) := by
  have hcore := term_missing_closing_core lim n s s1 r1 hopen hE hr1 hnc
  refine ⟨by rw [hcore], by rw [hcore], by rw [hcore]; exact skip_ws_tokens s1, ?_⟩
  intro hlo hhi
  have w : expression ⟨1, 2⟩ 8 (push_back (expect .TS_OPENING_SCOPE
      (skip_ws (skip_ws (Parser.fresh.reset "(1+2".toList)))).2 ['('] .OPENING_SCOPE) =
      (.done ⟨.PARSER_OK, 0⟩, ⟨"(1+2".toList, 4, [⟨['('], .OPENING_SCOPE⟩,
        ⟨['1'], .OPERAND⟩, ⟨['+'], .OPERATOR⟩, ⟨['2'], .OPERAND⟩]⟩) := by decide
  have v := (widen_all ⟨1, 2⟩ lim hlo hhi _).2.1 _ _ _ w rfl
  have ht := term_missing_closing_core lim 8 (skip_ws (Parser.fresh.reset "(1+2".toList)) _ _
    (by decide) v rfl (by decide)
  have hx := expression_first_term_fails lim 8 (Parser.fresh.reset "(1+2".toList) _ _ ht
    (by decide)
  rw [parse_fresh, parse_expression_fails lim Parser.fresh "(1+2".toList _ _ (by decide) hx
    (by decide)]
  rfl

/-- Witness of C8 on `" ( 9 ^ 2 ; "`: a `;` stands where `)` is required. -/
theorem term_missing_closing_witness :
    (term short_limits 5 ⟨" ( 9 ^ 2 ; ".toList, 0, []⟩).1 =
      .done ⟨.MISSING_CLOSING_PARENTHESIS, 9⟩ :=
  (term_missing_closing short_limits Parser.fresh 4 ⟨" ( 9 ^ 2 ; ".toList, 0, []⟩
    ⟨" ( 9 ^ 2 ; ".toList, 9, [⟨['('], .OPENING_SCOPE⟩, ⟨['9'], .OPERAND⟩,
      ⟨['^'], .OPERATOR⟩, ⟨['2'], .OPERAND⟩]⟩ ⟨.PARSER_OK, 0⟩
    (by decide) (by decide) (by decide) (by decide)).1

/-- C9. The literal `9223372036854775808` (2 to the power 63) is a syntactically
valid integer literal, yet `Parser::parse` does not return
`INTEGER_OUT_OF_RANGE` on it for any required integer domain: `std::stoll`
throws `std::out_of_range`, which escapes from `parse`; the cursor stands
behind the literal and the token list is empty. A literal that fits
`long long` takes the path the claim describes: with the bounds of a 16-bit
domain, `"  40000"` gives `INTEGER_OUT_OF_RANGE` at column 2, where the literal
begins, and no token. -/
theorem parse_huge_literal_throws (lim : IntLimits) (self : Parser) :
    Derives .integer "9223372036854775808".toList ∧
      parse lim self "9223372036854775808".toList =
        (.thrown .out_of_range, ⟨"9223372036854775808".toList, 19, []⟩) ∧
      parse short_limits self "  40000".toList =
        (.done ⟨.INTEGER_OUT_OF_RANGE, 2⟩, ⟨"  40000".toList, 7, []⟩) := by
  refine ⟨.integer_natural _ (.natural_number '9' "223372036854775808".toList (by decide)
    (by decide)), ?_, ?_⟩
  · rw [parse_fresh]
    exact parse_first_term_throws lim Parser.fresh "9223372036854775808".toList .out_of_range
      ⟨"9223372036854775808".toList, 19, []⟩ (by decide)
      (term_throws lim _ _ _ _ (by decide) (by decide) (by decide) (by decide))
  · rw [parse_fresh]
    decide

/-- C10. Parsing the input `"0"` does not return `PARSER_OK` and records no
token: the zero branch of `integer()` consumes no character, so the cursor
stays at 0, the literal text handed to `std::stoll` is empty,
`std::invalid_argument` escapes, and the token list stays empty. -/
theorem parse_zero_state (lim : IntLimits) (self : Parser) :
    parse lim self "0".toList = (.thrown .invalid_argument, ⟨"0".toList, 0, []⟩) ∧
      (integer ⟨"0".toList, 0, []⟩).2.it_curr_symb = 0 ∧
      substring (integer ⟨"0".toList, 0, []⟩).2 0 = [] := by
  refine ⟨?_, by decide, by decide⟩
  rw [parse_fresh]
  exact parse_first_term_throws lim Parser.fresh "0".toList .invalid_argument
    ⟨"0".toList, 0, []⟩ (by decide)
    (term_throws lim _ _ _ _ (by decide) (by decide) (by decide) (by decide))

/-- C13. State reset: for every input `e` and every two states `s1`, `s2` of the
instance (any previous expression, cursor position and token list), `parse(e)`
started from `s1` and from `s2` returns the same outcome (kind and column) and
leaves the same instance, token list included; hence parsing the same input a
second time on the instance the first call left gives the same outcome and the
same token list. -/
theorem parse_state_reset (lim : IntLimits) (s1 s2 : Parser) (e : List Char) :
    (parse lim s1 e).1 = (parse lim s2 e).1 ∧
      get_tokens (parse lim s1 e).2 = get_tokens (parse lim s2 e).2 ∧
      (parse lim s1 e).2 = (parse lim s2 e).2 ∧
      (parse lim (parse lim s1 e).2 e).1 = (parse lim s1 e).1 ∧
      get_tokens (parse lim (parse lim s1 e).2 e).2 = get_tokens (parse lim s1 e).2 := by
  have h12 : parse lim s1 e = parse lim s2 e := by
    rw [parse_fresh lim s1 e, parse_fresh lim s2 e]
  have h11 : parse lim (parse lim s1 e).2 e = parse lim s1 e := by
    rw [parse_fresh lim (parse lim s1 e).2 e, parse_fresh lim s1 e]
  exact ⟨by rw [h12], by rw [h12], by rw [h12], by rw [h11], by rw [h11]⟩

/-- C15. Cursor invariant: from any state with the position within the input,
each of `accept`, `expect`, `skip_ws`, `digit`, `digit_excl_zero`,
`natural_number`, `integer`, `term`, `expression` and the loop of `expression`
leaves the input string as it is, leaves a position not smaller than before
and not greater than the length; `term` and `expression` do so whatever their
outcome. `peek` is a const member: it returns a flag and has no state to
leave. -/
theorem cursor_invariant (lim : IntLimits) (n : Nat) (c_ : terminal_symbol_t)
    (r0 : ParserResult) (s : Parser) (hs : s.it_curr_symb ≤ s.expr.length) :
    Forward s (accept c_ s).2 ∧ Forward s (expect c_ s).2 ∧ Forward s (skip_ws s) ∧
      Forward s (digit s).2 ∧ Forward s (digit_excl_zero s).2 ∧
      Forward s (natural_number s).2 ∧ Forward s (integer s).2 ∧
      Forward s (term lim n s).2 ∧ Forward s (expression lim n s).2 ∧
      Forward s (expression_loop lim n r0 s).2 := by
  obtain ⟨_, h1⟩ := accept_step c_ s hs
  obtain ⟨_, h2⟩ := expect_step c_ s hs
  obtain ⟨_, _, h3⟩ := skip_ws_step s hs
  obtain ⟨_, h4⟩ := digit_step s hs
  obtain ⟨_, h5⟩ := accept_step .TS_NON_ZERO_DIGIT s hs
  obtain ⟨_, h6⟩ := natural_number_step s hs
  obtain ⟨_, h7⟩ := integer_step s hs
  obtain ⟨_, _, h8⟩ := (step_all lim n).1 s hs
  obtain ⟨_, _, h9⟩ := (step_all lim n).2.1 s hs
  obtain ⟨_, _, h10⟩ := (step_all lim n).2.2 r0 s hs
  exact ⟨h1.forward, h2.forward, h3.forward, h4.forward, h5.forward, h6.forward,
    h7.forward, h8.forward, h9.forward, h10.forward⟩

/-- Witness of C15 in the middle of `"(12 + 3"`, at position 1. -/
theorem cursor_invariant_witness :
    Forward ⟨"(12 + 3".toList, 1, []⟩ (integer ⟨"(12 + 3".toList, 1, []⟩).2 ∧
      Forward ⟨"(12 + 3".toList, 1, []⟩
        (expression short_limits 9 ⟨"(12 + 3".toList, 1, []⟩).2 :=
  have h := cursor_invariant short_limits 9 .TS_PLUS ⟨.PARSER_OK, 0⟩
    ⟨"(12 + 3".toList, 1, []⟩ (by decide)
  ⟨h.2.2.2.2.2.2.1, h.2.2.2.2.2.2.2.2.1⟩

/-- C20. For every state with the position within the input and every terminal
symbol `c_`: `accept(c_)` returns true exactly when the cursor is not at the end
of the input and the classifier maps the character at the position to `c_`;
when it returns true the position grows by exactly one, when it returns false
the position is the same; `peek(c_)` returns the same flag (it is a const
member and leaves no state); `accept` changes neither the token list nor the
input string. -/
theorem accept_peek_frame (c_ : terminal_symbol_t) (s : Parser)
    (hs : s.it_curr_symb ≤ s.expr.length) :
    ((accept c_ s).1 = true ↔
      (end_input s = false ∧ ∃ ch, s.expr[s.it_curr_symb]? = some ch ∧ lexer ch = c_)) ∧
    ((accept c_ s).1 = true → (accept c_ s).2.it_curr_symb = s.it_curr_symb + 1) ∧
    ((accept c_ s).1 = false → (accept c_ s).2.it_curr_symb = s.it_curr_symb) ∧
    peek c_ s = (accept c_ s).1 ∧
    (accept c_ s).2.token_list = s.token_list ∧ (accept c_ s).2.expr = s.expr := by
  refine ⟨⟨?_, ?_⟩, ?_, ?_, (accept_fst c_ s).symm, (accept_tokens c_ s).1,
    (accept_tokens c_ s).2⟩
  · intro h
    rw [accept_fst] at h
    obtain ⟨he, hl⟩ := peek_true c_ s h
    exact ⟨he, deref s, deref_eq_of_lt s (end_input_false_lt s hs he), hl⟩
  · rintro ⟨he, ch, hch, hl⟩
    rw [deref_eq_of_lt s (end_input_false_lt s hs he)] at hch
    cases hch
    rw [accept_fst]
    unfold peek
    rw [he, hl]
    simp
  · intro h
    exact (accept_true c_ s hs h).2.pos_eq
  · intro h
    rw [accept_false c_ s h]

/-- Witness of C20: `accept(TS_PLUS)` in front of the `+` of `"1+2"`. -/
theorem accept_peek_frame_witness :
    (accept .TS_PLUS ⟨"1+2".toList, 1, []⟩).2.it_curr_symb = 1 + 1 ∧
      peek .TS_PLUS ⟨"1+2".toList, 1, []⟩ = (accept .TS_PLUS ⟨"1+2".toList, 1, []⟩).1 :=
  have h := accept_peek_frame .TS_PLUS ⟨"1+2".toList, 1, []⟩ (by decide)
  ⟨h.2.1 (by decide), h.2.2.2.1⟩

/-- C11. For every input whose first character after the leading spaces and tabs
is `0`, whatever follows it, and so for `"01"`: `Parser::parse` returns no
result at all. `integer()` returns `PARSER_OK` in front of the zero without
consuming it, `term()` hands the empty text to `std::stoll`, and
`std::invalid_argument` escapes from `parse`, with the cursor in front of the
zero and an empty token list. No `ILL_FORMED_INTEGER` is returned. -/
theorem parse_leading_zero_throws (lim : IntLimits) (self : Parser) (bl tl : List Char)
    (hbl : ∀ c ∈ bl, is_blank c = true) :
    parse lim self (bl ++ '0' :: tl) =
      (.thrown .invalid_argument, ⟨bl ++ '0' :: tl, bl.length, []⟩) ∧
    parse lim self "01".toList = (.thrown .invalid_argument, ⟨"01".toList, 0, []⟩) :=
  ⟨parse_zero_first_core lim self bl tl hbl,
    parse_zero_first_core lim self [] ['1'] (by simp)⟩

/-- Witness of C11 on `"  007"`. -/
theorem parse_leading_zero_throws_witness :
    parse short_limits Parser.fresh "  007".toList =
      (.thrown .invalid_argument, ⟨"  007".toList, 2, []⟩) :=
  (parse_leading_zero_throws short_limits Parser.fresh [' ', ' '] ['0', '7']
    (by decide)).1

/-- C12. When `term()` is entered and, after the blanks, the input is exhausted
or the next character is none of `(`, `0`, `-` and the nonzero digits, `term()`
does not return `MISSING_TERM`: it returns `ILL_FORMED_INTEGER` with the column
equal to the entry position after skipping the blanks, and leaves the cursor
there. The value `MISSING_TERM` that `term()` gives `result` at that column on
entry is overwritten by `result = integer()` before it is returned. So
`parse("()")` returns `ILL_FORMED_INTEGER` at column 1 and not `MISSING_TERM`,
for every required integer domain. -/
theorem term_no_term (lim : IntLimits) (self : Parser) (n : Nat) (s : Parser)
    (hs : s.it_curr_symb ≤ s.expr.length)
    (h : end_input (skip_ws s) = true ∨
      (deref (skip_ws s) ≠ '(' ∧ deref (skip_ws s) ≠ '0' ∧ deref (skip_ws s) ≠ '-' ∧
        is_nonzero_digit (deref (skip_ws s)) = false)) :
    term lim (n + 1) s =
      (.done ⟨.ILL_FORMED_INTEGER, (skip_ws s).it_curr_symb⟩, skip_ws s) ∧
    (term lim (n + 1) s).1 ≠ .done ⟨.MISSING_TERM, (skip_ws s).it_curr_symb⟩ ∧
    (parse lim self "()".toList).1 = .done ⟨.ILL_FORMED_INTEGER, 1⟩ ∧
    ¬ (∃ col, (parse lim self "()".toList).1 = .done ⟨.MISSING_TERM, col⟩) := by
  have h1 := term_no_term_core lim n s hs h
  have h2 : (parse lim self "()".toList).1 = .done ⟨.ILL_FORMED_INTEGER, 1⟩ := by
    rw [parse_empty_scope]
  refine ⟨h1, ?_, h2, ?_⟩
  · rw [h1]
    intro hc
    cases hc
  · rintro ⟨col, hc⟩
    rw [h2] at hc
    cases hc

/-- Witness of C12 on `"4 *  x"`, entered behind the `*`. -/
theorem term_no_term_witness :
    term short_limits 1 ⟨"4 *  x".toList, 3, []⟩ =
      (.done ⟨.ILL_FORMED_INTEGER, 5⟩, ⟨"4 *  x".toList, 5, []⟩) :=
  (term_no_term short_limits Parser.fresh 0 ⟨"4 *  x".toList, 3, []⟩ (by decide)
    (by decide)).1

/-- C14. For every input and every outcome of `Parser::parse` (a result of any
kind or an escaping exception), each `OPERAND` token in the token list has a
lexeme that is a contiguous run of characters of the input, contains no space
or tab, is derivable from the grammar nonterminal `integer`, and denotes a
value within the bounds of the required integer domain. -/
theorem operand_tokens_are_literals (lim : IntLimits) (self : Parser) (e : List Char)
    (tok : Token) (hmem : tok ∈ get_tokens (parse lim self e).2)
    (hop : tok.type = .OPERAND) :
    part_of tok.value e ∧ (∀ c ∈ tok.value, is_blank c = false) ∧
      Derives .integer tok.value ∧
      lim.min ≤ integer_value tok.value ∧ integer_value tok.value ≤ lim.max :=
  (parse_recorded lim self e).1 tok hmem hop

/-- Witness of C14: the operand `-7` of `"12 * ( -7 + 99999"`, an input on which
`parse` fails with `MISSING_TERM`. -/
theorem operand_tokens_are_literals_witness :
    part_of ['-', '7'] "12 * ( -7 + 99999".toList ∧ Derives .integer ['-', '7'] ∧
      (-32768 : Int) ≤ integer_value ['-', '7'] ∧ integer_value ['-', '7'] ≤ 32767 :=
  have h := operand_tokens_are_literals short_limits Parser.fresh
    "12 * ( -7 + 99999".toList ⟨['-', '7'], .OPERAND⟩ (by decide) rfl
  ⟨h.1, h.2.2.1, h.2.2.2.1, h.2.2.2.2⟩

/-- C18. For every input and every outcome of `Parser::parse` (success, any
failure kind, or an escaping exception), the concatenation of the lexemes in
the token list is an initial part of the input with all space and tab
characters removed. -/
theorem tokens_spell_initial_part (lim : IntLimits) (self : Parser) (e : List Char) :
    initial_part (lexemes (get_tokens (parse lim self e).2)) (strip_blanks e) :=
  (parse_recorded lim self e).2

/-- C17, the claim as stated fails in its clause on the loop: on `"1)"` the
body of the loop of `expression()` is entered behind the `1` (the result of
`term()` is `PARSER_OK` and the input is not exhausted), none of the five
operators matches, and that iteration leaves through `else return result` with
the cursor where it was, at position 1. It consumed no character. -/
theorem loop_iteration_counterexample :
    term short_limits 5 (skip_ws (Parser.fresh.reset "1)".toList)) =
      (.done ⟨.PARSER_OK, 0⟩, ⟨"1)".toList, 1, [⟨['1'], .OPERAND⟩]⟩) ∧
    end_input ⟨"1)".toList, 1, [⟨['1'], .OPERAND⟩]⟩ = false ∧
    (expect_operator ⟨"1)".toList, 1, [⟨['1'], .OPERAND⟩]⟩).1 = false ∧
    expression_loop short_limits 5 ⟨.PARSER_OK, 0⟩ ⟨"1)".toList, 1, [⟨['1'], .OPERAND⟩]⟩ =
      (.done ⟨.PARSER_OK, 0⟩, ⟨"1)".toList, 1, [⟨['1'], .OPERAND⟩]⟩) ∧
    (expression_loop short_limits 5 ⟨.PARSER_OK, 0⟩
      ⟨"1)".toList, 1, [⟨['1'], .OPERAND⟩]⟩).2.it_curr_symb = 1 := by
  decide

/-- C17, amended in the clause on the loop only. `Parser::parse` is total on
every finite input: the recursion of the model never runs out of budget, so
`parse` returns a result or lets an exception escape. Every call of
`expression()` from `term()` starts at a position strictly greater than the
position at which that `term()` was entered. Every iteration of the loop of
`expression()` that matched an operator consumed at least one character, both
behind the operator and behind the call of `term()` that ends the iteration.
So the depth of the nested calls of `expression()` and `term()` never exceeds
the input length: `parse_depth` counts the calls on the longest chain, the first
two of them are the `expression()` that `parse` calls and its `term()`, and
every level of recursion below them is one `expression()` called from `term()`
with its `term()`. Counted in calls, the two of `parse` included, the chain
has at most twice the input length plus two. -/
theorem parse_terminates (lim : IntLimits) (self : Parser) (e : List Char) :
    (parse lim self e).1 ≠ .no_fuel ∧
    (∀ s : Parser, s.it_curr_symb ≤ s.expr.length →
      (expect .TS_OPENING_SCOPE (skip_ws s)).1 = true →
      s.it_curr_symb < (push_back (expect .TS_OPENING_SCOPE (skip_ws s)).2 ['(']
        .OPENING_SCOPE).it_curr_symb) ∧
    (∀ (n : Nat) (s : Parser), s.it_curr_symb ≤ s.expr.length →
      (expect_operator s).1 = true →
      s.it_curr_symb < (expect_operator s).2.it_curr_symb ∧
        s.it_curr_symb < (term lim n (expect_operator s).2).2.it_curr_symb) ∧
    (parse_depth lim self e - 2) / 2 ≤ e.length ∧
    parse_depth lim self e ≤ 2 * e.length + 2 := by
  have hd := parse_depth_le lim self e
  exact ⟨parse_has_fuel lim self e, term_scope_advances,
    fun n s hs hop => ⟨operator_advances s hs hop, loop_pass_advances lim n s hs hop⟩,
    by omega, hd⟩

/-- Witness of C17 (amended): on `"("`, of length 1, the longest chain has one
level of recursion; on `"((7))"` `term()` entered at the second `(` calls
`expression()` behind it; on `"1 + 2"` the iteration of the loop entered behind
the `1` ends behind the `2`. -/
theorem parse_terminates_witness :
    (parse_depth short_limits Parser.fresh "(".toList - 2) / 2 ≤ 1 ∧
      (1 : Nat) < (push_back (expect .TS_OPENING_SCOPE
        (skip_ws ⟨"((7))".toList, 1, []⟩)).2 ['('] .OPENING_SCOPE).it_curr_symb ∧
      (1 : Nat) < (term short_limits 3
        (expect_operator ⟨"1 + 2".toList, 1, [⟨['1'], .OPERAND⟩]⟩).2).2.it_curr_symb :=
  ⟨(parse_terminates short_limits Parser.fresh "(".toList).2.2.2.1,
    (parse_terminates short_limits Parser.fresh "((7))".toList).2.1
      ⟨"((7))".toList, 1, []⟩ (by decide) (by decide),
    ((parse_terminates short_limits Parser.fresh "1 + 2".toList).2.2.1 3
      ⟨"1 + 2".toList, 1, [⟨['1'], .OPERAND⟩]⟩ (by decide) (by decide)).2⟩

/-- C16. The reads of `peek` and of `skip_ws` are guarded: each happens at an
index strictly less than the length. The read in the first statement of
`integer()` is not: whenever `term()` is entered with nothing but blanks left,
`integer()` reads at the index that equals the length. `parse("(")`, for every
required integer domain, does so at index 1, and `parse("1+")` at index 2 when
1 lies within the domain. -/
theorem integer_reads_at_end (lim : IntLimits) (self : Parser) :
    (∀ s : Parser, s.it_curr_symb ≤ s.expr.length →
      (∀ i ∈ peek_reads s, i < s.expr.length) ∧
      (∀ i ∈ skip_ws_reads s, i < s.expr.length)) ∧
    (∀ (n : Nat) (s : Parser), s.it_curr_symb ≤ s.expr.length →
      end_input (skip_ws s) = true → s.expr.length ∈ term_integer_reads lim (n + 1) s) ∧
    "(".toList.length ∈ parse_integer_reads lim self "(".toList ∧
    (lim.min ≤ 1 → 1 ≤ lim.max →
      "1+".toList.length ∈ parse_integer_reads lim self "1+".toList) := by
  refine ⟨fun s hs => ⟨peek_reads_lt s hs, skip_ws_reads_lt s hs⟩,
    fun n s hs he => term_reads_end lim n s hs he, ?_, ?_⟩
  · have h1 := term_reads_end lim 0 (skip_ws (push_back (expect .TS_OPENING_SCOPE
      (skip_ws (skip_ws (skip_ws (Parser.fresh.reset "(".toList))))).2 ['('] .OPENING_SCOPE))
      (by decide) (by decide)
    have hl : (skip_ws (push_back (expect .TS_OPENING_SCOPE
      (skip_ws (skip_ws (skip_ws (Parser.fresh.reset "(".toList))))).2 ['(']
      .OPENING_SCOPE)).expr.length = "(".toList.length := by decide
    rw [hl] at h1
    have h2 := mem_expression_of_term lim 1 _ _ h1
    have h3 := mem_term_of_scope lim 2 (skip_ws (skip_ws (Parser.fresh.reset "(".toList))) _
      (by decide) h2
    have h4 := mem_expression_of_term lim 3 _ _ h3
    rw [parse_integer_reads_fresh]
    exact mem_parse_of_expression lim Parser.fresh "(".toList _ (by decide) h4
  · intro hlo hhi
    have w : term ⟨1, 1⟩ 5 (skip_ws (skip_ws (Parser.fresh.reset "1+".toList))) =
        (.done ⟨.PARSER_OK, 0⟩, ⟨"1+".toList, 1, [⟨['1'], .OPERAND⟩]⟩) := by decide
    have v := (widen_all ⟨1, 1⟩ lim hlo hhi _).1 _ _ _ w rfl
    have h1 := term_reads_end lim 3
      (expect_operator ⟨"1+".toList, 1, [⟨['1'], .OPERAND⟩]⟩).2 (by decide) (by decide)
    have hl : (expect_operator ⟨"1+".toList, 1, [⟨['1'], .OPERAND⟩]⟩).2.expr.length =
        "1+".toList.length := by decide
    rw [hl] at h1
    have h2 := mem_loop_of_term lim 4 ⟨.PARSER_OK, 0⟩
      ⟨"1+".toList, 1, [⟨['1'], .OPERAND⟩]⟩ _ rfl (by decide) (by decide) h1
    have h3 := mem_expression_of_loop lim 5 (skip_ws (Parser.fresh.reset "1+".toList))
      _ _ _ v h2
    rw [parse_integer_reads_fresh]
    exact mem_parse_of_expression lim Parser.fresh "1+".toList _ (by decide) h3


/-- C19. Completeness on the zero-free fragment. Let the required integer
domain lie within `long long`, as the spec says of it. For every input that is
an expression of the grammar in which every integer literal is an optional `-`,
a nonzero digit and digits, every literal lies within the required integer
domain, and spaces and tabs stand only before a term, before an operator,
before a `)` or at the end: the input without its blanks is derivable from the
grammar of the spec, and `parse` returns a result (no conversion fault escapes)
whose type is `PARSER_OK`. -/
theorem parse_complete_zero_free (lim : IntLimits) (self : Parser) (e : List Char)
    (hdom : LLONG_MIN ≤ lim.min ∧ lim.max ≤ LLONG_MAX) (hwf : well_spaced lim e) :
    Derives .expression (strip_blanks e) ∧
      ∃ r, (parse lim self e).1 = .done r ∧ r.type = .PARSER_OK := by
  refine ⟨?_, parse_well_spaced lim hdom self e hwf⟩
  obtain ⟨x, bl, hx, hbl, rfl⟩ := hwf
  rw [strip_blanks_append, strip_blanks_of_blank bl hbl, List.append_nil]
  exact Spaced.derives lim _ _ hx

/-- Witness of C19 on `"( -7 + 30 ) * 2 "` with the bounds of a 16-bit
`short int`. -/
theorem parse_complete_zero_free_witness :
    well_spaced short_limits "( -7 + 30 ) * 2 ".toList ∧
      ∃ r, (parse short_limits Parser.fresh "( -7 + 30 ) * 2 ".toList).1 = .done r ∧
        r.type = .PARSER_OK :=
  have h7 : Spaced short_limits .term ([' '] ++ ['-', '7']) :=
    .term_integer [' '] ['-', '7'] (by decide)
      ⟨Or.inr ⟨['7'], rfl, .natural_number '7' [] (by decide) (by decide)⟩,
        by decide, by decide⟩
  have h30 : Spaced short_limits .term ([' '] ++ ['3', '0']) :=
    .term_integer [' '] ['3', '0'] (by decide)
      ⟨Or.inl (.natural_number '3' ['0'] (by decide) (by decide)), by decide, by decide⟩
  have h2 : Spaced short_limits .term ([' '] ++ ['2']) :=
    .term_integer [' '] ['2'] (by decide)
      ⟨Or.inl (.natural_number '2' [] (by decide) (by decide)), by decide, by decide⟩
  have hsum := Spaced.expression_more _ [' '] '+' _ (.expression_term _ h7) (by decide)
    (by decide) h30
  have hscope := Spaced.term_scope [] _ [' '] (by decide) hsum (by decide)
  have hprod := Spaced.expression_more _ [' '] '*' _ (.expression_term _ hscope) (by decide)
    (by decide) h2
  have hwf : well_spaced short_limits "( -7 + 30 ) * 2 ".toList :=
    ⟨_, [' '], hprod, by decide, rfl⟩
  ⟨hwf, (parse_complete_zero_free short_limits Parser.fresh "( -7 + 30 ) * 2 ".toList
    ⟨by decide, by decide⟩ hwf).2⟩

/-- Witness of C16 on `"1+"` with the bounds of a 16-bit `short int`: the read
of `integer()` at index 2, the length of the input. -/
theorem integer_reads_at_end_witness :
    short_limits.min ≤ 1 ∧ 1 ≤ short_limits.max ∧
      "1+".toList.length ∈ parse_integer_reads short_limits Parser.fresh "1+".toList :=
  ⟨by decide, by decide,
    (integer_reads_at_end short_limits Parser.fresh).2.2.2 (by decide) (by decide)⟩

end Bares
